import Mathlib

/-!
Verification of the Toy-dialect canonicalization patterns of
src/toy/src/mlir/ToyCombine.cpp.

The file shallowly embeds the value/operation graph of the IR, the two
rewrite patterns SimplifyRedundantTranspose and ReshapeReshapeOptPattern
exactly as the source writes them, and a worklist rewrite driver with
dead-operation cleanup modelled from the specification (the driver itself
is part of the excluded host framework).  On top of that we prove the
contracts of the two patterns, their failure (frame) behaviour, chain
collapsing, termination, idempotence of the pass, and semantic
preservation for a 2D tensor semantics.
-/

namespace Toy

/-- Result type descriptor of a value: a 2D tensor shape, rows by columns. -/
structure Ty where
  rows : Nat
  cols : Nat
deriving DecidableEq

/-- Total number of elements of a shape. -/
def Ty.count (t : Ty) : Nat := t.rows * t.cols

/-- Shape of the transposed tensor: the two axes reversed. -/
def Ty.swap (t : Ty) : Ty := ⟨t.cols, t.rows⟩

/-- An SSA value: a block argument, or the result of the operation with the given id. -/
inductive Value where
  | arg (n : Nat)
  | res (i : Nat)
deriving DecidableEq

/-- Operation kind: Transpose, Reshape, or any other kind of the dialect
(Constant, Add, ...) identified by a numeric tag. -/
inductive OpKind where
  | transpose
  | reshape
  | other (tag : Nat)
deriving DecidableEq

/-- An operation of the IR graph: an identifier, a kind, the ordered operand
values, and the result type. -/
structure Op where
  id : Nat
  kind : OpKind
  operands : List Value
  retTy : Ty
deriving DecidableEq

/-- The IR graph: the operations in program order (definitions before uses),
the types of the block arguments, and the externally observed output values. -/
structure Graph where
  ops : List Op
  argTy : Nat → Ty
  outputs : List Value

/-- Substitution on a single value: occurrences of old become new. -/
def substV (old new v : Value) : Value := if v = old then new else v

/-- Substitution applied to the operands of one operation. -/
def Op.subst (old new : Value) (o : Op) : Op :=
  { o with operands := o.operands.map (substV old new) }

/-- Look up the operation with a given id. -/
def Graph.findOp (g : Graph) (i : Nat) : Option Op :=
  g.ops.find? (fun o => o.id == i)

/-- Defining operation of a value: none for a block argument. -/
def Graph.definingOp (g : Graph) : Value → Option Op
  | Value.arg _ => none
  | Value.res i => g.findOp i

/-- Defining operation of a value restricted to a kind, as value.getDefiningOp
of the host IR instantiated at an operation class: none when the value is a
block argument or its defining operation has a different kind. -/
def Graph.definingOpOfKind (g : Graph) (v : Value) (k : OpKind) : Option Op :=
  match g.definingOp v with
  | some o => if o.kind = k then some o else none
  | none => none

/-- The rewriter primitive replaceOp: every use of the result of operation i,
in operand lists and in the graph outputs, is redirected to v, and the
operation is erased. -/
def Graph.replaceOpWith (g : Graph) (i : Nat) (v : Value) : Graph :=
  { ops := (g.ops.map (Op.subst (Value.res i) v)).filter (fun o => !(o.id == i))
  , argTy := g.argTy
  , outputs := g.outputs.map (substV (Value.res i) v) }

/-- Largest operation id present in the graph. -/
def Graph.maxId (g : Graph) : Nat := g.ops.foldr (fun o m => max o.id m) 0

/-- A fresh id, distinct from every operation id of the graph. -/
def Graph.freshId (g : Graph) : Nat := g.maxId + 1

/-- Insert a new operation immediately before the operation with id i
(the insertion point the rewriter uses when replacing an operation). -/
def insertBefore (i : Nat) (newOp : Op) : List Op → List Op
  | [] => [newOp]
  | o :: rest => if o.id = i then newOp :: o :: rest else o :: insertBefore i newOp rest

/-- Shallow embedding of SimplifyRedundantTranspose.matchAndRewrite of
ToyCombine.cpp: look through the input of the transpose; if it is not
defined by another transpose, fail; otherwise replace the operation by the
inner transpose's operand.  The result is the rewritten graph, or none on
match failure. -/
def simplifyRedundantTranspose (g : Graph) (op : Op) : Option Graph :=
  match op.operands with
  | [transposeInput] =>
    match g.definingOpOfKind transposeInput OpKind.transpose with
    | none => none
    | some transposeInputOp =>
      match transposeInputOp.operands with
      | [innerOperand] => some (g.replaceOpWith op.id innerOperand)
      | _ => none
  | _ => none

/-- Shallow embedding of ReshapeReshapeOptPattern.matchAndRewrite of
ToyCombine.cpp: look through the input of the reshape; if it is not defined
by another reshape, fail; otherwise replace the operation with a new
Reshape operation whose result type is the matched operation's result type
and whose sole operand is the inner reshape's operand. -/
def reshapeReshapeOpt (g : Graph) (op : Op) : Option Graph :=
  match op.operands with
  | [reshapeInput] =>
    match g.definingOpOfKind reshapeInput OpKind.reshape with
    | none => none
    | some reshapeInputOp =>
      match reshapeInputOp.operands with
      | [innerOperand] =>
        let nid := g.freshId
        let newOp : Op := ⟨nid, OpKind.reshape, [innerOperand], op.retTy⟩
        some (Graph.replaceOpWith ⟨insertBefore op.id newOp g.ops, g.argTy, g.outputs⟩
                op.id (Value.res nid))
      | _ => none
  | _ => none

/-- Modelled from the spec: the registry dispatch of the canonicalization
framework (not under src/) — each operation kind is tried against the
patterns registered for it: SimplifyRedundantTranspose for Transpose,
ReshapeReshapeOptPattern for Reshape, no pattern otherwise. -/
def tryPattern (g : Graph) (op : Op) : Option Graph :=
  match op.kind with
  | OpKind.transpose => simplifyRedundantTranspose g op
  | OpKind.reshape => reshapeReshapeOpt g op
  | OpKind.other _ => none

/-- Modelled from the spec: one scan of the worklist driver (not under src/):
try the operations in program order, apply the first pattern that matches. -/
def stepAux (g : Graph) : List Op → Option Graph
  | [] => none
  | o :: rest =>
    match tryPattern g o with
    | some h => some h
    | none => stepAux g rest

/-- Modelled from the spec: a single driver step, none when no pattern
matches anywhere in the graph. -/
def Graph.step (g : Graph) : Option Graph := stepAux g g.ops

/-- All values used by the graph: operands of the operations plus outputs. -/
def Graph.usedValues (g : Graph) : List Value :=
  (g.ops.map (fun o => o.operands)).flatten ++ g.outputs

/-- An operation is live when its result is used somewhere. -/
def Graph.isLive (g : Graph) (o : Op) : Bool := g.usedValues.contains (Value.res o.id)

/-- Modelled from the spec: one sweep of dead-operation cleanup of the driver
(not under src/) — unused operations are erased. -/
def dceOnce (g : Graph) : Graph := { g with ops := g.ops.filter (fun o => g.isLive o) }

/-- Iterated cleanup sweeps. -/
def dceIter : Nat → Graph → Graph
  | 0, g => g
  | n + 1, g => dceIter n (dceOnce g)

/-- Modelled from the spec: cascading dead-operation cleanup (as many sweeps
as there are operations, which suffices to reach a cleanup fixpoint). -/
def Graph.dce (g : Graph) : Graph := dceIter g.ops.length g

/-- Modelled from the spec: one full driver iteration — apply the first
matching pattern, then clean up operations that became dead. -/
def Graph.passStep (g : Graph) : Option Graph := g.step.map Graph.dce

/-- Modelled from the spec: the fueled fixed-point loop of the driver. -/
def runPass : Nat → Graph → Graph
  | 0, g => g
  | n + 1, g =>
    match g.passStep with
    | none => g
    | some h => runPass n h

/-- Number of operations some pattern currently matches. -/
def matcherCount (g : Graph) : Nat :=
  (g.ops.filter (fun o => (tryPattern g o).isSome)).length

/-- Fuel that provably suffices to reach the fixpoint on well-formed graphs. -/
def fuelOf (g : Graph) : Nat := g.ops.length * (g.ops.length + 1) + matcherCount g

/-- Modelled from the spec: the canonicalization pass — run the driver with
enough fuel to reach the fixpoint. -/
def Graph.canonicalize (g : Graph) : Graph := runPass (fuelOf g) g

/-! Concrete graphs used to instantiate the theorems. -/

/-- A sample 2 by 3 shape. -/
def ty23 : Ty := ⟨2, 3⟩

/-- A sample 3 by 2 shape. -/
def ty32 : Ty := ⟨3, 2⟩

/-- Inner transpose of the two-transpose example. -/
def exTTinner : Op := ⟨1, OpKind.transpose, [Value.arg 0], ty32⟩

/-- Outer transpose of the two-transpose example. -/
def exTTouter : Op := ⟨2, OpKind.transpose, [Value.res 1], ty23⟩

/-- Transpose of a transpose of the block argument. -/
def exTT : Graph := ⟨[exTTinner, exTTouter], fun _ => ty23, [Value.res 2]⟩

/-- Inner reshape of the two-reshape example. -/
def exRRinner : Op := ⟨1, OpKind.reshape, [Value.arg 0], ty32⟩

/-- Outer reshape of the two-reshape example. -/
def exRRouter : Op := ⟨2, OpKind.reshape, [Value.res 1], ⟨6, 1⟩⟩

/-- Reshape of a reshape of the block argument. -/
def exRR : Graph := ⟨[exRRinner, exRRouter], fun _ => ty23, [Value.res 2]⟩

/-- Identity reshape chain: both reshapes produce the 2 by 3 shape again. -/
def exRRid : Graph :=
  ⟨[⟨1, OpKind.reshape, [Value.arg 0], ty23⟩,
    ⟨2, OpKind.reshape, [Value.res 1], ty23⟩],
   fun _ => ty23, [Value.res 2]⟩

/-- A transpose whose operand is defined by a non-transpose operation. -/
def exOther : Graph :=
  ⟨[⟨1, OpKind.other 0, [], ty23⟩,
    ⟨2, OpKind.transpose, [Value.res 1], ty32⟩],
   fun _ => ty23, [Value.res 2]⟩

/-- Transpose of a transpose whose inner transpose has a second user that is
itself an output. -/
def exShared : Graph :=
  ⟨[⟨1, OpKind.transpose, [Value.arg 0], ty32⟩,
    ⟨2, OpKind.transpose, [Value.res 1], ty23⟩,
    ⟨3, OpKind.other 0, [Value.res 1], ty32⟩],
   fun _ => ty23, [Value.res 2, Value.res 3]⟩

/-- Reshape of a reshape whose inner reshape has a second user that is itself
an output. -/
def exSharedR : Graph :=
  ⟨[⟨1, OpKind.reshape, [Value.arg 0], ty32⟩,
    ⟨2, OpKind.reshape, [Value.res 1], ⟨6, 1⟩⟩,
    ⟨3, OpKind.other 0, [Value.res 1], ty32⟩],
   fun _ => ty23, [Value.res 2, Value.res 3]⟩

/-! Chains of unary operations of one kind. -/

/-- Operations of a chain: the first operation consumes prev, every later
operation consumes the previous operation's result; the n-th operation gets
the n-th id and the n-th result type. -/
def chainOps (k : OpKind) : Value → List Nat → List Ty → List Op
  | _, [], _ => []
  | _, _ :: _, [] => []
  | prev, i :: ids, t :: tys => ⟨i, k, [prev], t⟩ :: chainOps k (Value.res i) ids tys

/-- The value the whole chain produces: the last operation's result, or the
block argument for the empty chain. -/
def chainVal (ids : List Nat) : Value :=
  match ids.getLast? with
  | some i => Value.res i
  | none => Value.arg 0

/-- A graph holding one chain of operations of kind k starting at block
argument 0, whose output is the end of the chain. -/
def chainGraph (k : OpKind) (ids : List Nat) (tys : List Ty) : Graph :=
  ⟨chainOps k (Value.arg 0) ids tys, fun _ => ty23, [chainVal ids]⟩

/-! Tensor semantics and well-formedness. -/

/-- A 2D tensor: a shape and the row-major element data. -/
structure Tensor (α : Type) where
  rows : Nat
  cols : Nat
  data : List α
deriving DecidableEq

/-- A tensor is valid when its data has exactly rows times cols elements. -/
def Tensor.valid {α : Type} (t : Tensor α) : Prop := t.data.length = t.rows * t.cols

/-- Modelled from the spec: the Transpose semantics of the dialect (defined in
the excluded Dialect sources) reverses the two axes of a 2D tensor — entry
(i, j) of the result is entry (j, i) of the input. -/
def transposeT {α : Type} [Inhabited α] (t : Tensor α) : Tensor α :=
  ⟨t.cols, t.rows,
   (List.range (t.cols * t.rows)).map
     (fun p => t.data.getD ((p % t.rows) * t.cols + p / t.rows) default)⟩

/-- Modelled from the spec: the Reshape semantics of the dialect (defined in
the excluded Dialect sources) reinterprets the same row-major data with the
target shape. -/
def reshapeT {α : Type} (ty : Ty) (t : Tensor α) : Tensor α := ⟨ty.rows, ty.cols, t.data⟩

/-- Value of an SSA value under an argument valuation and an environment of
already computed operation results. -/
def evalValue {α : Type} (args : Nat → Tensor α) (env : Nat → Option (Tensor α)) :
    Value → Option (Tensor α)
  | Value.arg n => some (args n)
  | Value.res i => env i

/-- Values of a list of operands; none as soon as one of them is undefined. -/
def evalValues {α : Type} (args : Nat → Tensor α) (env : Nat → Option (Tensor α)) :
    List Value → Option (List (Tensor α))
  | [] => some []
  | v :: vs =>
    match evalValue args env v with
    | some t =>
      match evalValues args env vs with
      | some ts => some (t :: ts)
      | none => none
    | none => none

/-- Value of one operation: transposes transpose, reshapes reshape to their
declared result type, any other kind is interpreted by the abstract
interpretation interp of the rest of the dialect. -/
def evalOp {α : Type} [Inhabited α] (interp : Nat → Ty → List (Tensor α) → Tensor α)
    (args : Nat → Tensor α) (env : Nat → Option (Tensor α)) (o : Op) :
    Option (Tensor α) :=
  match o.kind with
  | OpKind.transpose =>
    match o.operands with
    | [v] => (evalValue args env v).map transposeT
    | _ => none
  | OpKind.reshape =>
    match o.operands with
    | [v] => (evalValue args env v).map (reshapeT o.retTy)
    | _ => none
  | OpKind.other tag =>
    match evalValues args env o.operands with
    | some ts => some (interp tag o.retTy ts)
    | none => none

/-- Evaluate a list of operations in program order, extending the result
environment at each operation's id. -/
def evalOps {α : Type} [Inhabited α] (interp : Nat → Ty → List (Tensor α) → Tensor α)
    (args : Nat → Tensor α) :
    List Op → (Nat → Option (Tensor α)) → (Nat → Option (Tensor α))
  | [], env => env
  | o :: rest, env =>
    evalOps interp args rest
      (fun i => if i = o.id then evalOp interp args env o else env i)

/-- Evaluate the whole graph: the values of its outputs. -/
def Graph.eval {α : Type} [Inhabited α] (g : Graph)
    (interp : Nat → Ty → List (Tensor α) → Tensor α) (args : Nat → Tensor α) :
    List (Option (Tensor α)) :=
  g.outputs.map (evalValue args (evalOps interp args g.ops (fun _ => none)))

/-- Declared type of a value relative to the operations seen so far: block
arguments have their declared type, a result has the type of its defining
operation when that operation was already seen. -/
def tyOfValue (argTy : Nat → Ty) (seen : List Op) : Value → Option Ty
  | Value.arg n => some (argTy n)
  | Value.res i => (seen.find? (fun o => o.id == i)).map (fun o => o.retTy)

/-- Local well-formedness of one operation against the operations seen so
far: a Transpose has one operand, already defined, and swaps its shape; a
Reshape has one operand, already defined, and preserves the element count;
any other operation has all operands already defined. -/
def wfOp (argTy : Nat → Ty) (seen : List Op) (o : Op) : Bool :=
  match o.kind with
  | OpKind.transpose =>
    match o.operands with
    | [v] =>
      match tyOfValue argTy seen v with
      | some t => o.retTy == t.swap
      | none => false
    | _ => false
  | OpKind.reshape =>
    match o.operands with
    | [v] =>
      match tyOfValue argTy seen v with
      | some t => o.retTy.count == t.count
      | none => false
    | _ => false
  | OpKind.other _ => o.operands.all (fun v => (tyOfValue argTy seen v).isSome)

/-- Well-formedness of a list of operations relative to already seen ones:
every operation is locally well-formed against its prefix (so definitions
come before uses). -/
def wfOps (argTy : Nat → Ty) : List Op → List Op → Bool
  | _, [] => true
  | seen, o :: rest => wfOp argTy seen o && wfOps argTy (seen ++ [o]) rest

/-- Well-formedness of a graph: distinct operation ids, definitions before
uses with locally consistent types, and resolvable outputs. -/
def Graph.wf (g : Graph) : Bool :=
  decide ((g.ops.map Op.id).Nodup) && wfOps g.argTy [] g.ops &&
    g.outputs.all (fun v => (tyOfValue g.argTy g.ops v).isSome)

/-- Inner half of the match conditions of the two patterns: the operand is
defined by an operation of the wanted kind with a single operand. -/
def innerStatus (g : Graph) (v : Value) (k : OpKind) : Bool :=
  match g.definingOpOfKind v k with
  | some d =>
    match d.operands with
    | [_] => true
    | _ => false
  | none => false

/-- Whether some pattern currently matches an operation: the match conditions
of the two patterns, without performing the rewrite. -/
def patternStatus (g : Graph) (o : Op) : Bool :=
  match o.kind with
  | OpKind.transpose =>
    match o.operands with
    | [v] => innerStatus g v OpKind.transpose
    | _ => false
  | OpKind.reshape =>
    match o.operands with
    | [v] => innerStatus g v OpKind.reshape
    | _ => false
  | OpKind.other _ => false

end Toy

namespace Toy

/-! Basic facts about substitution and the rewriter primitives. -/

theorem substV_of_ne {old new v : Value} (h : v ≠ old) : substV old new v = v := by
  simp [substV, h]

theorem substV_old (old new : Value) : substV old new old = new := by
  simp [substV]

theorem substV_ne_old {old new : Value} (h : new ≠ old) (v : Value) :
    substV old new v ≠ old := by
  unfold substV
  split
  · exact h
  · assumption

@[simp] theorem Op.subst_id (old new : Value) (o : Op) : (Op.subst old new o).id = o.id := rfl

@[simp] theorem Op.subst_kind (old new : Value) (o : Op) :
    (Op.subst old new o).kind = o.kind := rfl

@[simp] theorem Op.subst_retTy (old new : Value) (o : Op) :
    (Op.subst old new o).retTy = o.retTy := rfl

theorem map_eq_self_of_eq {α : Type} {l : List α} {f : α → α} (h : ∀ x ∈ l, f x = x) :
    l.map f = l := by
  induction l with
  | nil => rfl
  | cons a t ih => simp [h a (by simp), ih (fun x hx => h x (by simp [hx]))]

theorem Op.subst_of_not_mem {old new : Value} {o : Op} (h : old ∉ o.operands) :
    Op.subst old new o = o := by
  unfold Op.subst
  have : o.operands.map (substV old new) = o.operands := by
    apply map_eq_self_of_eq
    intro v hv
    exact substV_of_ne (fun hveq => h (hveq ▸ hv))
  simp [this]

theorem replaceOpWith_ops (g : Graph) (i : Nat) (v : Value) :
    (g.replaceOpWith i v).ops
      = (g.ops.filter (fun o => !(o.id == i))).map (Op.subst (Value.res i) v) := by
  show (g.ops.map _).filter _ = _
  rw [List.filter_map]
  rfl

@[simp] theorem replaceOpWith_argTy (g : Graph) (i : Nat) (v : Value) :
    (g.replaceOpWith i v).argTy = g.argTy := rfl

@[simp] theorem replaceOpWith_outputs (g : Graph) (i : Nat) (v : Value) :
    (g.replaceOpWith i v).outputs = g.outputs.map (substV (Value.res i) v) := rfl

theorem mem_replaceOpWith {g : Graph} {i : Nat} {v : Value} {o : Op}
    (ho : o ∈ g.ops) (hne : o.id ≠ i) :
    Op.subst (Value.res i) v o ∈ (g.replaceOpWith i v).ops := by
  rw [replaceOpWith_ops]
  exact List.mem_map_of_mem _ (List.mem_filter.mpr ⟨ho, by simp [hne]⟩)

theorem exists_of_mem_replaceOpWith {g : Graph} {i : Nat} {v : Value} {o' : Op}
    (h : o' ∈ (g.replaceOpWith i v).ops) :
    ∃ o ∈ g.ops, o.id ≠ i ∧ o' = Op.subst (Value.res i) v o := by
  rw [replaceOpWith_ops] at h
  obtain ⟨o, ho, rfl⟩ := List.mem_map.mp h
  have := List.mem_filter.mp ho
  exact ⟨o, this.1, by simpa using this.2, rfl⟩

theorem findOp_replaceOpWith_self (g : Graph) (i : Nat) (v : Value) :
    (g.replaceOpWith i v).findOp i = none := by
  apply List.find?_eq_none.mpr
  intro o ho
  obtain ⟨o₀, _, hne, rfl⟩ := exists_of_mem_replaceOpWith ho
  simpa using hne

theorem definingOp_mem {g : Graph} {v : Value} {o : Op} (h : g.definingOp v = some o) :
    o ∈ g.ops := by
  cases v with
  | arg n => simp [Graph.definingOp] at h
  | res i => exact List.mem_of_find?_eq_some h

theorem definingOp_id {g : Graph} {v : Value} {o : Op} {i : Nat}
    (hv : v = Value.res i) (h : g.definingOp v = some o) : o.id = i := by
  subst hv
  have := List.find?_some h
  simpa using this

theorem filter_ne_id_length {l : List Op} {op : Op}
    (hn : (l.map Op.id).Nodup) (hm : op ∈ l) :
    (l.filter (fun o => !(o.id == op.id))).length + 1 = l.length := by
  induction l with
  | nil => cases hm
  | cons o rest ih =>
    rw [List.map_cons, List.nodup_cons] at hn
    rcases List.mem_cons.mp hm with rfl | hmem
    · have hrest : rest.filter (fun x => !(x.id == op.id)) = rest := by
        apply List.filter_eq_self.mpr
        intro x hx
        have : x.id ≠ op.id := fun he => hn.1 (he ▸ List.mem_map_of_mem _ hx)
        simp [this]
      simp [hrest]
    · have hne : o.id ≠ op.id := by
        intro he
        exact hn.1 (he ▸ List.mem_map_of_mem _ hmem)
      simp only [List.filter_cons, List.length_cons]
      rw [if_pos (by simp [hne])]
      simp only [List.length_cons]
      rw [ih hn.2 hmem]

theorem mem_usedValues_of_operand {g : Graph} {o : Op} {v : Value}
    (ho : o ∈ g.ops) (hv : v ∈ o.operands) : v ∈ g.usedValues := by
  unfold Graph.usedValues
  refine List.mem_append.mpr (Or.inl ?_)
  exact List.mem_flatten.mpr ⟨o.operands, List.mem_map_of_mem _ ho, hv⟩

theorem mem_usedValues_of_output {g : Graph} {v : Value} (hv : v ∈ g.outputs) :
    v ∈ g.usedValues :=
  List.mem_append.mpr (Or.inr hv)

theorem mem_dceOnce_iff {g : Graph} {o : Op} :
    o ∈ (dceOnce g).ops ↔ o ∈ g.ops ∧ Value.res o.id ∈ g.usedValues := by
  unfold dceOnce Graph.isLive
  rw [List.mem_filter]
  simp [List.elem_iff]

theorem mem_insertBefore_self (i : Nat) (nOp : Op) (l : List Op) :
    nOp ∈ insertBefore i nOp l := by
  induction l with
  | nil => simp [insertBefore]
  | cons o rest ih =>
    unfold insertBefore
    split
    · simp
    · simp [ih]

theorem mem_insertBefore_of_mem {i : Nat} {nOp o : Op} {l : List Op} (h : o ∈ l) :
    o ∈ insertBefore i nOp l := by
  induction l with
  | nil => cases h
  | cons a rest ih =>
    unfold insertBefore
    rcases List.mem_cons.mp h with rfl | hmem
    · split <;> simp
    · split
      · simp [hmem]
      · simp [ih hmem]

theorem mem_of_mem_insertBefore {i : Nat} {nOp o : Op} {l : List Op}
    (h : o ∈ insertBefore i nOp l) : o = nOp ∨ o ∈ l := by
  induction l with
  | nil => simpa [insertBefore] using h
  | cons a rest ih =>
    unfold insertBefore at h
    split at h
    · rcases List.mem_cons.mp h with rfl | h2
      · exact Or.inl rfl
      · exact Or.inr h2
    · rcases List.mem_cons.mp h with rfl | h2
      · exact Or.inr (by simp)
      · rcases ih h2 with h3 | h3
        · exact Or.inl h3
        · exact Or.inr (by simp [h3])

theorem length_insertBefore (i : Nat) (nOp : Op) (l : List Op) :
    (insertBefore i nOp l).length = l.length + 1 := by
  induction l with
  | nil => rfl
  | cons a rest ih =>
    unfold insertBefore
    split
    · simp
    · simp [ih]

theorem map_id_insertBefore (i : Nat) (nOp : Op) (l : List Op) :
    ∃ l₁ l₂, (insertBefore i nOp l).map Op.id = l₁ ++ nOp.id :: l₂ ∧
      l.map Op.id = l₁ ++ l₂ := by
  induction l with
  | nil => exact ⟨[], [], rfl, rfl⟩
  | cons a rest ih =>
    unfold insertBefore
    split
    · exact ⟨[], (a :: rest).map Op.id, rfl, rfl⟩
    · obtain ⟨l₁, l₂, h1, h2⟩ := ih
      exact ⟨a.id :: l₁, l₂, by simp [h1], by simp [h2]⟩

theorem nodup_insertBefore {i : Nat} {nOp : Op} {l : List Op}
    (hn : (l.map Op.id).Nodup) (hf : nOp.id ∉ l.map Op.id) :
    ((insertBefore i nOp l).map Op.id).Nodup := by
  obtain ⟨l₁, l₂, h1, h2⟩ := map_id_insertBefore i nOp l
  rw [h1]
  rw [h2] at hn hf
  exact List.nodup_middle.mpr (List.nodup_cons.mpr ⟨hf, hn⟩)

theorem le_foldr_max {l : List Op} {o : Op} (h : o ∈ l) :
    o.id ≤ l.foldr (fun o m => max o.id m) 0 := by
  induction l with
  | nil => cases h
  | cons a rest ih =>
    rcases List.mem_cons.mp h with rfl | hmem
    · exact le_max_left _ _
    · exact le_trans (ih hmem) (le_max_right _ _)

theorem id_ne_freshId {g : Graph} {o : Op} (h : o ∈ g.ops) : o.id ≠ g.freshId := by
  have := le_foldr_max h
  unfold Graph.freshId Graph.maxId
  omega

theorem freshId_not_mem_ids (g : Graph) : g.freshId ∉ g.ops.map Op.id := by
  intro hmem
  obtain ⟨o, ho, he⟩ := List.mem_map.mp hmem
  exact id_ne_freshId ho he

/-! Reduction of the two patterns under their match conditions. -/

theorem definingOpOfKind_eq {g : Graph} {v : Value} {o : Op} {k : OpKind}
    (hdef : g.definingOp v = some o) (hk : o.kind = k) :
    g.definingOpOfKind v k = some o := by
  simp [Graph.definingOpOfKind, hdef, hk]

theorem simplifyRedundantTranspose_eq {g : Graph} {op inner : Op} {v w : Value}
    (hop : op.operands = [v]) (hdef : g.definingOp v = some inner)
    (hk : inner.kind = OpKind.transpose) (hio : inner.operands = [w]) :
    simplifyRedundantTranspose g op = some (g.replaceOpWith op.id w) := by
  simp [simplifyRedundantTranspose, hop, definingOpOfKind_eq hdef hk, hio]

theorem reshapeReshapeOpt_eq {g : Graph} {op inner : Op} {v w : Value}
    (hop : op.operands = [v]) (hdef : g.definingOp v = some inner)
    (hk : inner.kind = OpKind.reshape) (hio : inner.operands = [w]) :
    reshapeReshapeOpt g op =
      some (Graph.replaceOpWith
        ⟨insertBefore op.id ⟨g.freshId, OpKind.reshape, [w], op.retTy⟩ g.ops,
         g.argTy, g.outputs⟩ op.id (Value.res g.freshId)) := by
  simp [reshapeReshapeOpt, hop, definingOpOfKind_eq hdef hk, hio]

/-- C2: given a Transpose operation op whose sole operand is defined by a
Transpose operation inner, SimplifyRedundantTranspose succeeds, every use of
op's result (in operand lists and in the graph outputs) is redirected to
inner's operand directly, op is erased, no new operation is created (every
surviving operation is one of the original operations, with only the one
redirection applied to its operands, and the operation count drops by
exactly one), the pattern itself leaves inner in place, and the cleanup
erases inner exactly when its result is unused after the rewrite. -/
theorem simplifyRedundantTranspose_spec
    (g : Graph) (op inner : Op) (v w : Value)
    (hm : op ∈ g.ops) (hnodup : (g.ops.map Op.id).Nodup)
    (hop : op.operands = [v]) (hdef : g.definingOp v = some inner)
    (hk : inner.kind = OpKind.transpose) (hio : inner.operands = [w])
    (hne : inner.id ≠ op.id) (hwne : w ≠ Value.res op.id) :
    ∃ g', simplifyRedundantTranspose g op = some g' ∧
      (∀ o ∈ g.ops, o.id ≠ op.id → Op.subst (Value.res op.id) w o ∈ g'.ops) ∧
      (∀ o' ∈ g'.ops, Value.res op.id ∉ o'.operands) ∧
      g'.findOp op.id = none ∧
      (∀ o' ∈ g'.ops, ∃ o ∈ g.ops, o'.id = o.id ∧ o'.kind = o.kind ∧
        o'.retTy = o.retTy ∧ o'.operands = o.operands.map (substV (Value.res op.id) w)) ∧
      g'.ops.length + 1 = g.ops.length ∧
      g'.outputs = g.outputs.map (substV (Value.res op.id) w) ∧
      inner ∈ g'.ops ∧
      (inner ∈ (dceOnce g').ops ↔ Value.res inner.id ∈ g'.usedValues) := by
  have hid : inner ∈ g.ops := definingOp_mem hdef
  have hsub : Op.subst (Value.res op.id) w inner = inner := by
    apply Op.subst_of_not_mem
    rw [hio]
    simp only [List.mem_singleton]
    exact fun h => hwne h.symm
  have hinner' : inner ∈ (g.replaceOpWith op.id w).ops := by
    have h2 := mem_replaceOpWith (v := w) hid hne
    rwa [hsub] at h2
  refine ⟨g.replaceOpWith op.id w, simplifyRedundantTranspose_eq hop hdef hk hio,
    ?_, ?_, findOp_replaceOpWith_self g op.id w, ?_, ?_, rfl, hinner',
    ⟨fun h => (mem_dceOnce_iff.mp h).2, fun h => mem_dceOnce_iff.mpr ⟨hinner', h⟩⟩⟩
  · intro o ho hone
    exact mem_replaceOpWith ho hone
  · intro o' ho'
    obtain ⟨o, ho, hone, rfl⟩ := exists_of_mem_replaceOpWith ho'
    intro hc
    obtain ⟨u, hu, he⟩ := List.mem_map.mp hc
    exact substV_ne_old hwne u he
  · intro o' ho'
    obtain ⟨o, ho, hone, rfl⟩ := exists_of_mem_replaceOpWith ho'
    exact ⟨o, ho, rfl, rfl, rfl, rfl⟩
  · rw [replaceOpWith_ops, List.length_map, filter_ne_id_length hnodup hm]

/-- Witness for C2: the two-transpose example graph. -/
theorem simplifyRedundantTranspose_spec_witness :
    exTTouter ∈ exTT.ops ∧
    (∃ g', simplifyRedundantTranspose exTT exTTouter = some g' ∧
      (∀ o ∈ exTT.ops, o.id ≠ exTTouter.id →
        Op.subst (Value.res exTTouter.id) (Value.arg 0) o ∈ g'.ops) ∧
      (∀ o' ∈ g'.ops, Value.res exTTouter.id ∉ o'.operands) ∧
      g'.findOp exTTouter.id = none ∧
      (∀ o' ∈ g'.ops, ∃ o ∈ exTT.ops, o'.id = o.id ∧ o'.kind = o.kind ∧
        o'.retTy = o.retTy ∧
        o'.operands = o.operands.map (substV (Value.res exTTouter.id) (Value.arg 0))) ∧
      g'.ops.length + 1 = exTT.ops.length ∧
      g'.outputs = exTT.outputs.map (substV (Value.res exTTouter.id) (Value.arg 0)) ∧
      exTTinner ∈ g'.ops ∧
      (exTTinner ∈ (dceOnce g').ops ↔ Value.res exTTinner.id ∈ g'.usedValues)) :=
  ⟨by decide,
   simplifyRedundantTranspose_spec exTT exTTouter exTTinner (Value.res 1) (Value.arg 0)
     (by decide) (by decide) (by decide) (by decide) (by decide) (by decide)
     (by decide) (by decide)⟩

/-- C3: given a Reshape operation op whose sole operand is defined by a
Reshape operation inner, ReshapeReshapeOptPattern succeeds and replaces op
with a freshly created Reshape operation whose result type is exactly op's
result type and whose sole operand is inner's operand; op is erased, every
use of op's result is redirected to the new operation, every other surviving
operation is one of the original operations with only that redirection
applied, and the operation count is unchanged (one created, one erased). -/
theorem reshapeReshapeOpt_spec
    (g : Graph) (op inner : Op) (v w : Value)
    (hm : op ∈ g.ops) (hnodup : (g.ops.map Op.id).Nodup)
    (hop : op.operands = [v]) (hdef : g.definingOp v = some inner)
    (hk : inner.kind = OpKind.reshape) (hio : inner.operands = [w])
    (hwne : w ≠ Value.res op.id) :
    ∃ g', reshapeReshapeOpt g op = some g' ∧
      (⟨g.freshId, OpKind.reshape, [w], op.retTy⟩ : Op) ∈ g'.ops ∧
      g'.findOp op.id = none ∧
      (∀ o ∈ g.ops, o.id ≠ op.id →
        Op.subst (Value.res op.id) (Value.res g.freshId) o ∈ g'.ops) ∧
      (∀ o' ∈ g'.ops, o' = ⟨g.freshId, OpKind.reshape, [w], op.retTy⟩ ∨
        ∃ o ∈ g.ops, o.id ≠ op.id ∧
          o' = Op.subst (Value.res op.id) (Value.res g.freshId) o) ∧
      g'.ops.length = g.ops.length ∧
      g'.outputs = g.outputs.map (substV (Value.res op.id) (Value.res g.freshId)) := by
  set newOp : Op := ⟨g.freshId, OpKind.reshape, [w], op.retTy⟩ with hnew
  set gmid : Graph := ⟨insertBefore op.id newOp g.ops, g.argTy, g.outputs⟩ with hmid
  have hsub : Op.subst (Value.res op.id) (Value.res g.freshId) newOp = newOp := by
    apply Op.subst_of_not_mem
    simp only [hnew, List.mem_singleton]
    exact fun h => hwne h.symm
  have hnid : newOp.id ≠ op.id := by
    simpa [hnew] using (id_ne_freshId hm).symm
  have hmem' : newOp ∈ gmid.ops := mem_insertBefore_self op.id newOp g.ops
  refine ⟨gmid.replaceOpWith op.id (Value.res g.freshId),
    reshapeReshapeOpt_eq hop hdef hk hio, ?_,
    findOp_replaceOpWith_self gmid op.id (Value.res g.freshId), ?_, ?_, ?_, rfl⟩
  · have h2 := mem_replaceOpWith (v := Value.res g.freshId) hmem' hnid
    rwa [hsub] at h2
  · intro o ho hone
    exact mem_replaceOpWith (mem_insertBefore_of_mem ho) hone
  · intro o' ho'
    obtain ⟨o, ho, hone, rfl⟩ := exists_of_mem_replaceOpWith ho'
    rcases mem_of_mem_insertBefore ho with rfl | ho2
    · exact Or.inl hsub
    · exact Or.inr ⟨o, ho2, hone, rfl⟩
  · rw [replaceOpWith_ops, List.length_map]
    have hn2 : (gmid.ops.map Op.id).Nodup := by
      apply nodup_insertBefore hnodup
      simpa [hnew] using freshId_not_mem_ids g
    have hm2 : op ∈ gmid.ops := mem_insertBefore_of_mem hm
    have := filter_ne_id_length hn2 hm2
    rw [show gmid.ops = insertBefore op.id newOp g.ops from rfl] at this ⊢
    rw [length_insertBefore] at this
    omega

/-- Witness for C3: the two-reshape example graph. -/
theorem reshapeReshapeOpt_spec_witness :
    exRRouter ∈ exRR.ops ∧
    (∃ g', reshapeReshapeOpt exRR exRRouter = some g' ∧
      (⟨exRR.freshId, OpKind.reshape, [Value.arg 0], exRRouter.retTy⟩ : Op) ∈ g'.ops ∧
      g'.findOp exRRouter.id = none ∧
      (∀ o ∈ exRR.ops, o.id ≠ exRRouter.id →
        Op.subst (Value.res exRRouter.id) (Value.res exRR.freshId) o ∈ g'.ops) ∧
      (∀ o' ∈ g'.ops,
        o' = ⟨exRR.freshId, OpKind.reshape, [Value.arg 0], exRRouter.retTy⟩ ∨
        ∃ o ∈ exRR.ops, o.id ≠ exRRouter.id ∧
          o' = Op.subst (Value.res exRRouter.id) (Value.res exRR.freshId) o) ∧
      g'.ops.length = exRR.ops.length ∧
      g'.outputs = exRR.outputs.map
        (substV (Value.res exRRouter.id) (Value.res exRR.freshId))) :=
  ⟨by decide,
   reshapeReshapeOpt_spec exRR exRRouter exRRinner (Value.res 1) (Value.arg 0)
     (by decide) (by decide) (by decide) (by decide) (by decide) (by decide)
     (by decide)⟩

/-! Match failure and the driver fixpoint. -/

theorem definingOpOfKind_none {g : Graph} {v : Value} {k : OpKind}
    (h : g.definingOp v = none ∨ ∃ d, g.definingOp v = some d ∧ d.kind ≠ k) :
    g.definingOpOfKind v k = none := by
  unfold Graph.definingOpOfKind
  rcases h with h | ⟨d, hd, hk⟩
  · simp [h]
  · simp [hd, hk]

theorem stepAux_eq_none {g : Graph} {l : List Op}
    (h : ∀ o ∈ l, (tryPattern g o).isNone) : stepAux g l = none := by
  induction l with
  | nil => rfl
  | cons o rest ih =>
    unfold stepAux
    have h1 := h o (by simp)
    rw [Option.isNone_iff_eq_none] at h1
    rw [h1]
    exact ih (fun o' ho' => h o' (by simp [ho']))

theorem runPass_of_fixpoint {g : Graph} (h : g.passStep = none) (n : Nat) :
    runPass n g = g := by
  cases n with
  | zero => rfl
  | succ m => unfold runPass; rw [h]

/-- C4: a Transpose (or Reshape) operation whose operand's defining operation
is absent (a block argument) or is not a Transpose (or Reshape) makes the
corresponding pattern return failure, so no rewrite happens; moreover when no
pattern matches any operation, the whole pass leaves the graph completely
unchanged. -/
theorem match_failure_frame (g : Graph) (op : Op) (v : Value)
    (hop : op.operands = [v]) :
    ((g.definingOp v = none ∨ ∃ d, g.definingOp v = some d ∧ d.kind ≠ OpKind.transpose) →
      simplifyRedundantTranspose g op = none) ∧
    ((g.definingOp v = none ∨ ∃ d, g.definingOp v = some d ∧ d.kind ≠ OpKind.reshape) →
      reshapeReshapeOpt g op = none) ∧
    ((∀ o ∈ g.ops, (tryPattern g o).isNone) → Graph.canonicalize g = g) := by
  refine ⟨?_, ?_, ?_⟩
  · intro h
    simp [simplifyRedundantTranspose, hop, definingOpOfKind_none h]
  · intro h
    simp [reshapeReshapeOpt, hop, definingOpOfKind_none h]
  · intro h
    have hstep : g.passStep = none := by
      unfold Graph.passStep Graph.step
      rw [stepAux_eq_none h]
      rfl
    exact runPass_of_fixpoint hstep _

/-- Witness for C4: a transpose whose operand is defined by a non-transpose
operation; both patterns fail on it, and the pass leaves the graph unchanged. -/
theorem match_failure_frame_witness :
    simplifyRedundantTranspose exOther ⟨2, OpKind.transpose, [Value.res 1], ty32⟩ = none ∧
    reshapeReshapeOpt exOther ⟨2, OpKind.transpose, [Value.res 1], ty32⟩ = none ∧
    Graph.canonicalize exOther = exOther :=
  ⟨(match_failure_frame exOther ⟨2, OpKind.transpose, [Value.res 1], ty32⟩
      (Value.res 1) rfl).1
      (Or.inr ⟨⟨1, OpKind.other 0, [], ty23⟩, by decide, by decide⟩),
   (match_failure_frame exOther ⟨2, OpKind.transpose, [Value.res 1], ty32⟩
      (Value.res 1) rfl).2.1
      (Or.inr ⟨⟨1, OpKind.other 0, [], ty23⟩, by decide, by decide⟩),
   (match_failure_frame exOther ⟨2, OpKind.transpose, [Value.res 1], ty32⟩
      (Value.res 1) rfl).2.2 (by decide)⟩

/-- C9: the reshape rule never eliminates a reshape outright: on every
reshape-of-reshape match it produces a new Reshape operation in the result
graph, with no assumption whatsoever on the source and target shapes — in
particular also when the new reshape would be an identity reshape. -/
theorem reshapeReshapeOpt_no_identity_fold
    (g : Graph) (op inner : Op) (v w : Value)
    (hm : op ∈ g.ops)
    (hop : op.operands = [v]) (hdef : g.definingOp v = some inner)
    (hk : inner.kind = OpKind.reshape) (hio : inner.operands = [w])
    (hwne : w ≠ Value.res op.id) :
    ∃ g', reshapeReshapeOpt g op = some g' ∧
      (⟨g.freshId, OpKind.reshape, [w], op.retTy⟩ : Op) ∈ g'.ops ∧
      ∃ o ∈ g'.ops, o.kind = OpKind.reshape := by
  set newOp : Op := ⟨g.freshId, OpKind.reshape, [w], op.retTy⟩ with hnew
  set gmid : Graph := ⟨insertBefore op.id newOp g.ops, g.argTy, g.outputs⟩ with hmid
  have hsub : Op.subst (Value.res op.id) (Value.res g.freshId) newOp = newOp := by
    apply Op.subst_of_not_mem
    simp only [hnew, List.mem_singleton]
    exact fun h => hwne h.symm
  have hnid : newOp.id ≠ op.id := by
    simpa [hnew] using (id_ne_freshId hm).symm
  have hmemmid : newOp ∈ gmid.ops := mem_insertBefore_self op.id newOp g.ops
  have hmem2 : newOp ∈ (gmid.replaceOpWith op.id (Value.res g.freshId)).ops := by
    have h2 := mem_replaceOpWith (v := Value.res g.freshId) hmemmid hnid
    rwa [hsub] at h2
  exact ⟨gmid.replaceOpWith op.id (Value.res g.freshId),
    reshapeReshapeOpt_eq hop hdef hk hio, hmem2, newOp, hmem2, rfl⟩

/-- Witness for C9: an identity chain — both reshapes map a 2 by 3 tensor to
the 2 by 3 shape, so the freshly created reshape is an identity reshape, and
it is still created and left in the graph. -/
theorem reshapeReshapeOpt_no_identity_fold_witness :
    ∃ g', reshapeReshapeOpt exRRid ⟨2, OpKind.reshape, [Value.res 1], ty23⟩ = some g' ∧
      (⟨exRRid.freshId, OpKind.reshape, [Value.arg 0], ty23⟩ : Op) ∈ g'.ops ∧
      ∃ o ∈ g'.ops, o.kind = OpKind.reshape :=
  reshapeReshapeOpt_no_identity_fold exRRid
    ⟨2, OpKind.reshape, [Value.res 1], ty23⟩ ⟨1, OpKind.reshape, [Value.arg 0], ty23⟩
    (Value.res 1) (Value.arg 0) (by decide) (by decide) (by decide) (by decide)
    (by decide) (by decide)

/-- Dead-operation cleanup keeps an operation that is used by an operation
whose own result is a graph output. -/
theorem dce_keeps {h : Graph} {inner : Op}
    (hP : inner ∈ h.ops ∧ ∃ u', u' ∈ h.ops ∧ Value.res inner.id ∈ u'.operands ∧
      Value.res u'.id ∈ h.outputs) :
    inner ∈ (Graph.dce h).ops := by
  unfold Graph.dce
  generalize h.ops.length = n
  induction n generalizing h with
  | zero => exact hP.1
  | succ m ih =>
    obtain ⟨h1, u', hu', huse, hout⟩ := hP
    exact ih ⟨mem_dceOnce_iff.mpr ⟨h1, mem_usedValues_of_operand hu' huse⟩, u',
      mem_dceOnce_iff.mpr ⟨hu', mem_usedValues_of_output hout⟩, huse, hout⟩

/-- C10: when the inner Transpose has a use other than the matched outer
Transpose, SimplifyRedundantTranspose still succeeds; it redirects only the
uses of the outer result (operations not using it are kept verbatim), erases
the outer operation, and the inner Transpose is not erased by the pattern
and also survives the driver's cascading cleanup thanks to its other user. -/
theorem transpose_shared_inner
    (g : Graph) (op inner u : Op) (v w : Value)
    (hop : op.operands = [v]) (hdef : g.definingOp v = some inner)
    (hk : inner.kind = OpKind.transpose) (hio : inner.operands = [w])
    (hne : inner.id ≠ op.id) (hwne : w ≠ Value.res op.id)
    (hu : u ∈ g.ops) (huid : u.id ≠ op.id)
    (huse : Value.res inner.id ∈ u.operands) (hout : Value.res u.id ∈ g.outputs) :
    ∃ g', simplifyRedundantTranspose g op = some g' ∧
      inner ∈ g'.ops ∧
      g'.findOp op.id = none ∧
      (∀ o ∈ g.ops, o.id ≠ op.id → Value.res op.id ∉ o.operands → o ∈ g'.ops) ∧
      inner ∈ (Graph.dce g').ops := by
  have hid : inner ∈ g.ops := definingOp_mem hdef
  have hsub : Op.subst (Value.res op.id) w inner = inner := by
    apply Op.subst_of_not_mem
    rw [hio]
    simp only [List.mem_singleton]
    exact fun h => hwne h.symm
  have hinner' : inner ∈ (g.replaceOpWith op.id w).ops := by
    have h2 := mem_replaceOpWith (v := w) hid hne
    rwa [hsub] at h2
  have hu' : Op.subst (Value.res op.id) w u ∈ (g.replaceOpWith op.id w).ops :=
    mem_replaceOpWith hu huid
  have huse' : Value.res inner.id ∈ (Op.subst (Value.res op.id) w u).operands := by
    show Value.res inner.id ∈ u.operands.map (substV (Value.res op.id) w)
    have : substV (Value.res op.id) w (Value.res inner.id) = Value.res inner.id :=
      substV_of_ne (by simp [hne])
    exact this ▸ List.mem_map_of_mem _ huse
  have hout' : Value.res (Op.subst (Value.res op.id) w u).id ∈
      (g.replaceOpWith op.id w).outputs := by
    rw [replaceOpWith_outputs, Op.subst_id]
    have : substV (Value.res op.id) w (Value.res u.id) = Value.res u.id :=
      substV_of_ne (by simp [huid])
    exact this ▸ List.mem_map_of_mem _ hout
  refine ⟨g.replaceOpWith op.id w, simplifyRedundantTranspose_eq hop hdef hk hio,
    hinner', findOp_replaceOpWith_self g op.id w, ?_,
    dce_keeps ⟨hinner', Op.subst (Value.res op.id) w u, hu', huse', hout'⟩⟩
  intro o ho hone hnouse
  have : Op.subst (Value.res op.id) w o = o := Op.subst_of_not_mem hnouse
  exact this ▸ mem_replaceOpWith ho hone

/-- Witness for C10: the shared-inner example — the inner transpose has a
second user whose result is an output, and it survives the whole rewrite. -/
theorem transpose_shared_inner_witness :
    ∃ g', simplifyRedundantTranspose exShared exTTouter = some g' ∧
      exTTinner ∈ g'.ops ∧
      g'.findOp exTTouter.id = none ∧
      (∀ o ∈ exShared.ops, o.id ≠ exTTouter.id →
        Value.res exTTouter.id ∉ o.operands → o ∈ g'.ops) ∧
      exTTinner ∈ (Graph.dce g').ops :=
  transpose_shared_inner exShared exTTouter exTTinner
    ⟨3, OpKind.other 0, [Value.res 1], ty32⟩ (Value.res 1) (Value.arg 0)
    (by decide) (by decide) (by decide) (by decide) (by decide) (by decide)
    (by decide) (by decide) (by decide) (by decide)

/-- Counterexample to C7: in a graph where the inner reshape has a second
user, a successful application of ReshapeReshapeOptPattern followed by the
driver's cascading cleanup erases exactly one original operation (the
matched reshape) — not two — while creating exactly one new operation. -/
theorem reshape_erase_count_cex :
    ((reshapeReshapeOpt exSharedR ⟨2, OpKind.reshape, [Value.res 1], ⟨6, 1⟩⟩).map
      (fun g' =>
        ((exSharedR.ops.filter (fun o => ((Graph.dce g').findOp o.id).isNone)).length,
         ((Graph.dce g').ops.filter (fun o => (exSharedR.findOp o.id).isNone)).length)))
      = some (1, 1) := by decide

/-- C7 amended: each successful application of ReshapeReshapeOptPattern
creates exactly one new operation and erases exactly one operation, the
matched reshape (the operation count is unchanged); the inner reshape is
erased by the driver's cleanup exactly when its result is unused after the
rewrite; operations not using the matched operation's result are kept
verbatim, and the others only have that use redirected to the new reshape. -/
theorem reshapeReshapeOpt_frame
    (g : Graph) (op inner : Op) (v w : Value)
    (hm : op ∈ g.ops) (hnodup : (g.ops.map Op.id).Nodup)
    (hop : op.operands = [v]) (hdef : g.definingOp v = some inner)
    (hk : inner.kind = OpKind.reshape) (hio : inner.operands = [w])
    (hne : inner.id ≠ op.id) (hwne : w ≠ Value.res op.id) :
    ∃ g', reshapeReshapeOpt g op = some g' ∧
      g'.ops.length = g.ops.length ∧
      g'.findOp op.id = none ∧
      (⟨g.freshId, OpKind.reshape, [w], op.retTy⟩ : Op) ∈ g'.ops ∧
      (∀ o' ∈ g'.ops, o' = ⟨g.freshId, OpKind.reshape, [w], op.retTy⟩ ∨
        ∃ o ∈ g.ops, o.id ≠ op.id ∧
          o' = Op.subst (Value.res op.id) (Value.res g.freshId) o) ∧
      inner ∈ g'.ops ∧
      (inner ∈ (dceOnce g').ops ↔ Value.res inner.id ∈ g'.usedValues) ∧
      (∀ o ∈ g.ops, o.id ≠ op.id → Value.res op.id ∉ o.operands → o ∈ g'.ops) := by
  obtain ⟨g', hrun, hnewmem, hfind, hredir, hchar, hlen, houts⟩ :=
    reshapeReshapeOpt_spec g op inner v w hm hnodup hop hdef hk hio hwne
  have hid : inner ∈ g.ops := definingOp_mem hdef
  have hsub : Op.subst (Value.res op.id) (Value.res g.freshId) inner = inner := by
    apply Op.subst_of_not_mem
    rw [hio]
    simp only [List.mem_singleton]
    exact fun h => hwne h.symm
  have hinner' : inner ∈ g'.ops := by
    have h2 := hredir inner hid hne
    rwa [hsub] at h2
  refine ⟨g', hrun, hlen, hfind, hnewmem, hchar, hinner',
    ⟨fun h => (mem_dceOnce_iff.mp h).2, fun h => mem_dceOnce_iff.mpr ⟨hinner', h⟩⟩, ?_⟩
  intro o ho hone hnouse
  have : Op.subst (Value.res op.id) (Value.res g.freshId) o = o :=
    Op.subst_of_not_mem hnouse
  exact this ▸ hredir o ho hone

/-- Witness for the amended C7: the shared-inner reshape example. -/
theorem reshapeReshapeOpt_frame_witness :
    ∃ g', reshapeReshapeOpt exSharedR ⟨2, OpKind.reshape, [Value.res 1], ⟨6, 1⟩⟩ = some g' ∧
      g'.ops.length = exSharedR.ops.length ∧
      g'.findOp 2 = none ∧
      (⟨exSharedR.freshId, OpKind.reshape, [Value.arg 0], ⟨6, 1⟩⟩ : Op) ∈ g'.ops ∧
      (∀ o' ∈ g'.ops, o' = ⟨exSharedR.freshId, OpKind.reshape, [Value.arg 0], ⟨6, 1⟩⟩ ∨
        ∃ o ∈ exSharedR.ops, o.id ≠ 2 ∧
          o' = Op.subst (Value.res 2) (Value.res exSharedR.freshId) o) ∧
      exRRinner ∈ g'.ops ∧
      (exRRinner ∈ (dceOnce g').ops ↔ Value.res exRRinner.id ∈ g'.usedValues) ∧
      (∀ o ∈ exSharedR.ops, o.id ≠ 2 → Value.res 2 ∉ o.operands → o ∈ g'.ops) :=
  reshapeReshapeOpt_frame exSharedR ⟨2, OpKind.reshape, [Value.res 1], ⟨6, 1⟩⟩
    exRRinner (Value.res 1) (Value.arg 0)
    (by decide) (by decide) (by decide) (by decide) (by decide) (by decide)
    (by decide) (by decide)

/-! Facts about chains of unary operations. -/

@[simp] theorem chainOps_nil (k : OpKind) (prev : Value) (tys : List Ty) :
    chainOps k prev [] tys = [] := by
  cases tys <;> rfl

@[simp] theorem chainOps_cons (k : OpKind) (prev : Value) (i : Nat) (ids : List Nat)
    (t : Ty) (tys : List Ty) :
    chainOps k prev (i :: ids) (t :: tys)
      = ⟨i, k, [prev], t⟩ :: chainOps k (Value.res i) ids tys := rfl

theorem chainOps_id_mem {k : OpKind} {prev : Value} {ids : List Nat} {tys : List Ty} :
    ∀ o ∈ chainOps k prev ids tys, o.id ∈ ids := by
  induction ids generalizing prev tys with
  | nil => simp
  | cons i ids ih =>
    cases tys with
    | nil => simp [chainOps]
    | cons t tys =>
      intro o ho
      rcases List.mem_cons.mp ho with rfl | ho2
      · simp
      · exact List.mem_cons_of_mem _ (ih o ho2)

theorem chainOps_map_id {k : OpKind} {prev : Value} {ids : List Nat} {tys : List Ty}
    (hlen : ids.length = tys.length) :
    (chainOps k prev ids tys).map Op.id = ids := by
  induction ids generalizing prev tys with
  | nil => simp
  | cons i ids ih =>
    cases tys with
    | nil => simp at hlen
    | cons t tys => simp [ih (by simpa using hlen)]

theorem chainOps_length {k : OpKind} {prev : Value} {ids : List Nat} {tys : List Ty}
    (hlen : ids.length = tys.length) :
    (chainOps k prev ids tys).length = ids.length := by
  have h : (chainOps k prev ids tys).map Op.id = ids := chainOps_map_id hlen
  have h2 := congrArg List.length h
  simpa using h2

theorem chainOps_subst {k : OpKind} {old new : Value} {ids : List Nat} {tys : List Ty}
    (hnot : ∀ i ∈ ids, Value.res i ≠ old) (prev : Value) :
    (chainOps k prev ids tys).map (Op.subst old new)
      = chainOps k (substV old new prev) ids tys := by
  induction ids generalizing prev tys with
  | nil => simp
  | cons i ids ih =>
    cases tys with
    | nil => simp [chainOps]
    | cons t tys =>
      simp only [chainOps_cons, List.map_cons]
      have h1 : Op.subst old new ⟨i, k, [prev], t⟩ = ⟨i, k, [substV old new prev], t⟩ := rfl
      rw [h1, ih (fun j hj => hnot j (List.mem_cons_of_mem _ hj))]
      rw [substV_of_ne (hnot i (List.mem_cons_self i ids))]

@[simp] theorem chainVal_nil : chainVal [] = Value.arg 0 := rfl

@[simp] theorem chainVal_singleton (i : Nat) : chainVal [i] = Value.res i := rfl

theorem chainVal_cons {l : List Nat} (a : Nat) (h : l ≠ []) :
    chainVal (a :: l) = chainVal l := by
  obtain ⟨b, l', rfl⟩ := List.exists_cons_of_ne_nil h
  rfl

theorem chainVal_mem {ids : List Nat} (h : ids ≠ []) :
    ∃ j ∈ ids, chainVal ids = Value.res j := by
  refine ⟨ids.getLast h, List.getLast_mem h, ?_⟩
  unfold chainVal
  rw [List.getLast?_eq_getLast ids h]

theorem chain_operand_char {k : OpKind} {prev : Value} {ids : List Nat} {tys : List Ty} :
    ∀ v ∈ ((chainOps k prev ids tys).map (fun o => o.operands)).flatten,
      v = prev ∨ ∃ j ∈ ids, v = Value.res j := by
  induction ids generalizing prev tys with
  | nil => simp
  | cons i ids ih =>
    cases tys with
    | nil => simp [chainOps]
    | cons t tys =>
      intro v hv
      simp only [chainOps_cons, List.map_cons, List.flatten_cons] at hv
      rcases List.mem_append.mp hv with hv1 | hv2
      · simp only [List.mem_singleton] at hv1
        exact Or.inl hv1
      · rcases ih v hv2 with h | ⟨j, hj, he⟩
        · exact Or.inr ⟨i, List.mem_cons_self i ids, h⟩
        · exact Or.inr ⟨j, List.mem_cons_of_mem _ hj, he⟩

theorem chain_res_used {k : OpKind} {ids : List Nat} {tys : List Ty}
    (hlen : ids.length = tys.length) :
    ∀ (prev : Value), ∀ j ∈ ids,
      Value.res j ∈
        ((chainOps k prev ids tys).map (fun o => o.operands)).flatten ++ [chainVal ids] := by
  induction ids generalizing tys with
  | nil => simp
  | cons i ids ih =>
    cases tys with
    | nil => simp at hlen
    | cons t tys =>
      intro prev j hj
      rcases List.mem_cons.mp hj with rfl | hj2
      · cases ids with
        | nil =>
          simp [chainVal_singleton]
        | cons i2 ids2 =>
          cases tys with
          | nil => simp at hlen
          | cons t2 tys2 =>
            apply List.mem_append.mpr
            left
            simp only [chainOps_cons, List.map_cons, List.flatten_cons]
            apply List.mem_append.mpr
            right
            apply List.mem_append.mpr
            left
            simp
      · have hne : ids ≠ [] := List.ne_nil_of_mem hj2
        have h2 := ih (by simpa using hlen) (Value.res i) j hj2
        rw [chainVal_cons i hne]
        simp only [chainOps_cons, List.map_cons, List.flatten_cons]
        rcases List.mem_append.mp h2 with h3 | h3
        · exact List.mem_append.mpr (Or.inl (List.mem_append.mpr (Or.inr h3)))
        · exact List.mem_append.mpr (Or.inr h3)

theorem chain_usedValues {k : OpKind} {ids : List Nat} {tys : List Ty}
    (hlen : ids.length = tys.length) {j : Nat} (hj : j ∈ ids) :
    Value.res j ∈ (chainGraph k ids tys).usedValues :=
  chain_res_used hlen (Value.arg 0) j hj

theorem dceOnce_chainGraph {k : OpKind} {ids : List Nat} {tys : List Ty}
    (hlen : ids.length = tys.length) :
    dceOnce (chainGraph k ids tys) = chainGraph k ids tys := by
  unfold dceOnce
  have hf : (chainGraph k ids tys).ops.filter (fun o => (chainGraph k ids tys).isLive o)
      = (chainGraph k ids tys).ops := by
    apply List.filter_eq_self.mpr
    intro o ho
    unfold Graph.isLive
    simp only [List.elem_iff]
    exact chain_usedValues hlen (chainOps_id_mem o ho)
  rw [hf]

theorem dceIter_fix {h : Graph} (hfix : dceOnce h = h) : ∀ n, dceIter n h = h := by
  intro n
  induction n with
  | zero => rfl
  | succ m ih => unfold dceIter; rw [hfix]; exact ih

theorem dce_of_fix {h : Graph} (hfix : dceOnce h = h) : Graph.dce h = h :=
  dceIter_fix hfix _

theorem dce_cons_dead {k : OpKind} {i1 : Nat} {t1 : Ty} {ids : List Nat} {tys : List Ty}
    (hlen : ids.length = tys.length) (hni : i1 ∉ ids) :
    Graph.dce ⟨⟨i1, k, [Value.arg 0], t1⟩ :: chainOps k (Value.arg 0) ids tys,
      fun _ => ty23, [chainVal ids]⟩ = chainGraph k ids tys := by
  set g0 : Graph := ⟨⟨i1, k, [Value.arg 0], t1⟩ :: chainOps k (Value.arg 0) ids tys,
    fun _ => ty23, [chainVal ids]⟩ with hg0
  have husedg0 : g0.usedValues
      = [Value.arg 0] ++
        (((chainOps k (Value.arg 0) ids tys).map (fun o => o.operands)).flatten
          ++ [chainVal ids]) := by
    unfold Graph.usedValues
    simp [hg0]
  have hdead : ¬ (Value.res i1 ∈ g0.usedValues) := by
    rw [husedg0]
    intro hmem
    rcases List.mem_append.mp hmem with h1 | h1
    · simp at h1
    rcases List.mem_append.mp h1 with h2 | h2
    · rcases chain_operand_char _ h2 with h3 | ⟨j, hj, h3⟩
      · simp at h3
      · rw [Value.res.injEq] at h3
        exact hni (h3 ▸ hj)
    · simp only [List.mem_singleton] at h2
      cases hids : ids with
      | nil => rw [hids] at h2; simp [chainVal_nil] at h2
      | cons a l =>
        have hne2 : ids ≠ [] := by rw [hids]; simp
        obtain ⟨j, hj, he⟩ := chainVal_mem hne2
        rw [he, Value.res.injEq] at h2
        exact hni (h2 ▸ hj)
  have h1 : dceOnce g0 = chainGraph k ids tys := by
    unfold dceOnce
    have hops : g0.ops = ⟨i1, k, [Value.arg 0], t1⟩ :: chainOps k (Value.arg 0) ids tys := rfl
    rw [hops, List.filter_cons]
    have hlive1 : (g0.isLive ⟨i1, k, [Value.arg 0], t1⟩) = false := by
      unfold Graph.isLive
      rw [Bool.eq_false_iff]
      intro hC
      exact hdead (List.elem_iff.mp hC)
    rw [if_neg (by simp [hlive1])]
    have hrest : (chainOps k (Value.arg 0) ids tys).filter (fun o => g0.isLive o)
        = chainOps k (Value.arg 0) ids tys := by
      apply List.filter_eq_self.mpr
      intro o ho
      unfold Graph.isLive
      simp only [List.elem_iff]
      rw [husedg0]
      apply List.mem_append.mpr
      right
      exact chain_res_used hlen (Value.arg 0) o.id (chainOps_id_mem o ho)
    rw [hrest]
    rfl
  show dceIter g0.ops.length g0 = chainGraph k ids tys
  have hlength : g0.ops.length = (chainOps k (Value.arg 0) ids tys).length + 1 := rfl
  rw [hlength]
  unfold dceIter
  rw [h1]
  exact dceIter_fix (dceOnce_chainGraph hlen) _

/-! Computation of a driver iteration on a chain. -/

theorem step_chainT (i1 i2 : Nat) (rest : List Nat) (t1 t2 : Ty) (tys' : List Ty) :
    (chainGraph OpKind.transpose (i1 :: i2 :: rest) (t1 :: t2 :: tys')).step
      = some ((chainGraph OpKind.transpose (i1 :: i2 :: rest) (t1 :: t2 :: tys')).replaceOpWith
          i2 (Value.arg 0)) := by
  set g : Graph := chainGraph OpKind.transpose (i1 :: i2 :: rest) (t1 :: t2 :: tys') with hg
  have hops : g.ops
      = ⟨i1, OpKind.transpose, [Value.arg 0], t1⟩ ::
        ⟨i2, OpKind.transpose, [Value.res i1], t2⟩ ::
        chainOps OpKind.transpose (Value.res i2) rest tys' := rfl
  have h1 : tryPattern g ⟨i1, OpKind.transpose, [Value.arg 0], t1⟩ = none := by
    simp [tryPattern, simplifyRedundantTranspose, Graph.definingOpOfKind, Graph.definingOp]
  have h2 : tryPattern g ⟨i2, OpKind.transpose, [Value.res i1], t2⟩
      = some (g.replaceOpWith i2 (Value.arg 0)) := by
    have hfind : g.findOp i1 = some ⟨i1, OpKind.transpose, [Value.arg 0], t1⟩ := by
      unfold Graph.findOp
      rw [hops]
      simp [List.find?]
    simp [tryPattern, simplifyRedundantTranspose, Graph.definingOpOfKind,
      Graph.definingOp, hfind]
  unfold Graph.step
  rw [hops]
  simp only [stepAux, h1, h2]

theorem replaceOpWith_chain (k : OpKind) {i1 i2 : Nat} {rest : List Nat}
    {t1 t2 : Ty} {tys' : List Ty} (hn : (i1 :: i2 :: rest).Nodup) :
    (chainGraph k (i1 :: i2 :: rest) (t1 :: t2 :: tys')).replaceOpWith i2 (Value.arg 0)
      = ⟨⟨i1, k, [Value.arg 0], t1⟩ :: chainOps k (Value.arg 0) rest tys',
         fun _ => ty23, [chainVal rest]⟩ := by
  have h12 : i1 ≠ i2 := by
    rw [List.nodup_cons] at hn
    exact fun he => hn.1 (he ▸ List.mem_cons_self i2 rest)
  have hi2rest : i2 ∉ rest := by
    rw [List.nodup_cons, List.nodup_cons] at hn
    exact hn.2.1
  unfold Graph.replaceOpWith
  have hops : (chainGraph k (i1 :: i2 :: rest) (t1 :: t2 :: tys')).ops
      = ⟨i1, k, [Value.arg 0], t1⟩ :: ⟨i2, k, [Value.res i1], t2⟩ ::
        chainOps k (Value.res i2) rest tys' := rfl
  rw [hops]
  simp only [List.map_cons]
  have hA : Op.subst (Value.res i2) (Value.arg 0) ⟨i1, k, [Value.arg 0], t1⟩
      = ⟨i1, k, [Value.arg 0], t1⟩ := by
    simp [Op.subst, substV]
  have hB : Op.subst (Value.res i2) (Value.arg 0) ⟨i2, k, [Value.res i1], t2⟩
      = ⟨i2, k, [Value.res i1], t2⟩ := by
    simp [Op.subst, substV, h12]
  have hC : (chainOps k (Value.res i2) rest tys').map (Op.subst (Value.res i2) (Value.arg 0))
      = chainOps k (Value.arg 0) rest tys' := by
    rw [chainOps_subst (fun j hj => by simp; exact fun he => hi2rest (he ▸ hj)) _]
    rw [substV_old]
  rw [hA, hB, hC]
  rw [List.filter_cons, List.filter_cons]
  rw [if_pos (by simp [h12])]
  rw [if_neg (by simp)]
  have hCf : (chainOps k (Value.arg 0) rest tys').filter (fun o => !(o.id == i2))
      = chainOps k (Value.arg 0) rest tys' := by
    apply List.filter_eq_self.mpr
    intro o ho
    have := chainOps_id_mem o ho
    simp only [Bool.not_eq_eq_eq_not, Bool.not_true, beq_eq_false_iff_ne, ne_eq]
    exact fun he => hi2rest (he ▸ this)
  rw [hCf]
  have houts : (chainGraph k (i1 :: i2 :: rest) (t1 :: t2 :: tys')).outputs
      = [chainVal (i1 :: i2 :: rest)] := rfl
  rw [houts]
  have hout2 : substV (Value.res i2) (Value.arg 0) (chainVal (i1 :: i2 :: rest))
      = chainVal rest := by
    cases rest with
    | nil =>
      have : chainVal (i1 :: i2 :: ([] : List Nat)) = Value.res i2 := rfl
      rw [this, substV_old]
      rfl
    | cons a l =>
      rw [chainVal_cons i1 (by simp), chainVal_cons i2 (by simp)]
      obtain ⟨j, hj, he⟩ := @chainVal_mem (a :: l) (by simp)
      rw [he]
      exact substV_of_ne (by simp; exact fun heq => hi2rest (heq ▸ hj))
  simp only [List.map_cons, List.map_nil, hout2]
  rfl

theorem passStep_chainT {i1 i2 : Nat} {rest : List Nat} {t1 t2 : Ty} {tys' : List Ty}
    (hn : (i1 :: i2 :: rest).Nodup) (hlen : rest.length = tys'.length) :
    (chainGraph OpKind.transpose (i1 :: i2 :: rest) (t1 :: t2 :: tys')).passStep
      = some (chainGraph OpKind.transpose rest tys') := by
  have hi1rest : i1 ∉ rest := by
    rw [List.nodup_cons] at hn
    exact fun hmem => hn.1 (List.mem_cons_of_mem _ hmem)
  unfold Graph.passStep
  rw [step_chainT, replaceOpWith_chain OpKind.transpose hn]
  show some (Graph.dce _) = _
  rw [dce_cons_dead hlen hi1rest]

theorem passStep_chain_nil (k : OpKind) (tys : List Ty) :
    (chainGraph k [] tys).passStep = none := by
  cases tys <;> rfl

theorem passStep_chain_single (k : OpKind) (i : Nat) (t : Ty) :
    (chainGraph k [i] [t]).passStep = none := by
  unfold Graph.passStep Graph.step
  have hops : (chainGraph k [i] [t]).ops = [⟨i, k, [Value.arg 0], t⟩] := rfl
  rw [hops]
  have h1 : tryPattern (chainGraph k [i] [t]) ⟨i, k, [Value.arg 0], t⟩ = none := by
    cases k <;>
      simp [tryPattern, simplifyRedundantTranspose, reshapeReshapeOpt,
        Graph.definingOpOfKind, Graph.definingOp]
  simp only [stepAux, h1]
  rfl

theorem chainGraph_freshId_not_mem {k : OpKind} {ids : List Nat} {tys : List Ty}
    (hlen : ids.length = tys.length) :
    (chainGraph k ids tys).freshId ∉ ids := by
  intro hmem
  apply freshId_not_mem_ids (chainGraph k ids tys)
  have hops : (chainGraph k ids tys).ops = chainOps k (Value.arg 0) ids tys := rfl
  rw [hops, chainOps_map_id hlen]
  exact hmem

theorem step_chainR (i1 i2 : Nat) (rest : List Nat) (t1 t2 : Ty) (tys' : List Ty) :
    (chainGraph OpKind.reshape (i1 :: i2 :: rest) (t1 :: t2 :: tys')).step
      = some (Graph.replaceOpWith
          ⟨insertBefore i2
            ⟨(chainGraph OpKind.reshape (i1 :: i2 :: rest) (t1 :: t2 :: tys')).freshId,
             OpKind.reshape, [Value.arg 0], t2⟩
            (chainGraph OpKind.reshape (i1 :: i2 :: rest) (t1 :: t2 :: tys')).ops,
           (chainGraph OpKind.reshape (i1 :: i2 :: rest) (t1 :: t2 :: tys')).argTy,
           (chainGraph OpKind.reshape (i1 :: i2 :: rest) (t1 :: t2 :: tys')).outputs⟩
          i2
          (Value.res (chainGraph OpKind.reshape (i1 :: i2 :: rest) (t1 :: t2 :: tys')).freshId)) := by
  set g : Graph := chainGraph OpKind.reshape (i1 :: i2 :: rest) (t1 :: t2 :: tys') with hg
  have hops : g.ops
      = ⟨i1, OpKind.reshape, [Value.arg 0], t1⟩ ::
        ⟨i2, OpKind.reshape, [Value.res i1], t2⟩ ::
        chainOps OpKind.reshape (Value.res i2) rest tys' := rfl
  have h1 : tryPattern g ⟨i1, OpKind.reshape, [Value.arg 0], t1⟩ = none := by
    simp [tryPattern, reshapeReshapeOpt, Graph.definingOpOfKind, Graph.definingOp]
  have hfind : g.definingOp (Value.res i1)
      = some ⟨i1, OpKind.reshape, [Value.arg 0], t1⟩ := by
    unfold Graph.definingOp Graph.findOp
    rw [hops]
    simp [List.find?]
  have h2 : tryPattern g ⟨i2, OpKind.reshape, [Value.res i1], t2⟩
      = some (Graph.replaceOpWith
          ⟨insertBefore i2 ⟨g.freshId, OpKind.reshape, [Value.arg 0], t2⟩ g.ops,
           g.argTy, g.outputs⟩ i2 (Value.res g.freshId)) := by
    show reshapeReshapeOpt g ⟨i2, OpKind.reshape, [Value.res i1], t2⟩ = _
    exact reshapeReshapeOpt_eq rfl hfind rfl rfl
  unfold Graph.step
  rw [hops]
  simp only [stepAux, h1, h2]
  rfl

theorem replace_chainR {i1 i2 : Nat} {rest : List Nat} {t1 t2 : Ty} {tys' : List Ty}
    (nid : Nat) (hn : (i1 :: i2 :: rest).Nodup) (hnidmem : nid ∉ i1 :: i2 :: rest) :
    Graph.replaceOpWith
      ⟨insertBefore i2 ⟨nid, OpKind.reshape, [Value.arg 0], t2⟩
        (chainGraph OpKind.reshape (i1 :: i2 :: rest) (t1 :: t2 :: tys')).ops,
       (chainGraph OpKind.reshape (i1 :: i2 :: rest) (t1 :: t2 :: tys')).argTy,
       (chainGraph OpKind.reshape (i1 :: i2 :: rest) (t1 :: t2 :: tys')).outputs⟩
      i2 (Value.res nid)
      = ⟨⟨i1, OpKind.reshape, [Value.arg 0], t1⟩ ::
          chainOps OpKind.reshape (Value.arg 0) (nid :: rest) (t2 :: tys'),
         fun _ => ty23, [chainVal (nid :: rest)]⟩ := by
  have h12 : i1 ≠ i2 := by
    rw [List.nodup_cons] at hn
    exact fun he => hn.1 (he ▸ List.mem_cons_self i2 rest)
  have hi2rest : i2 ∉ rest := by
    rw [List.nodup_cons, List.nodup_cons] at hn
    exact hn.2.1
  have hnid2 : nid ≠ i2 := by
    intro he
    exact hnidmem (by rw [he]; exact List.mem_cons_of_mem _ (List.mem_cons_self i2 rest))
  have hnidrest : nid ∉ rest := by
    intro hmem
    exact hnidmem (List.mem_cons_of_mem _ (List.mem_cons_of_mem _ hmem))
  have hins : insertBefore i2 ⟨nid, OpKind.reshape, [Value.arg 0], t2⟩
      (chainGraph OpKind.reshape (i1 :: i2 :: rest) (t1 :: t2 :: tys')).ops
      = ⟨i1, OpKind.reshape, [Value.arg 0], t1⟩ ::
        ⟨nid, OpKind.reshape, [Value.arg 0], t2⟩ ::
        ⟨i2, OpKind.reshape, [Value.res i1], t2⟩ ::
        chainOps OpKind.reshape (Value.res i2) rest tys' := by
    show insertBefore i2 _
      (⟨i1, OpKind.reshape, [Value.arg 0], t1⟩ ::
       ⟨i2, OpKind.reshape, [Value.res i1], t2⟩ ::
       chainOps OpKind.reshape (Value.res i2) rest tys') = _
    unfold insertBefore
    rw [if_neg h12]
    unfold insertBefore
    rw [if_pos rfl]
  unfold Graph.replaceOpWith
  rw [hins]
  simp only [List.map_cons]
  have hA : Op.subst (Value.res i2) (Value.res nid) ⟨i1, OpKind.reshape, [Value.arg 0], t1⟩
      = ⟨i1, OpKind.reshape, [Value.arg 0], t1⟩ := by
    simp [Op.subst, substV]
  have hNw : Op.subst (Value.res i2) (Value.res nid) ⟨nid, OpKind.reshape, [Value.arg 0], t2⟩
      = ⟨nid, OpKind.reshape, [Value.arg 0], t2⟩ := by
    simp [Op.subst, substV]
  have hB : Op.subst (Value.res i2) (Value.res nid) ⟨i2, OpKind.reshape, [Value.res i1], t2⟩
      = ⟨i2, OpKind.reshape, [Value.res i1], t2⟩ := by
    simp [Op.subst, substV, h12]
  have hC : (chainOps OpKind.reshape (Value.res i2) rest tys').map
      (Op.subst (Value.res i2) (Value.res nid))
      = chainOps OpKind.reshape (Value.res nid) rest tys' := by
    rw [chainOps_subst (fun j hj => by simp; exact fun he => hi2rest (he ▸ hj)) _]
    rw [substV_old]
  rw [hA, hNw, hB, hC]
  rw [List.filter_cons, List.filter_cons, List.filter_cons]
  rw [if_pos (by simp [h12])]
  rw [if_pos (by simp [hnid2])]
  rw [if_neg (by simp)]
  have hCf : (chainOps OpKind.reshape (Value.res nid) rest tys').filter (fun o => !(o.id == i2))
      = chainOps OpKind.reshape (Value.res nid) rest tys' := by
    apply List.filter_eq_self.mpr
    intro o ho
    have := chainOps_id_mem o ho
    simp only [Bool.not_eq_eq_eq_not, Bool.not_true, beq_eq_false_iff_ne, ne_eq]
    exact fun he => hi2rest (he ▸ this)
  rw [hCf]
  have houts : (chainGraph OpKind.reshape (i1 :: i2 :: rest) (t1 :: t2 :: tys')).outputs
      = [chainVal (i1 :: i2 :: rest)] := rfl
  rw [houts]
  have hout2 : substV (Value.res i2) (Value.res nid) (chainVal (i1 :: i2 :: rest))
      = chainVal (nid :: rest) := by
    cases rest with
    | nil =>
      have h3 : chainVal (i1 :: i2 :: ([] : List Nat)) = Value.res i2 := rfl
      rw [h3, substV_old]
      rfl
    | cons a l =>
      rw [chainVal_cons i1 (by simp), chainVal_cons i2 (by simp),
        chainVal_cons nid (by simp)]
      obtain ⟨j, hj, he⟩ := @chainVal_mem (a :: l) (by simp)
      rw [he]
      exact substV_of_ne (by simp; exact fun heq => hi2rest (heq ▸ hj))
  simp only [List.map_cons, List.map_nil, hout2]
  rfl

theorem passStep_chainR {i1 i2 : Nat} {rest : List Nat} {t1 t2 : Ty} {tys' : List Ty}
    (hn : (i1 :: i2 :: rest).Nodup) (hlen : rest.length = tys'.length) :
    (chainGraph OpKind.reshape (i1 :: i2 :: rest) (t1 :: t2 :: tys')).passStep
      = some (chainGraph OpKind.reshape
          ((chainGraph OpKind.reshape (i1 :: i2 :: rest) (t1 :: t2 :: tys')).freshId :: rest)
          (t2 :: tys')) := by
  have hlenAll : (i1 :: i2 :: rest).length = (t1 :: t2 :: tys').length := by
    simp [hlen]
  have hmem : (chainGraph OpKind.reshape (i1 :: i2 :: rest) (t1 :: t2 :: tys')).freshId
      ∉ (i1 :: i2 :: rest) := chainGraph_freshId_not_mem hlenAll
  have hi1 : i1 ∉ (chainGraph OpKind.reshape (i1 :: i2 :: rest) (t1 :: t2 :: tys')).freshId :: rest := by
    intro h
    rcases List.mem_cons.mp h with he | hmem2
    · exact hmem (he ▸ List.mem_cons_self i1 (i2 :: rest))
    · rw [List.nodup_cons] at hn
      exact hn.1 (List.mem_cons_of_mem _ hmem2)
  unfold Graph.passStep
  rw [step_chainR]
  show some (Graph.dce _) = _
  rw [replace_chainR _ hn hmem]
  have hlen2 : ((chainGraph OpKind.reshape (i1 :: i2 :: rest) (t1 :: t2 :: tys')).freshId :: rest).length
      = (t2 :: tys').length := by simp [hlen]
  rw [show (⟨⟨i1, OpKind.reshape, [Value.arg 0], t1⟩ ::
      chainOps OpKind.reshape (Value.arg 0)
        ((chainGraph OpKind.reshape (i1 :: i2 :: rest) (t1 :: t2 :: tys')).freshId :: rest)
        (t2 :: tys'),
      fun _ => ty23, [chainVal ((chainGraph OpKind.reshape (i1 :: i2 :: rest) (t1 :: t2 :: tys')).freshId :: rest)]⟩ : Graph)
    = ⟨⟨i1, OpKind.reshape, [Value.arg 0], t1⟩ ::
      chainOps OpKind.reshape (Value.arg 0)
        ((chainGraph OpKind.reshape (i1 :: i2 :: rest) (t1 :: t2 :: tys')).freshId :: rest)
        (t2 :: tys'),
      fun _ => ty23, [chainVal ((chainGraph OpKind.reshape (i1 :: i2 :: rest) (t1 :: t2 :: tys')).freshId :: rest)]⟩ from rfl]
  rw [dce_cons_dead hlen2 hi1]

/-! Running the pass on chains. -/

theorem runPass_chainT_count :
    ∀ (N : Nat) (ids : List Nat) (tys : List Ty) (f : Nat), ids.Nodup →
      ids.length = tys.length → ids.length ≤ N → ids.length ≤ f →
      (runPass f (chainGraph OpKind.transpose ids tys)).ops.length = ids.length % 2 ∧
      ∀ o ∈ (runPass f (chainGraph OpKind.transpose ids tys)).ops,
        o.kind = OpKind.transpose := by
  intro N
  induction N with
  | zero =>
    intro ids tys f hn hlen hN hf
    have hids : ids = [] := List.length_eq_zero.mp (Nat.le_zero.mp hN)
    subst hids
    rw [runPass_of_fixpoint (passStep_chain_nil _ _) f]
    refine ⟨rfl, ?_⟩
    intro o ho
    rw [show (chainGraph OpKind.transpose [] tys).ops = [] from chainOps_nil OpKind.transpose (Value.arg 0) tys] at ho
    cases ho
  | succ M ih =>
    intro ids tys f hn hlen hN hf
    cases ids with
    | nil =>
      rw [runPass_of_fixpoint (passStep_chain_nil _ _) f]
      refine ⟨rfl, ?_⟩
      intro o ho
      rw [show (chainGraph OpKind.transpose [] tys).ops = [] from chainOps_nil OpKind.transpose (Value.arg 0) tys] at ho
      cases ho
    | cons i1 ids2 =>
      cases tys with
      | nil => simp at hlen
      | cons t1 tys1 =>
        cases ids2 with
        | nil =>
          cases tys1 with
          | cons t2 l2 => simp at hlen
          | nil =>
            rw [runPass_of_fixpoint (passStep_chain_single _ _ _) f]
            refine ⟨rfl, ?_⟩
            intro o ho
            have hops2 : (chainGraph OpKind.transpose [i1] [t1]).ops
                = [⟨i1, OpKind.transpose, [Value.arg 0], t1⟩] := rfl
            rw [hops2, List.mem_singleton] at ho
            rw [ho]
        | cons i2 rest =>
          cases tys1 with
          | nil => simp at hlen
          | cons t2 tys' =>
            have hlen' : rest.length = tys'.length := by simpa using hlen
            cases f with
            | zero =>
              exfalso
              simp only [List.length_cons] at hf
              omega
            | succ f2 =>
              have hstep := @passStep_chainT i1 i2 rest t1 t2 tys' hn hlen'
              have hnrest : rest.Nodup := by
                rw [List.nodup_cons, List.nodup_cons] at hn
                exact hn.2.2
              have hres := ih rest tys' f2 hnrest hlen'
                (by simp only [List.length_cons] at hN ⊢; omega)
                (by simp only [List.length_cons] at hf ⊢; omega)
              have hrw : runPass (f2 + 1)
                  (chainGraph OpKind.transpose (i1 :: i2 :: rest) (t1 :: t2 :: tys'))
                  = runPass f2 (chainGraph OpKind.transpose rest tys') := by
                simp only [runPass, hstep]
              rw [hrw]
              refine ⟨?_, hres.2⟩
              rw [hres.1]
              simp only [List.length_cons]
              omega

theorem runPass_chainR_shape :
    ∀ (N : Nat) (ids : List Nat) (tys : List Ty) (f : Nat), ids.Nodup →
      ids.length = tys.length → ids.length ≤ N → ids.length ≤ f → ids ≠ [] →
      ∃ j t, tys.getLast? = some t ∧
        (runPass f (chainGraph OpKind.reshape ids tys)).ops
          = [⟨j, OpKind.reshape, [Value.arg 0], t⟩] := by
  intro N
  induction N with
  | zero =>
    intro ids tys f hn hlen hN hf hne
    exact absurd (List.length_eq_zero.mp (Nat.le_zero.mp hN)) hne
  | succ M ih =>
    intro ids tys f hn hlen hN hf hne
    cases ids with
    | nil => exact absurd rfl hne
    | cons i1 ids2 =>
      cases tys with
      | nil => simp at hlen
      | cons t1 tys1 =>
        cases ids2 with
        | nil =>
          cases tys1 with
          | cons t2 l2 => simp at hlen
          | nil =>
            refine ⟨i1, t1, rfl, ?_⟩
            rw [runPass_of_fixpoint (passStep_chain_single _ _ _) f]
            rfl
        | cons i2 rest =>
          cases tys1 with
          | nil => simp at hlen
          | cons t2 tys' =>
            have hlen' : rest.length = tys'.length := by simpa using hlen
            cases f with
            | zero =>
              exfalso
              simp only [List.length_cons] at hf
              omega
            | succ f2 =>
              have hstep := @passStep_chainR i1 i2 rest t1 t2 tys' hn hlen'
              have hmemid : (chainGraph OpKind.reshape (i1 :: i2 :: rest)
                    (t1 :: t2 :: tys')).freshId ∉ (i1 :: i2 :: rest) :=
                chainGraph_freshId_not_mem (by simp only [List.length_cons]; omega)
              have hnodup2 :
                  ((chainGraph OpKind.reshape (i1 :: i2 :: rest) (t1 :: t2 :: tys')).freshId
                    :: rest).Nodup := by
                rw [List.nodup_cons]
                constructor
                · intro hm
                  exact hmemid (List.mem_cons_of_mem _ (List.mem_cons_of_mem _ hm))
                · rw [List.nodup_cons, List.nodup_cons] at hn
                  exact hn.2.2
              obtain ⟨j, t, hgl, hops⟩ := ih
                ((chainGraph OpKind.reshape (i1 :: i2 :: rest) (t1 :: t2 :: tys')).freshId
                  :: rest)
                (t2 :: tys') f2 hnodup2
                (by simp only [List.length_cons]; omega)
                (by simp only [List.length_cons] at hN ⊢; omega)
                (by simp only [List.length_cons] at hf ⊢; omega)
                (by simp)
              refine ⟨j, t, ?_, ?_⟩
              · rw [← hgl, List.getLast?_cons_cons]
              · have hrw : runPass (f2 + 1)
                    (chainGraph OpKind.reshape (i1 :: i2 :: rest) (t1 :: t2 :: tys'))
                    = runPass f2 (chainGraph OpKind.reshape
                        ((chainGraph OpKind.reshape (i1 :: i2 :: rest) (t1 :: t2 :: tys')).freshId
                          :: rest) (t2 :: tys')) := by
                  simp only [runPass, hstep]
                rw [hrw]
                exact hops

/-- C5: running the pass to fixpoint on a chain of N consecutive Transpose
operations leaves exactly N mod 2 Transpose operations, and on a nonempty
chain of N consecutive Reshape operations leaves exactly one Reshape
operation, which consumes the block argument directly and whose result type
is the final (outermost) shape, for every N. -/
theorem chain_collapse (ids : List Nat) (tys : List Ty)
    (hn : ids.Nodup) (hlen : ids.length = tys.length) :
    ((Graph.canonicalize (chainGraph OpKind.transpose ids tys)).ops.length
        = ids.length % 2 ∧
     ∀ o ∈ (Graph.canonicalize (chainGraph OpKind.transpose ids tys)).ops,
       o.kind = OpKind.transpose) ∧
    (ids ≠ [] → ∃ j t, tys.getLast? = some t ∧
      (Graph.canonicalize (chainGraph OpKind.reshape ids tys)).ops
        = [⟨j, OpKind.reshape, [Value.arg 0], t⟩]) := by
  have hfuel : ∀ k, ids.length ≤ fuelOf (chainGraph k ids tys) := by
    intro k
    unfold fuelOf
    rw [show (chainGraph k ids tys).ops.length = ids.length from chainOps_length hlen]
    have hsq : ids.length ≤ ids.length * (ids.length + 1) := by
      calc ids.length = ids.length * 1 := (Nat.mul_one _).symm
        _ ≤ ids.length * (ids.length + 1) := Nat.mul_le_mul_left _ (by omega)
    omega
  constructor
  · exact runPass_chainT_count ids.length ids tys _ hn hlen le_rfl
      (hfuel OpKind.transpose)
  · intro hne
    exact runPass_chainR_shape ids.length ids tys _ hn hlen le_rfl
      (hfuel OpKind.reshape) hne

/-! Tensor facts: transpose is an involution on valid tensors, reshape only
keeps the data. -/

@[simp] theorem transposeT_rows {α : Type} [Inhabited α] (t : Tensor α) :
    (transposeT t).rows = t.cols := rfl

@[simp] theorem transposeT_cols {α : Type} [Inhabited α] (t : Tensor α) :
    (transposeT t).cols = t.rows := rfl

@[simp] theorem transposeT_length {α : Type} [Inhabited α] (t : Tensor α) :
    (transposeT t).data.length = t.cols * t.rows := by
  unfold transposeT
  simp

theorem transposeT_valid {α : Type} [Inhabited α] (t : Tensor α) :
    (transposeT t).valid := by
  unfold Tensor.valid
  simp

theorem transposeT_involutive {α : Type} [Inhabited α] {t : Tensor α} (hv : t.valid) :
    transposeT (transposeT t) = t := by
  obtain ⟨r, c, d⟩ := t
  unfold Tensor.valid at hv
  simp only at hv
  have hdata : (List.range (r * c)).map
      (fun q => ((List.range (c * r)).map
        (fun q2 => d.getD (q2 % r * c + q2 / r) default)).getD (q % c * r + q / c) default)
      = d := by
    apply List.ext_getElem
    · simp [hv]
    · intro p hp1 hp2
      have hp : p < r * c := by
        rw [hv] at hp2
        exact hp2
      have hc : 0 < c := by
        rcases Nat.eq_zero_or_pos c with hc0 | hc0
        · subst hc0; omega
        · exact hc0
      have hr : 0 < r := by
        rcases Nat.eq_zero_or_pos r with hr0 | hr0
        · subst hr0; omega
        · exact hr0
      have hi : p / c < r := Nat.div_lt_of_lt_mul (Nat.mul_comm r c ▸ hp)
      have hj : p % c < c := Nat.mod_lt _ hc
      simp only [List.getElem_map, List.getElem_range]
      have hKlt : p % c * r + p / c < c * r := by nlinarith
      have hlen1 : p % c * r + p / c < ((List.range (c * r)).map
          (fun q2 => d.getD (q2 % r * c + q2 / r) default)).length := by
        simpa using hKlt
      rw [List.getD_eq_getElem _ _ hlen1]
      simp only [List.getElem_map, List.getElem_range]
      have hmod : (p % c * r + p / c) % r = p / c := by
        rw [Nat.add_comm, Nat.add_mul_mod_self_right]
        exact Nat.mod_eq_of_lt hi
      have hdiv : (p % c * r + p / c) / r = p % c := by
        rw [Nat.add_comm, Nat.add_mul_div_right _ _ hr, Nat.div_eq_of_lt hi]
        omega
      rw [hmod, hdiv]
      have hfin : p / c * c + p % c = p := by
        rw [Nat.mul_comm]
        exact Nat.div_add_mod p c
      rw [hfin]
      rw [List.getD_eq_getElem _ _ hp2]
  calc transposeT (transposeT (⟨r, c, d⟩ : Tensor α))
      = ⟨r, c, (List.range (r * c)).map
          (fun q => ((List.range (c * r)).map
            (fun q2 => d.getD (q2 % r * c + q2 / r) default)).getD
              (q % c * r + q / c) default)⟩ := rfl
    _ = ⟨r, c, d⟩ := by rw [hdata]

@[simp] theorem reshapeT_reshapeT {α : Type} (ty1 ty2 : Ty) (t : Tensor α) :
    reshapeT ty2 (reshapeT ty1 t) = reshapeT ty2 t := rfl

/-! Evaluation infrastructure. -/

theorem evalOps_append {α : Type} [Inhabited α]
    (interp : Nat → Ty → List (Tensor α) → Tensor α) (args : Nat → Tensor α)
    (l1 l2 : List Op) (env : Nat → Option (Tensor α)) :
    evalOps interp args (l1 ++ l2) env
      = evalOps interp args l2 (evalOps interp args l1 env) := by
  induction l1 generalizing env with
  | nil => rfl
  | cons o rest ih =>
    show evalOps interp args (rest ++ l2)
        (fun i => if i = o.id then evalOp interp args env o else env i) = _
    exact ih _

theorem evalOps_not_mem {α : Type} [Inhabited α]
    {interp : Nat → Ty → List (Tensor α) → Tensor α} {args : Nat → Tensor α}
    {l : List Op} {env : Nat → Option (Tensor α)} {i : Nat}
    (h : i ∉ l.map Op.id) : evalOps interp args l env i = env i := by
  induction l generalizing env with
  | nil => rfl
  | cons o rest ih =>
    simp only [List.map_cons, List.mem_cons] at h
    push_neg at h
    show evalOps interp args rest _ i = env i
    rw [ih h.2]
    simp [h.1]

theorem evalValues_congr {α : Type} {args : Nat → Tensor α}
    {env env' : Nat → Option (Tensor α)} :
    ∀ {l : List Value}, (∀ v ∈ l, evalValue args env' v = evalValue args env v) →
      evalValues args env' l = evalValues args env l := by
  intro l
  induction l with
  | nil => intro _; rfl
  | cons v vs ih =>
    intro h
    show (match evalValue args env' v with
      | some t => match evalValues args env' vs with
        | some ts => some (t :: ts)
        | none => none
      | none => none) = _
    rw [h v (by simp), ih (fun v2 hv2 => h v2 (by simp [hv2]))]
    rfl

theorem evalOp_congr {α : Type} [Inhabited α]
    {interp : Nat → Ty → List (Tensor α) → Tensor α} {args : Nat → Tensor α}
    {env env' : Nat → Option (Tensor α)} {o : Op}
    (h : ∀ v ∈ o.operands, evalValue args env' v = evalValue args env v) :
    evalOp interp args env' o = evalOp interp args env o := by
  unfold evalOp
  cases hk : o.kind with
  | transpose =>
    cases hop : o.operands with
    | nil => rfl
    | cons v vs =>
      cases vs with
      | nil =>
        show Option.map transposeT (evalValue args env' v)
          = Option.map transposeT (evalValue args env v)
        rw [h v (by simp [hop])]
      | cons v2 vs2 => rfl
  | reshape =>
    cases hop : o.operands with
    | nil => rfl
    | cons v vs =>
      cases vs with
      | nil =>
        show Option.map (reshapeT o.retTy) (evalValue args env' v)
          = Option.map (reshapeT o.retTy) (evalValue args env v)
        rw [h v (by simp [hop])]
      | cons v2 vs2 => rfl
  | other tag =>
    show (match evalValues args env' o.operands with
      | some ts => some (interp tag o.retTy ts)
      | none => none) = (match evalValues args env o.operands with
      | some ts => some (interp tag o.retTy ts)
      | none => none)
    rw [evalValues_congr h]

theorem isLive_iff {g : Graph} {o : Op} :
    g.isLive o = true ↔ Value.res o.id ∈ g.usedValues := by
  unfold Graph.isLive
  simp [List.elem_iff]

theorem evalOps_filter_live {α : Type} [Inhabited α]
    (interp : Nat → Ty → List (Tensor α) → Tensor α) (args : Nat → Tensor α)
    (g : Graph) :
    ∀ (l : List Op) (env envF : Nat → Option (Tensor α)),
      (∀ o ∈ l, o ∈ g.ops) →
      (∀ j, Value.res j ∈ g.usedValues → envF j = env j) →
      ∀ j, Value.res j ∈ g.usedValues →
        evalOps interp args (l.filter (fun o => g.isLive o)) envF j
          = evalOps interp args l env j := by
  intro l
  induction l with
  | nil => intro env envF _ hag j hj; exact hag j hj
  | cons o rest ih =>
    intro env envF hsub hag j hj
    by_cases hlive : g.isLive o = true
    · rw [List.filter_cons_of_pos hlive]
      show evalOps interp args (rest.filter _) _ j = evalOps interp args rest _ j
      apply ih _ _ (fun o2 ho2 => hsub o2 (by simp [ho2])) _ j hj
      intro j2 hj2
      by_cases hje : j2 = o.id
      · subst hje
        simp only [if_pos rfl]
        apply evalOp_congr
        intro v hv
        cases v with
        | arg n => rfl
        | res i =>
          show envF i = env i
          exact hag i (mem_usedValues_of_operand (hsub o (by simp)) hv)
      · simp only [if_neg hje]
        exact hag j2 hj2
    · rw [List.filter_cons_of_neg (by simpa using hlive)]
      show evalOps interp args (rest.filter _) envF j = evalOps interp args rest _ j
      apply ih _ _ (fun o2 ho2 => hsub o2 (by simp [ho2])) _ j hj
      intro j2 hj2
      by_cases hje : j2 = o.id
      · subst hje
        exact absurd (isLive_iff.mpr hj2) hlive
      · simp only [if_neg hje]
        exact hag j2 hj2

theorem dceOnce_eval {α : Type} [Inhabited α]
    (interp : Nat → Ty → List (Tensor α) → Tensor α) (args : Nat → Tensor α)
    (g : Graph) : (dceOnce g).eval interp args = g.eval interp args := by
  unfold Graph.eval
  apply List.map_congr_left
  intro v hv
  cases v with
  | arg n => rfl
  | res j =>
    show evalOps interp args (g.ops.filter (fun o => g.isLive o)) (fun _ => none) j
      = evalOps interp args g.ops (fun _ => none) j
    exact evalOps_filter_live interp args g g.ops _ _ (fun _ h => h) (fun _ _ => rfl) j
      (mem_usedValues_of_output hv)

theorem dce_eval {α : Type} [Inhabited α]
    (interp : Nat → Ty → List (Tensor α) → Tensor α) (args : Nat → Tensor α) :
    ∀ (n : Nat) (g : Graph), (dceIter n g).eval interp args = g.eval interp args := by
  intro n
  induction n with
  | zero => intro g; rfl
  | succ m ih =>
    intro g
    show (dceIter m (dceOnce g)).eval interp args = _
    rw [ih (dceOnce g), dceOnce_eval]

/-! Well-formedness infrastructure. -/

theorem wfOps_cons_iff {argTy : Nat → Ty} {seen : List Op} {o : Op} {rest : List Op} :
    wfOps argTy seen (o :: rest) = true ↔
      wfOp argTy seen o = true ∧ wfOps argTy (seen ++ [o]) rest = true := by
  show (wfOp argTy seen o && wfOps argTy (seen ++ [o]) rest) = true ↔ _
  exact Bool.and_eq_true _ _ ▸ Iff.rfl

theorem wfOps_append_iff {argTy : Nat → Ty} :
    ∀ {l1 l2 : List Op} {seen : List Op},
      wfOps argTy seen (l1 ++ l2) = true ↔
        wfOps argTy seen l1 = true ∧ wfOps argTy (seen ++ l1) l2 = true := by
  intro l1
  induction l1 with
  | nil => intro l2 seen; simp [wfOps]
  | cons o rest ih =>
    intro l2 seen
    rw [List.cons_append, wfOps_cons_iff, wfOps_cons_iff, ih, and_assoc]
    have hre : (seen ++ [o]) ++ rest = seen ++ o :: rest := by
      rw [List.append_assoc]
      rfl
    rw [hre]

@[simp] theorem tyOfValue_arg (argTy : Nat → Ty) (s : List Op) (n : Nat) :
    tyOfValue argTy s (Value.arg n) = some (argTy n) := rfl

theorem tyOfValue_res (argTy : Nat → Ty) (s : List Op) (i : Nat) :
    tyOfValue argTy s (Value.res i)
      = (s.find? (fun o => o.id == i)).map (fun o => o.retTy) := rfl

theorem tyOfValue_mono {argTy : Nat → Ty} {s more : List Op} {v : Value} {ty : Ty}
    (h : tyOfValue argTy s v = some ty) :
    tyOfValue argTy (s ++ more) v = some ty := by
  cases v with
  | arg n => exact h
  | res i =>
    rw [tyOfValue_res] at h ⊢
    rw [List.find?_append]
    cases hf : s.find? (fun o => o.id == i) with
    | none => rw [hf] at h; simp at h
    | some o =>
      rw [hf] at h
      simpa using h

theorem tyOfValue_res_mem {argTy : Nat → Ty} {s : List Op} {i : Nat} {ty : Ty}
    (h : tyOfValue argTy s (Value.res i) = some ty) : i ∈ s.map Op.id := by
  rw [tyOfValue_res] at h
  cases hf : s.find? (fun o => o.id == i) with
  | none => rw [hf] at h; simp at h
  | some o =>
    have hbeq := List.find?_some hf
    have hmem := List.mem_of_find?_eq_some hf
    have : o.id = i := by simpa using hbeq
    exact this ▸ List.mem_map_of_mem _ hmem

theorem wfOp_unary_inv {argTy : Nat → Ty} {seen : List Op} {o : Op}
    (hk : o.kind = OpKind.transpose ∨ o.kind = OpKind.reshape)
    (h : wfOp argTy seen o = true) :
    ∃ v t, o.operands = [v] ∧ tyOfValue argTy seen v = some t ∧
      ((o.kind = OpKind.transpose → o.retTy = t.swap) ∧
       (o.kind = OpKind.reshape → o.retTy.count = t.count)) := by
  rcases hk with hk | hk
  · cases hop : o.operands with
    | nil =>
      have hfalse : wfOp argTy seen o = false := by unfold wfOp; rw [hk, hop]
      rw [hfalse] at h
      cases h
    | cons v vs =>
      cases vs with
      | cons v2 vs2 =>
        have hfalse : wfOp argTy seen o = false := by unfold wfOp; rw [hk, hop]
        rw [hfalse] at h
        cases h
      | nil =>
        have heq : wfOp argTy seen o = (match tyOfValue argTy seen v with
            | some t => o.retTy == t.swap
            | none => false) := by
          unfold wfOp
          rw [hk, hop]
        rw [heq] at h
        cases hty : tyOfValue argTy seen v with
        | none =>
          rw [hty] at h
          cases h
        | some t =>
          rw [hty] at h
          refine ⟨v, t, rfl, hty, fun _ => eq_of_beq h, fun hk2 => ?_⟩
          rw [hk] at hk2
          cases hk2
  · cases hop : o.operands with
    | nil =>
      have hfalse : wfOp argTy seen o = false := by unfold wfOp; rw [hk, hop]
      rw [hfalse] at h
      cases h
    | cons v vs =>
      cases vs with
      | cons v2 vs2 =>
        have hfalse : wfOp argTy seen o = false := by unfold wfOp; rw [hk, hop]
        rw [hfalse] at h
        cases h
      | nil =>
        have heq : wfOp argTy seen o = (match tyOfValue argTy seen v with
            | some t => o.retTy.count == t.count
            | none => false) := by
          unfold wfOp
          rw [hk, hop]
        rw [heq] at h
        cases hty : tyOfValue argTy seen v with
        | none =>
          rw [hty] at h
          cases h
        | some t =>
          rw [hty] at h
          refine ⟨v, t, rfl, hty, fun hk2 => ?_, fun _ => eq_of_beq h⟩
          rw [hk] at hk2
          cases hk2

theorem wfOp_other_eq {argTy : Nat → Ty} {seen : List Op} {o : Op} {tag : Nat}
    (hk : o.kind = OpKind.other tag) :
    wfOp argTy seen o = o.operands.all (fun v => (tyOfValue argTy seen v).isSome) := by
  unfold wfOp
  rw [hk]

theorem wfOp_operands_typed {argTy : Nat → Ty} {seen : List Op} {o : Op}
    (h : wfOp argTy seen o = true) :
    ∀ v ∈ o.operands, ∃ ty, tyOfValue argTy seen v = some ty := by
  intro v hv
  cases hk : o.kind with
  | transpose =>
    obtain ⟨v0, t, hop, hty, _⟩ := wfOp_unary_inv (Or.inl hk) h
    rw [hop, List.mem_singleton] at hv
    subst hv
    exact ⟨t, hty⟩
  | reshape =>
    obtain ⟨v0, t, hop, hty, _⟩ := wfOp_unary_inv (Or.inr hk) h
    rw [hop, List.mem_singleton] at hv
    subst hv
    exact ⟨t, hty⟩
  | other tag =>
    rw [wfOp_other_eq hk] at h
    have h2 := List.all_eq_true.mp h _ hv
    cases hty : tyOfValue argTy seen v with
    | none => rw [hty] at h2; cases h2
    | some t => exact ⟨t, rfl⟩

theorem wfOp_operand_ref {argTy : Nat → Ty} {seen : List Op} {o : Op}
    (h : wfOp argTy seen o = true) :
    ∀ v ∈ o.operands, ∀ i, v = Value.res i → i ∈ seen.map Op.id := by
  intro v hv i hvi
  subst hvi
  obtain ⟨ty, hty⟩ := wfOp_operands_typed h _ hv
  exact tyOfValue_res_mem hty

theorem wfOps_no_ref {argTy : Nat → Ty} :
    ∀ {l seen : List Op}, wfOps argTy seen l = true →
      ∀ {j : Nat}, j ∉ (seen ++ l).map Op.id → ∀ o ∈ l, Value.res j ∉ o.operands := by
  intro l
  induction l with
  | nil => intro seen _ j _ o ho; cases ho
  | cons o rest ih =>
    intro seen hwf j hj o' ho'
    obtain ⟨hwfo, hwfrest⟩ := wfOps_cons_iff.mp hwf
    rcases List.mem_cons.mp ho' with rfl | ho2
    · intro hmem
      have := wfOp_operand_ref hwfo _ hmem j rfl
      apply hj
      rw [List.map_append, List.mem_append]
      exact Or.inl this
    · apply ih hwfrest _ o' ho2
      intro hmem
      apply hj
      have hre : (seen ++ [o]) ++ rest = seen ++ o :: rest := by
        rw [List.append_assoc]; rfl
      rw [← hre]
      exact hmem

theorem nodup_middle_not_mem_left {l1 l2 : List Op} {op : Op}
    (hnd : ((l1 ++ op :: l2).map Op.id).Nodup) : op.id ∉ l1.map Op.id := by
  rw [List.map_append, List.map_cons] at hnd
  have h2 := (List.nodup_cons.mp (List.nodup_middle.mp hnd)).1
  rw [List.mem_append] at h2
  push_neg at h2
  exact h2.1

theorem nodup_middle_not_mem_right {l1 l2 : List Op} {op : Op}
    (hnd : ((l1 ++ op :: l2).map Op.id).Nodup) : op.id ∉ l2.map Op.id := by
  rw [List.map_append, List.map_cons] at hnd
  have h2 := (List.nodup_cons.mp (List.nodup_middle.mp hnd)).1
  rw [List.mem_append] at h2
  push_neg at h2
  exact h2.2

theorem replaceOpWith_decomp {g : Graph} {l1 l2 : List Op} {op : Op} {w : Value}
    (hops : g.ops = l1 ++ op :: l2) (hnd : (g.ops.map Op.id).Nodup)
    (hl1 : ∀ o ∈ l1, Value.res op.id ∉ o.operands) :
    (g.replaceOpWith op.id w).ops = l1 ++ l2.map (Op.subst (Value.res op.id) w) := by
  rw [hops] at hnd
  rw [replaceOpWith_ops, hops, List.filter_append, List.map_append]
  have hf1 : l1.filter (fun o => !(o.id == op.id)) = l1 := by
    apply List.filter_eq_self.mpr
    intro o ho
    have : o.id ≠ op.id := by
      intro he
      exact nodup_middle_not_mem_left hnd (he ▸ List.mem_map_of_mem _ ho)
    simp [this]
  have hm1 : l1.map (Op.subst (Value.res op.id) w) = l1 :=
    map_eq_self_of_eq (fun o ho => Op.subst_of_not_mem (hl1 o ho))
  rw [hf1, hm1]
  rw [List.filter_cons_of_neg (by simp)]
  have hf2 : l2.filter (fun o => !(o.id == op.id)) = l2 := by
    apply List.filter_eq_self.mpr
    intro o ho
    have : o.id ≠ op.id := by
      intro he
      exact nodup_middle_not_mem_right hnd (he ▸ List.mem_map_of_mem _ ho)
    simp [this]
  rw [hf2]

theorem insertBefore_decomp {l1 l2 : List Op} {op newOp : Op}
    (h : ∀ o ∈ l1, o.id ≠ op.id) :
    insertBefore op.id newOp (l1 ++ op :: l2) = l1 ++ newOp :: op :: l2 := by
  induction l1 with
  | nil =>
    show insertBefore op.id newOp (op :: l2) = newOp :: op :: l2
    unfold insertBefore
    rw [if_pos rfl]
  | cons a rest ih =>
    show insertBefore op.id newOp (a :: (rest ++ op :: l2)) = a :: (rest ++ newOp :: op :: l2)
    unfold insertBefore
    rw [if_neg (h a (by simp))]
    rw [ih (fun o ho => h o (by simp [ho]))]

/-! Computation lemmas for evalOp, and type soundness of evaluation. -/

theorem evalOp_transpose_eq {α : Type} [Inhabited α]
    {interp : Nat → Ty → List (Tensor α) → Tensor α} {args : Nat → Tensor α}
    {env : Nat → Option (Tensor α)} {o : Op} {v0 : Value}
    (hk : o.kind = OpKind.transpose) (hop : o.operands = [v0]) :
    evalOp interp args env o = (evalValue args env v0).map transposeT := by
  unfold evalOp
  rw [hk, hop]

theorem evalOp_reshape_eq {α : Type} [Inhabited α]
    {interp : Nat → Ty → List (Tensor α) → Tensor α} {args : Nat → Tensor α}
    {env : Nat → Option (Tensor α)} {o : Op} {v0 : Value}
    (hk : o.kind = OpKind.reshape) (hop : o.operands = [v0]) :
    evalOp interp args env o = (evalValue args env v0).map (reshapeT o.retTy) := by
  unfold evalOp
  rw [hk, hop]

theorem evalOp_other_some {α : Type} [Inhabited α]
    {interp : Nat → Ty → List (Tensor α) → Tensor α} {args : Nat → Tensor α}
    {env : Nat → Option (Tensor α)} {o : Op} {tag : Nat} {ts : List (Tensor α)}
    (hk : o.kind = OpKind.other tag) (hv : evalValues args env o.operands = some ts) :
    evalOp interp args env o = some (interp tag o.retTy ts) := by
  unfold evalOp
  rw [hk, hv]

theorem evalValues_some {α : Type} {args : Nat → Tensor α}
    {env : Nat → Option (Tensor α)} :
    ∀ {vs : List Value}, (∀ v ∈ vs, ∃ t, evalValue args env v = some t) →
      ∃ ts, evalValues args env vs = some ts := by
  intro vs
  induction vs with
  | nil => intro _; exact ⟨[], rfl⟩
  | cons v rest ih =>
    intro h
    obtain ⟨t, ht⟩ := h v (by simp)
    obtain ⟨ts, hts⟩ := ih (fun v2 hv2 => h v2 (by simp [hv2]))
    refine ⟨t :: ts, ?_⟩
    show (match evalValue args env v with
      | some t => match evalValues args env rest with
        | some ts => some (t :: ts)
        | none => none
      | none => none) = some (t :: ts)
    rw [ht, hts]

theorem evalOp_shape {α : Type} [Inhabited α]
    {interp : Nat → Ty → List (Tensor α) → Tensor α} {args : Nat → Tensor α}
    {argTy : Nat → Ty} {env : Nat → Option (Tensor α)} {seen : List Op} {o : Op}
    (hinterp : ∀ tag ty ts, (interp tag ty ts).rows = ty.rows ∧
      (interp tag ty ts).cols = ty.cols ∧ (interp tag ty ts).data.length = ty.count)
    (hwfo : wfOp argTy seen o = true)
    (hbase : ∀ v ty, tyOfValue argTy seen v = some ty →
      ∃ t, evalValue args env v = some t ∧ t.rows = ty.rows ∧ t.cols = ty.cols ∧
        t.data.length = ty.count) :
    ∃ t, evalOp interp args env o = some t ∧ t.rows = o.retTy.rows ∧
      t.cols = o.retTy.cols ∧ t.data.length = o.retTy.count := by
  cases hk : o.kind with
  | transpose =>
    obtain ⟨v0, t0, hop, hty0, himpl⟩ := wfOp_unary_inv (Or.inl hk) hwfo
    have hret : o.retTy = t0.swap := himpl.1 hk
    obtain ⟨u, hu, hur, huc, hul⟩ := hbase v0 t0 hty0
    refine ⟨transposeT u, ?_, ?_, ?_, ?_⟩
    · rw [evalOp_transpose_eq hk hop, hu]
      rfl
    · rw [transposeT_rows, huc, hret]
      rfl
    · rw [transposeT_cols, hur, hret]
      rfl
    · rw [transposeT_length, hur, huc, hret]
      show t0.cols * t0.rows = t0.swap.count
      rfl
  | reshape =>
    obtain ⟨v0, t0, hop, hty0, himpl⟩ := wfOp_unary_inv (Or.inr hk) hwfo
    have hret : o.retTy.count = t0.count := himpl.2 hk
    obtain ⟨u, hu, hur, huc, hul⟩ := hbase v0 t0 hty0
    refine ⟨reshapeT o.retTy u, ?_, rfl, rfl, ?_⟩
    · rw [evalOp_reshape_eq hk hop, hu]
      rfl
    · show u.data.length = o.retTy.count
      rw [hul, hret]
  | other tag =>
    have htyped := wfOp_operands_typed hwfo
    obtain ⟨ts, hts⟩ := @evalValues_some α args env o.operands (fun v hv => by
      obtain ⟨ty, hty⟩ := htyped v hv
      obtain ⟨t, ht, _⟩ := hbase v ty hty
      exact ⟨t, ht⟩)
    obtain ⟨h1, h2, h3⟩ := hinterp tag o.retTy ts
    exact ⟨interp tag o.retTy ts, evalOp_other_some hk hts, h1, h2, h3⟩

theorem evalOps_types {α : Type} [Inhabited α]
    {interp : Nat → Ty → List (Tensor α) → Tensor α} {args : Nat → Tensor α}
    {argTy : Nat → Ty}
    (hinterp : ∀ tag ty ts, (interp tag ty ts).rows = ty.rows ∧
      (interp tag ty ts).cols = ty.cols ∧ (interp tag ty ts).data.length = ty.count)
    (hargs : ∀ n, (args n).rows = (argTy n).rows ∧ (args n).cols = (argTy n).cols ∧
      (args n).data.length = (argTy n).count) :
    ∀ (l : List Op) (seen : List Op) (env : Nat → Option (Tensor α)),
      ((seen ++ l).map Op.id).Nodup →
      wfOps argTy seen l = true →
      (∀ v ty, tyOfValue argTy seen v = some ty →
        ∃ t, evalValue args env v = some t ∧ t.rows = ty.rows ∧ t.cols = ty.cols ∧
          t.data.length = ty.count) →
      ∀ v ty, tyOfValue argTy (seen ++ l) v = some ty →
        ∃ t, evalValue args (evalOps interp args l env) v = some t ∧ t.rows = ty.rows ∧
          t.cols = ty.cols ∧ t.data.length = ty.count := by
  intro l
  induction l with
  | nil =>
    intro seen env _ _ hbase v ty hty
    rw [List.append_nil] at hty
    exact hbase v ty hty
  | cons o rest ih =>
    intro seen env hnd hwf hbase v ty hty
    obtain ⟨hwfo, hwfrest⟩ := wfOps_cons_iff.mp hwf
    have hre : (seen ++ [o]) ++ rest = seen ++ o :: rest := by
      rw [List.append_assoc]
      rfl
    have hoid : o.id ∉ seen.map Op.id := nodup_middle_not_mem_left hnd
    have hbase2 : ∀ v2 ty2, tyOfValue argTy (seen ++ [o]) v2 = some ty2 →
        ∃ t, evalValue args (fun i => if i = o.id then evalOp interp args env o else env i)
            v2 = some t ∧
          t.rows = ty2.rows ∧ t.cols = ty2.cols ∧ t.data.length = ty2.count := by
      intro v2 ty2 hty2
      cases v2 with
      | arg n =>
        rw [tyOfValue_arg, Option.some.injEq] at hty2
        subst hty2
        obtain ⟨h1, h2, h3⟩ := hargs n
        exact ⟨args n, rfl, h1, h2, h3⟩
      | res i =>
        rw [tyOfValue_res, List.find?_append] at hty2
        cases hf : seen.find? (fun o2 => o2.id == i) with
        | some o' =>
          rw [hf] at hty2
          have hty2' : tyOfValue argTy seen (Value.res i) = some ty2 := by
            rw [tyOfValue_res, hf]
            simpa using hty2
          obtain ⟨t, ht, hsh⟩ := hbase _ _ hty2'
          have hine : i ≠ o.id := by
            intro he
            exact hoid (he ▸ tyOfValue_res_mem hty2')
          refine ⟨t, ?_, hsh⟩
          show (if i = o.id then _ else env i) = some t
          rw [if_neg hine]
          exact ht
        | none =>
          rw [hf] at hty2
          by_cases hoi : o.id = i
          · have hfind1 : ([o].find? (fun o2 => o2.id == i)) = some o := by
              simp [List.find?, hoi]
            rw [hfind1] at hty2
            have hty2e : ty2 = o.retTy := by
              have : some o.retTy = some ty2 := by simpa using hty2
              exact (Option.some.injEq _ _ ▸ this).symm
            obtain ⟨t, ht, h1, h2, h3⟩ := evalOp_shape hinterp hwfo hbase
            refine ⟨t, ?_, ?_, ?_, ?_⟩
            · show (if i = o.id then evalOp interp args env o else env i) = some t
              rw [if_pos hoi.symm]
              exact ht
            · rw [h1, hty2e]
            · rw [h2, hty2e]
            · rw [h3, hty2e]
          · have hbeqf : (o.id == i) = false := by
              simpa using hoi
            have hfind1 : ([o].find? (fun o2 => o2.id == i)) = none := by
              simp [List.find?, hbeqf]
            rw [hfind1] at hty2
            simp at hty2
    have hnd2 : (((seen ++ [o]) ++ rest).map Op.id).Nodup := by
      rw [hre]
      exact hnd
    have hres := ih (seen ++ [o]) _ hnd2 hwfrest hbase2
    rw [← hre] at hty
    exact hres v ty hty

/-! Unpacking and rebuilding graph well-formedness; pattern inversions. -/

theorem wf_nodup {g : Graph} (h : g.wf = true) : (g.ops.map Op.id).Nodup := by
  unfold Graph.wf at h
  rw [Bool.and_eq_true, Bool.and_eq_true] at h
  exact of_decide_eq_true h.1.1

theorem wf_wfOps {g : Graph} (h : g.wf = true) : wfOps g.argTy [] g.ops = true := by
  unfold Graph.wf at h
  rw [Bool.and_eq_true, Bool.and_eq_true] at h
  exact h.1.2

theorem wf_outputs {g : Graph} (h : g.wf = true) :
    ∀ v ∈ g.outputs, ∃ ty, tyOfValue g.argTy g.ops v = some ty := by
  unfold Graph.wf at h
  rw [Bool.and_eq_true, Bool.and_eq_true] at h
  intro v hv
  have h2 := List.all_eq_true.mp h.2 _ hv
  cases hty : tyOfValue g.argTy g.ops v with
  | none => rw [hty] at h2; cases h2
  | some t => exact ⟨t, rfl⟩

theorem wf_intro {g : Graph} (h1 : (g.ops.map Op.id).Nodup)
    (h2 : wfOps g.argTy [] g.ops = true)
    (h3 : ∀ v ∈ g.outputs, ∃ ty, tyOfValue g.argTy g.ops v = some ty) :
    g.wf = true := by
  unfold Graph.wf
  rw [Bool.and_eq_true, Bool.and_eq_true]
  refine ⟨⟨decide_eq_true h1, h2⟩, ?_⟩
  apply List.all_eq_true.mpr
  intro v hv
  obtain ⟨ty, hty⟩ := h3 v hv
  rw [hty]
  rfl

theorem find?_map_subst {l : List Op} {old newV : Value} {i : Nat} :
    (l.map (Op.subst old newV)).find? (fun o => o.id == i)
      = (l.find? (fun o => o.id == i)).map (Op.subst old newV) := by
  induction l with
  | nil => rfl
  | cons o rest ih =>
    show List.find? _ (Op.subst old newV o :: rest.map (Op.subst old newV)) = _
    rw [List.find?_cons, List.find?_cons]
    by_cases hbeq : (o.id == i) = true
    · rw [show ((Op.subst old newV o).id == i) = true from hbeq, hbeq]
      rfl
    · rw [show ((Op.subst old newV o).id == i) = false from Bool.eq_false_iff.mpr hbeq,
        show (o.id == i) = false from Bool.eq_false_iff.mpr hbeq]
      exact ih

theorem wfOp_transpose_intro {argTy : Nat → Ty} {seen : List Op} {o : Op} {v : Value}
    {t : Ty} (hk : o.kind = OpKind.transpose) (hop : o.operands = [v])
    (hty : tyOfValue argTy seen v = some t) (hre : o.retTy = t.swap) :
    wfOp argTy seen o = true := by
  unfold wfOp
  rw [hk, hop]
  show (match tyOfValue argTy seen v with
    | some t => o.retTy == t.swap
    | none => false) = true
  rw [hty]
  show (o.retTy == t.swap) = true
  rw [hre]
  simp

theorem wfOp_reshape_intro {argTy : Nat → Ty} {seen : List Op} {o : Op} {v : Value}
    {t : Ty} (hk : o.kind = OpKind.reshape) (hop : o.operands = [v])
    (hty : tyOfValue argTy seen v = some t) (hre : o.retTy.count = t.count) :
    wfOp argTy seen o = true := by
  unfold wfOp
  rw [hk, hop]
  show (match tyOfValue argTy seen v with
    | some t => o.retTy.count == t.count
    | none => false) = true
  rw [hty]
  show (o.retTy.count == t.count) = true
  rw [hre]
  simp

theorem wfOp_other_intro {argTy : Nat → Ty} {seen : List Op} {o : Op} {tag : Nat}
    (hk : o.kind = OpKind.other tag)
    (h : ∀ v ∈ o.operands, ∃ ty, tyOfValue argTy seen v = some ty) :
    wfOp argTy seen o = true := by
  rw [wfOp_other_eq hk]
  apply List.all_eq_true.mpr
  intro v hv
  obtain ⟨ty, hty⟩ := h v hv
  rw [hty]
  rfl

theorem definingOpOfKind_inv {g : Graph} {v : Value} {k : OpKind} {o : Op}
    (h : g.definingOpOfKind v k = some o) :
    g.definingOp v = some o ∧ o.kind = k := by
  unfold Graph.definingOpOfKind at h
  cases hd : g.definingOp v with
  | none => rw [hd] at h; cases h
  | some o2 =>
    rw [hd] at h
    have h2 : (if o2.kind = k then some o2 else none) = some o := h
    by_cases hk2 : o2.kind = k
    · rw [if_pos hk2] at h2
      injection h2 with h3
      cases h3
      exact ⟨rfl, hk2⟩
    · rw [if_neg hk2] at h2
      cases h2

theorem simplifyRedundantTranspose_inv {g : Graph} {op : Op} {g' : Graph}
    (h : simplifyRedundantTranspose g op = some g') :
    ∃ inner w, op.operands = [Value.res inner.id] ∧ g.definingOp (Value.res inner.id) = some inner ∧
      inner.kind = OpKind.transpose ∧ inner.operands = [w] ∧
      g' = g.replaceOpWith op.id w := by
  unfold simplifyRedundantTranspose at h
  cases hop : op.operands with
  | nil => rw [hop] at h; cases h
  | cons v vs =>
    cases vs with
    | cons v2 vs2 => rw [hop] at h; cases h
    | nil =>
      rw [hop] at h
      have h1 : (match g.definingOpOfKind v OpKind.transpose with
        | none => none
        | some transposeInputOp =>
          match transposeInputOp.operands with
          | [innerOperand] => some (g.replaceOpWith op.id innerOperand)
          | _ => none) = some g' := h
      cases hdk : g.definingOpOfKind v OpKind.transpose with
      | none =>
        rw [hdk] at h1
        cases h1
      | some inner =>
        rw [hdk] at h1
        obtain ⟨hdef, hkind⟩ := definingOpOfKind_inv hdk
        have h2 : (match inner.operands with
          | [innerOperand] => some (g.replaceOpWith op.id innerOperand)
          | _ => none) = some g' := h1
        cases hio : inner.operands with
        | nil => rw [hio] at h2; cases h2
        | cons w ws =>
          cases ws with
          | cons w2 ws2 => rw [hio] at h2; cases h2
          | nil =>
            rw [hio] at h2
            have hg' : g' = g.replaceOpWith op.id w := by
              have h3 : some (g.replaceOpWith op.id w) = some g' := h2
              injection h3 with h4
              exact h4.symm
            have hvres : ∃ j, v = Value.res j := by
              cases v with
              | arg n => exact absurd hdef (by simp [Graph.definingOp])
              | res j => exact ⟨j, rfl⟩
            obtain ⟨j, hj⟩ := hvres
            have hjid : inner.id = j := definingOp_id hj hdef
            refine ⟨inner, w, ?_, ?_, hkind, hio, hg'⟩
            · rw [hj, hjid]
            · rw [hjid, ← hj]
              exact hdef

theorem reshapeReshapeOpt_inv {g : Graph} {op : Op} {g' : Graph}
    (h : reshapeReshapeOpt g op = some g') :
    ∃ inner w, op.operands = [Value.res inner.id] ∧ g.definingOp (Value.res inner.id) = some inner ∧
      inner.kind = OpKind.reshape ∧ inner.operands = [w] ∧
      g' = Graph.replaceOpWith
        ⟨insertBefore op.id ⟨g.freshId, OpKind.reshape, [w], op.retTy⟩ g.ops,
         g.argTy, g.outputs⟩ op.id (Value.res g.freshId) := by
  unfold reshapeReshapeOpt at h
  cases hop : op.operands with
  | nil => rw [hop] at h; cases h
  | cons v vs =>
    cases vs with
    | cons v2 vs2 => rw [hop] at h; cases h
    | nil =>
      rw [hop] at h
      have h1 : (match g.definingOpOfKind v OpKind.reshape with
        | none => none
        | some reshapeInputOp =>
          match reshapeInputOp.operands with
          | [innerOperand] => some (Graph.replaceOpWith
              ⟨insertBefore op.id ⟨g.freshId, OpKind.reshape, [innerOperand], op.retTy⟩ g.ops,
               g.argTy, g.outputs⟩ op.id (Value.res g.freshId))
          | _ => none) = some g' := h
      cases hdk : g.definingOpOfKind v OpKind.reshape with
      | none =>
        rw [hdk] at h1
        cases h1
      | some inner =>
        rw [hdk] at h1
        obtain ⟨hdef, hkind⟩ := definingOpOfKind_inv hdk
        have h2 : (match inner.operands with
          | [innerOperand] => some (Graph.replaceOpWith
              ⟨insertBefore op.id ⟨g.freshId, OpKind.reshape, [innerOperand], op.retTy⟩ g.ops,
               g.argTy, g.outputs⟩ op.id (Value.res g.freshId))
          | _ => none) = some g' := h1
        cases hio : inner.operands with
        | nil => rw [hio] at h2; cases h2
        | cons w ws =>
          cases ws with
          | cons w2 ws2 => rw [hio] at h2; cases h2
          | nil =>
            rw [hio] at h2
            have hg' : g' = Graph.replaceOpWith
                ⟨insertBefore op.id ⟨g.freshId, OpKind.reshape, [w], op.retTy⟩ g.ops,
                 g.argTy, g.outputs⟩ op.id (Value.res g.freshId) := by
              have h3 : some (Graph.replaceOpWith
                  ⟨insertBefore op.id ⟨g.freshId, OpKind.reshape, [w], op.retTy⟩ g.ops,
                   g.argTy, g.outputs⟩ op.id (Value.res g.freshId)) = some g' := h2
              injection h3 with h4
              exact h4.symm
            have hvres : ∃ j, v = Value.res j := by
              cases v with
              | arg n => exact absurd hdef (by simp [Graph.definingOp])
              | res j => exact ⟨j, rfl⟩
            obtain ⟨j, hj⟩ := hvres
            have hjid : inner.id = j := definingOp_id hj hdef
            refine ⟨inner, w, ?_, ?_, hkind, hio, hg'⟩
            · rw [hj, hjid]
            · rw [hjid, ← hj]
              exact hdef

theorem wfOps_operand_ids {argTy : Nat → Ty} :
    ∀ {l seen : List Op}, wfOps argTy seen l = true →
      ∀ o ∈ l, ∀ i, Value.res i ∈ o.operands → i ∈ (seen ++ l).map Op.id := by
  intro l
  induction l with
  | nil => intro seen _ o ho; cases ho
  | cons o rest ih =>
    intro seen hwf o' ho' i hi
    obtain ⟨hwfo, hwfrest⟩ := wfOps_cons_iff.mp hwf
    rcases List.mem_cons.mp ho' with rfl | ho2
    · have := wfOp_operand_ref hwfo _ hi i rfl
      rw [List.map_append, List.mem_append]
      exact Or.inl this
    · have h2 := ih hwfrest o' ho2 i hi
      have hre : (seen ++ [o]) ++ rest = seen ++ o :: rest := by
        rw [List.append_assoc]
        rfl
      rw [← hre]
      exact h2

theorem wfOps_subst_pres {argTy : Nat → Ty} (oid : Nat) (newV : Value) :
    ∀ (l : List Op) (s s' : List Op),
      wfOps argTy s l = true →
      ((s'.map Op.id) ++ l.map Op.id).Nodup →
      (∀ o ∈ l, o.id ≠ oid) →
      (∀ v ty, tyOfValue argTy s v = some ty →
        tyOfValue argTy s' (substV (Value.res oid) newV v) = some ty) →
      wfOps argTy s' (l.map (Op.subst (Value.res oid) newV)) = true ∧
      (∀ v ty, tyOfValue argTy (s ++ l) v = some ty →
        tyOfValue argTy (s' ++ l.map (Op.subst (Value.res oid) newV))
          (substV (Value.res oid) newV v) = some ty) := by
  intro l
  induction l with
  | nil =>
    intro s s' _ _ _ hty
    refine ⟨rfl, ?_⟩
    intro v ty h
    rw [List.map_nil, List.append_nil]
    rw [List.append_nil] at h
    exact hty v ty h
  | cons o rest ih =>
    intro s s' hwf hnd hold hty
    obtain ⟨hwfo, hwfrest⟩ := wfOps_cons_iff.mp hwf
    have hone : o.id ≠ oid := hold o (by simp)
    have hoid_s' : o.id ∉ s'.map Op.id := by
      rw [List.map_cons] at hnd
      have h2 := (List.nodup_cons.mp (List.nodup_middle.mp hnd)).1
      rw [List.mem_append] at h2
      push_neg at h2
      exact h2.1
    have hty2 : ∀ v ty, tyOfValue argTy (s ++ [o]) v = some ty →
        tyOfValue argTy (s' ++ [Op.subst (Value.res oid) newV o])
          (substV (Value.res oid) newV v) = some ty := by
      intro v ty h
      cases v with
      | arg n =>
        rw [substV_of_ne (by simp)]
        rw [tyOfValue_arg] at h ⊢
        exact h
      | res i =>
        rw [tyOfValue_res, List.find?_append] at h
        cases hf : s.find? (fun o2 => o2.id == i) with
        | some o' =>
          rw [hf] at h
          have hs : tyOfValue argTy s (Value.res i) = some ty := by
            rw [tyOfValue_res, hf]
            simpa using h
          exact tyOfValue_mono (hty _ _ hs)
        | none =>
          rw [hf] at h
          by_cases hoi : o.id = i
          · have hbeq : (o.id == i) = true := by simp [hoi]
            have hfind1 : ([o].find? (fun o2 => o2.id == i)) = some o := by
              simp [List.find?, hbeq]
            rw [hfind1] at h
            have htyval : ty = o.retTy := by
              have h2 : some o.retTy = some ty := by simpa using h
              injection h2 with h3
              exact h3.symm
            have hine : (Value.res i) ≠ Value.res oid := by
              simp only [ne_eq, Value.res.injEq]
              rw [← hoi]
              exact hone
            rw [substV_of_ne hine]
            rw [tyOfValue_res, List.find?_append]
            have hf2 : s'.find? (fun o2 => o2.id == i) = none := by
              apply List.find?_eq_none.mpr
              intro o2 ho2
              simp only [beq_iff_eq]
              intro he
              exact hoid_s' (hoi ▸ he ▸ List.mem_map_of_mem _ ho2)
            rw [hf2]
            have hfind2 : ([Op.subst (Value.res oid) newV o].find?
                (fun o2 => o2.id == i)) = some (Op.subst (Value.res oid) newV o) := by
              simp [List.find?, Op.subst_id, hbeq]
            show (((none : Option Op).or _).map _) = some ty
            rw [hfind2]
            simp [htyval]
          · have hbeqf : (o.id == i) = false := by simpa using hoi
            have hfind1 : ([o].find? (fun o2 => o2.id == i)) = none := by
              simp [List.find?, hbeqf]
            rw [hfind1] at h
            simp at h
    have hnd2 : (((s' ++ [Op.subst (Value.res oid) newV o]).map Op.id)
        ++ (rest.map Op.id)).Nodup := by
      rw [List.map_append, List.append_assoc]
      show ((s'.map Op.id) ++ ([(Op.subst (Value.res oid) newV o).id] ++ rest.map Op.id)).Nodup
      rw [Op.subst_id]
      rw [List.map_cons] at hnd
      exact hnd
    obtain ⟨hwf', htyfinal⟩ := ih (s ++ [o]) (s' ++ [Op.subst (Value.res oid) newV o])
      hwfrest hnd2 (fun o2 h2 => hold o2 (by simp [h2])) hty2
    constructor
    · apply wfOps_cons_iff.mpr
      refine ⟨?_, hwf'⟩
      cases hk : o.kind with
      | transpose =>
        obtain ⟨v, t, hop, htyv, himp⟩ := wfOp_unary_inv (Or.inl hk) hwfo
        exact wfOp_transpose_intro (v := substV (Value.res oid) newV v)
          (show (Op.subst (Value.res oid) newV o).kind = OpKind.transpose from hk)
          (by show o.operands.map _ = _; rw [hop]; rfl)
          (hty v t htyv) (himp.1 hk)
      | reshape =>
        obtain ⟨v, t, hop, htyv, himp⟩ := wfOp_unary_inv (Or.inr hk) hwfo
        exact wfOp_reshape_intro (v := substV (Value.res oid) newV v)
          (show (Op.subst (Value.res oid) newV o).kind = OpKind.reshape from hk)
          (by show o.operands.map _ = _; rw [hop]; rfl)
          (hty v t htyv) (himp.2 hk)
      | other tag =>
        apply wfOp_other_intro
          (show (Op.subst (Value.res oid) newV o).kind = OpKind.other tag from hk)
        intro v hv
        have hops : (Op.subst (Value.res oid) newV o).operands
            = o.operands.map (substV (Value.res oid) newV) := rfl
        rw [hops] at hv
        obtain ⟨v0, hv0, rfl⟩ := List.mem_map.mp hv
        obtain ⟨ty0, hty0⟩ := wfOp_operands_typed hwfo v0 hv0
        exact ⟨ty0, hty v0 ty0 hty0⟩
    · intro v ty h
      have hre1 : s ++ o :: rest = (s ++ [o]) ++ rest := by
        rw [List.append_assoc]
        rfl
      have hre2 : s' ++ (o :: rest).map (Op.subst (Value.res oid) newV)
          = (s' ++ [Op.subst (Value.res oid) newV o])
            ++ rest.map (Op.subst (Value.res oid) newV) := by
        rw [List.append_assoc]
        rfl
      rw [hre2]
      rw [hre1] at h
      exact htyfinal v ty h

theorem wfOps_filter_live {argTy : Nat → Ty} (g : Graph) :
    ∀ (l seen seenF : List Op),
      wfOps argTy seen l = true →
      ((seen ++ l).map Op.id).Nodup →
      (∀ i, i ∈ seenF.map Op.id → i ∈ seen.map Op.id) →
      (∀ o ∈ l, o ∈ g.ops) →
      (∀ v ty, tyOfValue argTy seen v = some ty →
        (∀ i, v = Value.res i → Value.res i ∈ g.usedValues) →
        tyOfValue argTy seenF v = some ty) →
      wfOps argTy seenF (l.filter (fun o => g.isLive o)) = true ∧
      (∀ v ty, tyOfValue argTy (seen ++ l) v = some ty →
        (∀ i, v = Value.res i → Value.res i ∈ g.usedValues) →
        tyOfValue argTy (seenF ++ l.filter (fun o => g.isLive o)) v = some ty) := by
  intro l
  induction l with
  | nil =>
    intro seen seenF _ _ _ _ hty
    refine ⟨rfl, ?_⟩
    intro v ty h hu
    rw [List.filter_nil, List.append_nil]
    rw [List.append_nil] at h
    exact hty v ty h hu
  | cons o rest ih =>
    intro seen seenF hwf hnd hsub hmem hty
    obtain ⟨hwfo, hwfrest⟩ := wfOps_cons_iff.mp hwf
    have hre : (seen ++ [o]) ++ rest = seen ++ o :: rest := by
      rw [List.append_assoc]
      rfl
    have hndre : (((seen ++ [o]) ++ rest).map Op.id).Nodup := by
      rw [hre]
      exact hnd
    have hoid_seen : o.id ∉ seen.map Op.id := nodup_middle_not_mem_left hnd
    have homem : o ∈ g.ops := hmem o (by simp)
    have htrans : ∀ v ty, tyOfValue argTy (seen ++ [o]) v = some ty →
        (∀ i, v = Value.res i → Value.res i ∈ g.usedValues) →
        (g.isLive o = true → tyOfValue argTy (seenF ++ [o]) v = some ty) ∧
        (g.isLive o = false → tyOfValue argTy seenF v = some ty) := by
      intro v ty h hu
      cases v with
      | arg n =>
        rw [tyOfValue_arg] at h
        constructor
        · intro _
          rw [tyOfValue_arg]
          exact h
        · intro _
          rw [tyOfValue_arg]
          exact h
      | res i =>
        rw [tyOfValue_res, List.find?_append] at h
        cases hf : seen.find? (fun o2 => o2.id == i) with
        | some o' =>
          rw [hf] at h
          have hs : tyOfValue argTy seen (Value.res i) = some ty := by
            rw [tyOfValue_res, hf]
            simpa using h
          have h2 := hty _ _ hs hu
          exact ⟨fun _ => tyOfValue_mono h2, fun _ => h2⟩
        | none =>
          rw [hf] at h
          by_cases hoi : o.id = i
          · have hbeq : (o.id == i) = true := by simp [hoi]
            have hfind1 : ([o].find? (fun o2 => o2.id == i)) = some o := by
              simp [List.find?, hbeq]
            rw [hfind1] at h
            have htyval : ty = o.retTy := by
              have h2 : some o.retTy = some ty := by simpa using h
              injection h2 with h3
              exact h3.symm
            constructor
            · intro _
              rw [tyOfValue_res, List.find?_append]
              have hf2 : seenF.find? (fun o2 => o2.id == i) = none := by
                apply List.find?_eq_none.mpr
                intro o2 ho2
                simp only [beq_iff_eq]
                intro he
                exact hoid_seen (hoi ▸ hsub _ (he ▸ List.mem_map_of_mem _ ho2))
              rw [hf2]
              show (((none : Option Op).or _).map _) = some ty
              rw [hfind1]
              simp [htyval]
            · intro hdead
              exfalso
              have := hu i rfl
              rw [← hoi] at this
              exact absurd (isLive_iff.mpr this) (by simp [hdead])
          · have hbeqf : (o.id == i) = false := by simpa using hoi
            have hfind1 : ([o].find? (fun o2 => o2.id == i)) = none := by
              simp [List.find?, hbeqf]
            rw [hfind1] at h
            simp at h
    by_cases hlive : g.isLive o = true
    · have hty2 : ∀ v ty, tyOfValue argTy (seen ++ [o]) v = some ty →
          (∀ i, v = Value.res i → Value.res i ∈ g.usedValues) →
          tyOfValue argTy (seenF ++ [o]) v = some ty := by
        intro v ty h hu
        exact (htrans v ty h hu).1 hlive
      obtain ⟨hwf', htyfin⟩ := ih (seen ++ [o]) (seenF ++ [o]) hwfrest hndre
        (by
          intro i hi
          rw [List.map_append, List.mem_append] at hi ⊢
          rcases hi with hi | hi
          · exact Or.inl (hsub i hi)
          · exact Or.inr hi)
        (fun o2 h2 => hmem o2 (by simp [h2])) hty2
      rw [List.filter_cons_of_pos hlive]
      constructor
      · apply wfOps_cons_iff.mpr
        refine ⟨?_, hwf'⟩
        have huse : ∀ v ∈ o.operands, ∀ i, v = Value.res i → Value.res i ∈ g.usedValues := by
          intro v hv i hvi
          exact hvi ▸ mem_usedValues_of_operand homem (hvi ▸ hv)
        cases hk : o.kind with
        | transpose =>
          obtain ⟨v, t, hop, htyv, himp⟩ := wfOp_unary_inv (Or.inl hk) hwfo
          exact wfOp_transpose_intro hk hop
            (hty v t htyv (huse v (by rw [hop]; simp))) (himp.1 hk)
        | reshape =>
          obtain ⟨v, t, hop, htyv, himp⟩ := wfOp_unary_inv (Or.inr hk) hwfo
          exact wfOp_reshape_intro hk hop
            (hty v t htyv (huse v (by rw [hop]; simp))) (himp.2 hk)
        | other tag =>
          apply wfOp_other_intro hk
          intro v hv
          obtain ⟨ty0, hty0⟩ := wfOp_operands_typed hwfo v hv
          exact ⟨ty0, hty v ty0 hty0 (huse v hv)⟩
      · intro v ty h hu
        have hre2 : seenF ++ o :: rest.filter (fun o2 => g.isLive o2)
            = (seenF ++ [o]) ++ rest.filter (fun o2 => g.isLive o2) := by
          rw [List.append_assoc]
          rfl
        rw [hre2]
        rw [← hre] at h
        exact htyfin v ty h hu
    · have hty2 : ∀ v ty, tyOfValue argTy (seen ++ [o]) v = some ty →
          (∀ i, v = Value.res i → Value.res i ∈ g.usedValues) →
          tyOfValue argTy seenF v = some ty := by
        intro v ty h hu
        exact (htrans v ty h hu).2 (by simpa using hlive)
      obtain ⟨hwf', htyfin⟩ := ih (seen ++ [o]) seenF hwfrest hndre
        (by
          intro i hi
          rw [List.map_append, List.mem_append]
          exact Or.inl (hsub i hi))
        (fun o2 h2 => hmem o2 (by simp [h2])) hty2
      rw [List.filter_cons_of_neg (by simpa using hlive)]
      refine ⟨hwf', ?_⟩
      intro v ty h hu
      rw [← hre] at h
      exact htyfin v ty h hu

theorem dceOnce_wf {g : Graph} (h : g.wf = true) : (dceOnce g).wf = true := by
  have hbase := @wfOps_filter_live g.argTy g g.ops [] []
    (wf_wfOps h) (by simpa using wf_nodup h) (by simp) (fun o ho => ho)
    (by
      intro v ty hh hu
      exact hh)
  apply wf_intro
  · exact (wf_nodup h).sublist ((List.filter_sublist _).map _)
  · exact hbase.1
  · intro v hv
    obtain ⟨ty, hty⟩ := wf_outputs h v hv
    have h2 := hbase.2 v ty (by simpa using hty)
      (fun i hvi => hvi ▸ mem_usedValues_of_output (hvi ▸ hv))
    exact ⟨ty, by simpa using h2⟩

theorem dce_wf : ∀ (n : Nat) (g : Graph), g.wf = true → (dceIter n g).wf = true := by
  intro n
  induction n with
  | zero => intro g h; exact h
  | succ m ih =>
    intro g h
    exact ih (dceOnce g) (dceOnce_wf h)

/-! Substitution and evaluation: redirecting every use of one result to a
value with the same meaning does not change the evaluation. -/

theorem evalOp_transpose_none {α : Type} [Inhabited α]
    {interp : Nat → Ty → List (Tensor α) → Tensor α} {args : Nat → Tensor α}
    {env : Nat → Option (Tensor α)} {o : Op}
    (hk : o.kind = OpKind.transpose)
    (hop : o.operands = [] ∨ ∃ v1 v2 vs, o.operands = v1 :: v2 :: vs) :
    evalOp interp args env o = none := by
  unfold evalOp
  rcases hop with hop | ⟨v1, v2, vs, hop⟩ <;> rw [hk, hop]

theorem evalOp_reshape_none {α : Type} [Inhabited α]
    {interp : Nat → Ty → List (Tensor α) → Tensor α} {args : Nat → Tensor α}
    {env : Nat → Option (Tensor α)} {o : Op}
    (hk : o.kind = OpKind.reshape)
    (hop : o.operands = [] ∨ ∃ v1 v2 vs, o.operands = v1 :: v2 :: vs) :
    evalOp interp args env o = none := by
  unfold evalOp
  rcases hop with hop | ⟨v1, v2, vs, hop⟩ <;> rw [hk, hop]

theorem evalOp_other_eq {α : Type} [Inhabited α]
    {interp : Nat → Ty → List (Tensor α) → Tensor α} {args : Nat → Tensor α}
    {env : Nat → Option (Tensor α)} {o : Op} {tag : Nat}
    (hk : o.kind = OpKind.other tag) :
    evalOp interp args env o
      = (match evalValues args env o.operands with
        | some ts => some (interp tag o.retTy ts)
        | none => none) := by
  unfold evalOp
  rw [hk]

theorem evalValues_subst {α : Type} {args : Nat → Tensor α}
    {env env' : Nat → Option (Tensor α)} {old newV : Value} :
    ∀ {vs : List Value},
      (∀ v ∈ vs, evalValue args env' (substV old newV v) = evalValue args env v) →
      evalValues args env' (vs.map (substV old newV)) = evalValues args env vs := by
  intro vs
  induction vs with
  | nil => intro _; rfl
  | cons v rest ih =>
    intro h
    show (match evalValue args env' (substV old newV v) with
      | some t => match evalValues args env' (rest.map (substV old newV)) with
        | some ts => some (t :: ts)
        | none => none
      | none => none) = _
    rw [h v (by simp), ih (fun v2 hv2 => h v2 (by simp [hv2]))]
    rfl

theorem evalOp_subst {α : Type} [Inhabited α]
    {interp : Nat → Ty → List (Tensor α) → Tensor α} {args : Nat → Tensor α}
    {env env' : Nat → Option (Tensor α)} {o : Op} {old newV : Value}
    (h : ∀ v ∈ o.operands, evalValue args env' (substV old newV v) = evalValue args env v) :
    evalOp interp args env' (Op.subst old newV o) = evalOp interp args env o := by
  have hks : (Op.subst old newV o).kind = o.kind := rfl
  cases hk : o.kind with
  | transpose =>
    cases hop : o.operands with
    | nil =>
      rw [evalOp_transpose_none (hk ▸ hks) (Or.inl (by show o.operands.map _ = []; rw [hop]; rfl)),
        evalOp_transpose_none hk (Or.inl hop)]
    | cons v vs =>
      cases vs with
      | nil =>
        have hops : (Op.subst old newV o).operands = [substV old newV v] := by
          show o.operands.map _ = _
          rw [hop]
          rfl
        rw [evalOp_transpose_eq (hk ▸ hks) hops, evalOp_transpose_eq hk hop,
          h v (by simp [hop])]
      | cons v2 vs2 =>
        rw [evalOp_transpose_none (hk ▸ hks)
            (Or.inr ⟨_, _, _, by show o.operands.map _ = _; rw [hop]; rfl⟩),
          evalOp_transpose_none hk (Or.inr ⟨v, v2, vs2, hop⟩)]
  | reshape =>
    cases hop : o.operands with
    | nil =>
      rw [evalOp_reshape_none (hk ▸ hks) (Or.inl (by show o.operands.map _ = []; rw [hop]; rfl)),
        evalOp_reshape_none hk (Or.inl hop)]
    | cons v vs =>
      cases vs with
      | nil =>
        have hops : (Op.subst old newV o).operands = [substV old newV v] := by
          show o.operands.map _ = _
          rw [hop]
          rfl
        rw [evalOp_reshape_eq (hk ▸ hks) hops, evalOp_reshape_eq hk hop, h v (by simp [hop])]
        rfl
      | cons v2 vs2 =>
        rw [evalOp_reshape_none (hk ▸ hks)
            (Or.inr ⟨_, _, _, by show o.operands.map _ = _; rw [hop]; rfl⟩),
          evalOp_reshape_none hk (Or.inr ⟨v, v2, vs2, hop⟩)]
  | other tag =>
    have hks2 : (Op.subst old newV o).kind = OpKind.other tag := by rw [hks, hk]
    rw [evalOp_other_eq hks2, evalOp_other_eq hk]
    have hops : (Op.subst old newV o).operands = o.operands.map (substV old newV) := rfl
    rw [hops, evalValues_subst h]
    rfl

theorem evalOps_subst {α : Type} [Inhabited α]
    {interp : Nat → Ty → List (Tensor α) → Tensor α} {args : Nat → Tensor α}
    (oid nid : Nat) (newV : Value) :
    ∀ (l2 : List Op) (env env' : Nat → Option (Tensor α)),
      (∀ o ∈ l2, o.id ≠ oid) →
      (∀ o ∈ l2, o.id ≠ nid) →
      (∀ o ∈ l2, newV ≠ Value.res o.id) →
      (∀ o ∈ l2, ∀ i, Value.res i ∈ o.operands → i ≠ oid → i ≠ nid) →
      (∀ i, i ≠ oid → i ≠ nid → env' i = env i) →
      evalValue args env' newV = evalValue args env (Value.res oid) →
      (∀ i, i ≠ oid → i ≠ nid →
        evalOps interp args (l2.map (Op.subst (Value.res oid) newV)) env' i
          = evalOps interp args l2 env i) ∧
      evalValue args (evalOps interp args (l2.map (Op.subst (Value.res oid) newV)) env') newV
        = evalValue args (evalOps interp args l2 env) (Value.res oid) := by
  intro l2
  induction l2 with
  | nil =>
    intro env env' _ _ _ _ henv hval
    exact ⟨fun i h1 h2 => henv i h1 h2, hval⟩
  | cons o rest ih =>
    intro env env' hoid hnid hnew href henv hval
    have hopeq : ∀ v ∈ o.operands,
        evalValue args env' (substV (Value.res oid) newV v) = evalValue args env v := by
      intro v hv
      by_cases hveq : v = Value.res oid
      · subst hveq
        rw [substV_old]
        exact hval
      · rw [substV_of_ne hveq]
        cases v with
        | arg n => rfl
        | res j =>
          have hj : j ≠ oid := fun he => hveq (by rw [he])
          have hj2 : j ≠ nid := href o (by simp) j hv hj
          exact henv j hj hj2
    have hopval : evalOp interp args env' (Op.subst (Value.res oid) newV o)
        = evalOp interp args env o := evalOp_subst hopeq
    have hoo : o.id ≠ oid := hoid o (by simp)
    have hon : o.id ≠ nid := hnid o (by simp)
    have hnewo : newV ≠ Value.res o.id := hnew o (by simp)
    have henv2 : ∀ i, i ≠ oid → i ≠ nid →
        (fun i => if i = o.id
          then evalOp interp args env' (Op.subst (Value.res oid) newV o)
          else env' i) i
        = (fun i => if i = o.id then evalOp interp args env o else env i) i := by
      intro i h1 h2
      by_cases hio : i = o.id
      · show (if i = o.id then _ else _) = (if i = o.id then _ else _)
        rw [if_pos hio, if_pos hio, hopval]
      · show (if i = o.id then _ else _) = (if i = o.id then _ else _)
        rw [if_neg hio, if_neg hio]
        exact henv i h1 h2
    have hval2 : evalValue args
        (fun i => if i = o.id
          then evalOp interp args env' (Op.subst (Value.res oid) newV o)
          else env' i) newV
        = evalValue args (fun i => if i = o.id then evalOp interp args env o else env i)
            (Value.res oid) := by
      have hrhs : evalValue args
          (fun i => if i = o.id then evalOp interp args env o else env i) (Value.res oid)
          = evalValue args env (Value.res oid) := by
        show (if oid = o.id then _ else env oid) = env oid
        rw [if_neg (fun he => hoo he.symm)]
      rw [hrhs]
      cases hnv : newV with
      | arg n =>
        rw [hnv] at hval
        exact hval
      | res m =>
        have hmo : m ≠ o.id := by
          intro he
          exact hnewo (by rw [hnv, he])
        show (if m = o.id then _ else env' m) = _
        rw [if_neg hmo]
        rw [hnv] at hval
        exact hval
    have hres := ih
      (fun i => if i = o.id then evalOp interp args env o else env i)
      (fun i => if i = o.id
        then evalOp interp args env' (Op.subst (Value.res oid) newV o)
        else env' i)
      (fun o2 h2 => hoid o2 (by simp [h2]))
      (fun o2 h2 => hnid o2 (by simp [h2]))
      (fun o2 h2 => hnew o2 (by simp [h2]))
      (fun o2 h2 i hi h1 => href o2 (by simp [h2]) i hi h1)
      henv2 hval2
    exact hres

/-- Value of the operation in the middle of an operation list. -/
theorem evalOps_member {α : Type} [Inhabited α]
    {interp : Nat → Ty → List (Tensor α) → Tensor α} {args : Nat → Tensor α}
    {p1 p2 : List Op} {inner : Op} {env : Nat → Option (Tensor α)}
    (hnd : ((p1 ++ inner :: p2).map Op.id).Nodup) :
    evalOps interp args (p1 ++ inner :: p2) env inner.id
      = evalOp interp args (evalOps interp args p1 env) inner := by
  rw [evalOps_append]
  show evalOps interp args p2
    (fun i => if i = inner.id
      then evalOp interp args (evalOps interp args p1 env) inner
      else evalOps interp args p1 env i) inner.id = _
  rw [evalOps_not_mem (nodup_middle_not_mem_right hnd)]
  rw [if_pos rfl]

@[simp] theorem ty_swap_swap (t : Ty) : t.swap.swap = t := rfl

/-- Ids of substituted operations. -/
theorem map_id_map_subst (l : List Op) (old newV : Value) :
    (l.map (Op.subst old newV)).map Op.id = l.map Op.id := by
  rw [List.map_map]
  rfl

/-- Core preservation theorem for one application of
SimplifyRedundantTranspose on a well-formed graph: the rewritten graph is
well-formed, keeps the argument types and, for every shape-respecting
interpretation and argument valuation, evaluates to the same outputs. -/
theorem transpose_step_preserves {g : Graph} {op : Op} {g' : Graph}
    (hwf : g.wf = true) (hmem : op ∈ g.ops) (hkop : op.kind = OpKind.transpose)
    (happ : simplifyRedundantTranspose g op = some g') :
    g'.wf = true ∧ g'.argTy = g.argTy ∧
    (∀ {α : Type} [Inhabited α]
      (interp : Nat → Ty → List (Tensor α) → Tensor α) (args : Nat → Tensor α),
      (∀ tag ty ts, (interp tag ty ts).rows = ty.rows ∧ (interp tag ty ts).cols = ty.cols ∧
        (interp tag ty ts).data.length = ty.count) →
      (∀ n, (args n).rows = (g.argTy n).rows ∧ (args n).cols = (g.argTy n).cols ∧
        (args n).data.length = (g.argTy n).count) →
      g'.eval interp args = g.eval interp args) := by
  obtain ⟨inner, w, hop, hdef, hkind, hio, hg'⟩ := simplifyRedundantTranspose_inv happ
  obtain ⟨l1, l2, hops⟩ := List.append_of_mem hmem
  have hnd : ((l1 ++ op :: l2).map Op.id).Nodup := by
    rw [← hops]
    exact wf_nodup hwf
  have hwfall : wfOps g.argTy [] (l1 ++ op :: l2) = true := by
    rw [← hops]
    exact wf_wfOps hwf
  obtain ⟨hwfl1, hwfrest⟩ := wfOps_append_iff.mp hwfall
  obtain ⟨hwfop, hwfl2⟩ := wfOps_cons_iff.mp hwfrest
  obtain ⟨v0, t, hop0, hty0, himp⟩ := wfOp_unary_inv (Or.inl hkop)
    (by show wfOp g.argTy ([] ++ l1) op = true; exact hwfop)
  have hv0 : v0 = Value.res inner.id := by
    have h2 : [v0] = [Value.res inner.id] := by rw [← hop0, hop]
    injection h2
  subst hv0
  have hretop : op.retTy = t.swap := himp.1 hkop
  have hty0' : tyOfValue g.argTy l1 (Value.res inner.id) = some t := by
    show tyOfValue g.argTy ([] ++ l1) _ = _
    exact hty0
  have hfl1 : l1.find? (fun o => o.id == inner.id) = some inner := by
    rw [tyOfValue_res] at hty0'
    cases hf : l1.find? (fun o => o.id == inner.id) with
    | none => rw [hf] at hty0'; simp at hty0'
    | some o' =>
      have hfg : g.findOp inner.id = some o' := by
        unfold Graph.findOp
        rw [hops, List.find?_append, hf]
        rfl
      have h3 : some o' = some inner := by
        rw [← hfg]
        exact hdef
      injection h3 with h4
      rw [h4]
  have htinner : t = inner.retTy := by
    rw [tyOfValue_res, hfl1] at hty0'
    have h2 : some inner.retTy = some t := by simpa using hty0'
    injection h2 with h3
    exact h3.symm
  have hinner_mem : inner ∈ l1 := List.mem_of_find?_eq_some hfl1
  obtain ⟨p1, p2, hl1⟩ := List.append_of_mem hinner_mem
  have hwfl1' : wfOps g.argTy [] (p1 ++ inner :: p2) = true := by
    rw [← hl1]
    exact hwfl1
  obtain ⟨hwfp1, hwfrestp⟩ := wfOps_append_iff.mp hwfl1'
  obtain ⟨hwfinner, hwfp2⟩ := wfOps_cons_iff.mp hwfrestp
  obtain ⟨w0, tw, hio0, htyw, himpw⟩ := wfOp_unary_inv (Or.inl hkind)
    (by show wfOp g.argTy ([] ++ p1) inner = true; exact hwfinner)
  have hw0 : w0 = w := by
    have h2 : [w0] = [w] := by rw [← hio0, hio]
    injection h2
  rw [hw0] at htyw
  have hretinner : inner.retTy = tw.swap := himpw.1 hkind
  have hretop2 : op.retTy = tw := by
    rw [hretop, htinner, hretinner, ty_swap_swap]
  have htyw' : tyOfValue g.argTy p1 w = some tw := htyw
  have hopid_l1 : op.id ∉ l1.map Op.id := nodup_middle_not_mem_left hnd
  have hopid_l2 : op.id ∉ l2.map Op.id := nodup_middle_not_mem_right hnd
  have hl1noref : ∀ o ∈ l1, Value.res op.id ∉ o.operands := by
    apply wfOps_no_ref hwfl1
    simpa using hopid_l1
  have hdecomp : g'.ops = l1 ++ l2.map (Op.subst (Value.res op.id) w) := by
    rw [hg']
    exact replaceOpWith_decomp hops (by rw [hops]; exact hnd) hl1noref
  have hwid : ∀ j, w = Value.res j → j ∈ l1.map Op.id := by
    intro j hj
    subst hj
    have := tyOfValue_res_mem htyw'
    rw [hl1, List.map_append, List.mem_append]
    exact Or.inl this
  -- base type transfer for the substitution on the suffix
  have htybase : ∀ v ty, tyOfValue g.argTy (l1 ++ [op]) v = some ty →
      tyOfValue g.argTy l1 (substV (Value.res op.id) w v) = some ty := by
    intro v ty h
    cases v with
    | arg n =>
      rw [substV_of_ne (by simp)]
      exact h
    | res i =>
      rw [tyOfValue_res, List.find?_append] at h
      cases hf : l1.find? (fun o2 => o2.id == i) with
      | some o' =>
        rw [hf] at h
        have hine : i ≠ op.id := by
          intro he
          apply hopid_l1
          rw [← he]
          have hbeq := List.find?_some hf
          have hmem2 := List.mem_of_find?_eq_some hf
          have h5 : o'.id = i := by simpa using hbeq
          exact h5 ▸ List.mem_map_of_mem _ hmem2
        rw [substV_of_ne (by simp [hine])]
        rw [tyOfValue_res, hf]
        simpa using h
      | none =>
        rw [hf] at h
        by_cases hoi : op.id = i
        · have hbeq : (op.id == i) = true := by simp [hoi]
          have hfind1 : ([op].find? (fun o2 => o2.id == i)) = some op := by
            simp [List.find?, hbeq]
          rw [hfind1] at h
          have htyval : ty = op.retTy := by
            have h2 : some op.retTy = some ty := by simpa using h
            injection h2 with h3
            exact h3.symm
          have hvi : Value.res i = Value.res op.id := by rw [hoi]
          rw [hvi, substV_old]
          rw [htyval, hretop2]
          rw [hl1]
          exact tyOfValue_mono htyw'
        · have hbeqf : (op.id == i) = false := by simpa using hoi
          have hfind1 : ([op].find? (fun o2 => o2.id == i)) = none := by
            simp [List.find?, hbeqf]
          rw [hfind1] at h
          simp at h
  have hndsub : ((l1.map Op.id) ++ l2.map Op.id).Nodup := by
    rw [List.map_append, List.map_cons] at hnd
    exact (List.nodup_cons.mp (List.nodup_middle.mp hnd)).2
  have hl2ne : ∀ o ∈ l2, o.id ≠ op.id := by
    intro o ho he
    exact hopid_l2 (he ▸ List.mem_map_of_mem _ ho)
  obtain ⟨hwfsub, htyfin⟩ := wfOps_subst_pres op.id w l2 (l1 ++ [op]) l1
    hwfl2 hndsub hl2ne htybase
  refine ⟨?_, by rw [hg']; rfl, ?_⟩
  · apply wf_intro
    · rw [hdecomp, List.map_append, map_id_map_subst]
      exact hndsub
    · have hargty : g'.argTy = g.argTy := by rw [hg']; rfl
      rw [hdecomp, hargty]
      apply wfOps_append_iff.mpr
      exact ⟨hwfl1, by show wfOps g.argTy ([] ++ l1) _ = true; exact hwfsub⟩
    · intro v hv
      have houts : g'.outputs = g.outputs.map (substV (Value.res op.id) w) := by
        rw [hg']
        rfl
      rw [houts] at hv
      obtain ⟨v0, hv0, rfl⟩ := List.mem_map.mp hv
      obtain ⟨ty, hty⟩ := wf_outputs hwf v0 hv0
      have hty2 : tyOfValue g.argTy ((l1 ++ [op]) ++ l2) v0 = some ty := by
        have hre : (l1 ++ [op]) ++ l2 = l1 ++ op :: l2 := by
          rw [List.append_assoc]
          rfl
        rw [hre, ← hops]
        exact hty
      have := htyfin v0 ty hty2
      have hargty : g'.argTy = g.argTy := by rw [hg']; rfl
      rw [hdecomp, hargty]
      exact ⟨ty, this⟩
  · intro α inst interp args hinterp hargs
    have houts : g'.outputs = g.outputs.map (substV (Value.res op.id) w) := by
      rw [hg']
      rfl
    -- environments
    have hevalg : evalOps interp args g.ops (fun _ => none)
        = evalOps interp args l2
            (fun i => if i = op.id
              then evalOp interp args (evalOps interp args l1 (fun _ => none)) op
              else evalOps interp args l1 (fun _ => none) i) := by
      rw [hops, evalOps_append]
      rfl
    have hevalg' : evalOps interp args g'.ops (fun _ => none)
        = evalOps interp args (l2.map (Op.subst (Value.res op.id) w))
            (evalOps interp args l1 (fun _ => none)) := by
      rw [hdecomp, evalOps_append]
    -- the key value correspondence
    have hbase0 : ∀ v ty, tyOfValue g.argTy ([] : List Op) v = some ty →
        ∃ u, evalValue args (fun _ => none) v = some u ∧ u.rows = ty.rows ∧
          u.cols = ty.cols ∧ u.data.length = ty.count := by
      intro v ty hty
      cases v with
      | arg n =>
        rw [tyOfValue_arg, Option.some.injEq] at hty
        subst hty
        obtain ⟨h1, h2, h3⟩ := hargs n
        exact ⟨args n, rfl, h1, h2, h3⟩
      | res i =>
        rw [tyOfValue_res] at hty
        simp [List.find?] at hty
    have hndp1 : (([] ++ p1).map Op.id).Nodup := by
      have : l1.Nodup → True := fun _ => trivial
      have hnl1 : (l1.map Op.id).Nodup := by
        rw [List.map_append] at hnd
        exact hnd.of_append_left
      rw [hl1, List.map_append] at hnl1
      simpa using hnl1.of_append_left
    obtain ⟨u, hu, hur, huc, hul⟩ := evalOps_types hinterp hargs p1 [] (fun _ => none)
      hndp1 hwfp1 hbase0 w tw (by show tyOfValue g.argTy ([] ++ p1) w = some tw; exact htyw')
    have hvalid : u.valid := by
      unfold Tensor.valid
      rw [hul, hur, huc]
      rfl
    have hnl1 : (l1.map Op.id).Nodup := by
      rw [List.map_append] at hnd
      exact hnd.of_append_left
    have hstab : evalValue args (evalOps interp args l1 (fun _ => none)) w
        = evalValue args (evalOps interp args p1 (fun _ => none)) w := by
      cases hwc : w with
      | arg n => rfl
      | res j =>
        show evalOps interp args l1 (fun _ => none) j
          = evalOps interp args p1 (fun _ => none) j
        rw [hl1, evalOps_append]
        apply evalOps_not_mem
        have hjmem : j ∈ p1.map Op.id := by
          have := tyOfValue_res_mem (hwc ▸ htyw')
          exact this
        intro hmem2
        rw [hl1, List.map_append] at hnl1
        rw [List.map_cons] at hmem2 hnl1
        exact (List.disjoint_of_nodup_append hnl1) hjmem hmem2
    have hw_eval : evalValue args (evalOps interp args l1 (fun _ => none)) w = some u := by
      rw [hstab]
      exact hu
    have hinner_eval : evalOps interp args l1 (fun _ => none) inner.id
        = some (transposeT u) := by
      rw [hl1]
      rw [evalOps_member (by rw [← hl1]; exact hnl1)]
      rw [evalOp_transpose_eq hkind hio, hu]
      rfl
    have hval : evalValue args (evalOps interp args l1 (fun _ => none)) w
        = evalValue args
            (fun i => if i = op.id
              then evalOp interp args (evalOps interp args l1 (fun _ => none)) op
              else evalOps interp args l1 (fun _ => none) i) (Value.res op.id) := by
      show _ = (if op.id = op.id then _ else _)
      rw [if_pos rfl]
      rw [evalOp_transpose_eq hkop hop]
      show _ = ((evalOps interp args l1 (fun _ => none)) inner.id).map transposeT
      rw [hinner_eval]
      show _ = some (transposeT (transposeT u))
      rw [transposeT_involutive hvalid]
      exact hw_eval
    have hsubstres := @evalOps_subst α _ interp args op.id op.id w l2
      (fun i => if i = op.id
        then evalOp interp args (evalOps interp args l1 (fun _ => none)) op
        else evalOps interp args l1 (fun _ => none) i)
      (evalOps interp args l1 (fun _ => none))
      hl2ne hl2ne
      (by
        intro o ho he
        obtain ⟨j, hj⟩ : ∃ j, w = Value.res j := ⟨o.id, he⟩
        have hjmem := hwid j hj
        rw [hj] at he
        have h5 : j = o.id := by
          injection he
        rw [h5] at hjmem
        exact (List.disjoint_of_nodup_append hndsub) hjmem (List.mem_map_of_mem _ ho))
      (fun o ho i hi h1 => h1)
      (by
        intro i h1 h2
        show evalOps interp args l1 (fun _ => none) i
          = (if i = op.id
            then evalOp interp args (evalOps interp args l1 (fun _ => none)) op
            else evalOps interp args l1 (fun _ => none) i)
        rw [if_neg h1])
      hval
    obtain ⟨hagree, hvfin⟩ := hsubstres
    show g'.outputs.map (evalValue args (evalOps interp args g'.ops (fun _ => none)))
      = g.outputs.map (evalValue args (evalOps interp args g.ops (fun _ => none)))
    rw [houts, hevalg', hevalg, List.map_map]
    apply List.map_congr_left
    intro v0 hv0
    show evalValue args _ (substV (Value.res op.id) w v0) = _
    by_cases hveq : v0 = Value.res op.id
    · subst hveq
      rw [substV_old]
      exact hvfin
    · rw [substV_of_ne hveq]
      cases v0 with
      | arg n => rfl
      | res j =>
        have hj : j ≠ op.id := by
          intro he
          exact hveq (by rw [he])
        exact hagree j hj hj

/-- Core preservation theorem for one application of ReshapeReshapeOptPattern
on a well-formed graph: the rewritten graph is well-formed, keeps the
argument types and, for every shape-respecting interpretation and argument
valuation, evaluates to the same outputs. -/
theorem reshape_step_preserves {g : Graph} {op : Op} {g' : Graph}
    (hwf : g.wf = true) (hmem : op ∈ g.ops) (hkop : op.kind = OpKind.reshape)
    (happ : reshapeReshapeOpt g op = some g') :
    g'.wf = true ∧ g'.argTy = g.argTy ∧
    (∀ {α : Type} [Inhabited α]
      (interp : Nat → Ty → List (Tensor α) → Tensor α) (args : Nat → Tensor α),
      (∀ tag ty ts, (interp tag ty ts).rows = ty.rows ∧ (interp tag ty ts).cols = ty.cols ∧
        (interp tag ty ts).data.length = ty.count) →
      (∀ n, (args n).rows = (g.argTy n).rows ∧ (args n).cols = (g.argTy n).cols ∧
        (args n).data.length = (g.argTy n).count) →
      g'.eval interp args = g.eval interp args) := by
  obtain ⟨inner, w, hop, hdef, hkind, hio, hg'⟩ := reshapeReshapeOpt_inv happ
  obtain ⟨l1, l2, hops⟩ := List.append_of_mem hmem
  have hnd : ((l1 ++ op :: l2).map Op.id).Nodup := by
    rw [← hops]
    exact wf_nodup hwf
  have hfresh : g.freshId ∉ g.ops.map Op.id := freshId_not_mem_ids g
  have hfresh2 : g.freshId ∉ (l1 ++ op :: l2).map Op.id := by
    rw [← hops]
    exact hfresh
  have hwfall : wfOps g.argTy [] (l1 ++ op :: l2) = true := by
    rw [← hops]
    exact wf_wfOps hwf
  obtain ⟨hwfl1, hwfrest⟩ := wfOps_append_iff.mp hwfall
  obtain ⟨hwfop, hwfl2⟩ := wfOps_cons_iff.mp hwfrest
  obtain ⟨v0, t, hop0, hty0, himp⟩ := wfOp_unary_inv (Or.inr hkop)
    (by show wfOp g.argTy ([] ++ l1) op = true; exact hwfop)
  have hv0 : v0 = Value.res inner.id := by
    have h2 : [v0] = [Value.res inner.id] := by rw [← hop0, hop]
    injection h2
  subst hv0
  have hretcnt : op.retTy.count = t.count := himp.2 hkop
  have hty0' : tyOfValue g.argTy l1 (Value.res inner.id) = some t := by
    show tyOfValue g.argTy ([] ++ l1) _ = _
    exact hty0
  have hfl1 : l1.find? (fun o => o.id == inner.id) = some inner := by
    rw [tyOfValue_res] at hty0'
    cases hf : l1.find? (fun o => o.id == inner.id) with
    | none => rw [hf] at hty0'; simp at hty0'
    | some o' =>
      have hfg : g.findOp inner.id = some o' := by
        unfold Graph.findOp
        rw [hops, List.find?_append, hf]
        rfl
      have h3 : some o' = some inner := by
        rw [← hfg]
        exact hdef
      injection h3 with h4
      rw [h4]
  have htinner : t = inner.retTy := by
    rw [tyOfValue_res, hfl1] at hty0'
    have h2 : some inner.retTy = some t := by simpa using hty0'
    injection h2 with h3
    exact h3.symm
  have hinner_mem : inner ∈ l1 := List.mem_of_find?_eq_some hfl1
  obtain ⟨p1, p2, hl1⟩ := List.append_of_mem hinner_mem
  have hwfl1' : wfOps g.argTy [] (p1 ++ inner :: p2) = true := by
    rw [← hl1]
    exact hwfl1
  obtain ⟨hwfp1, hwfrestp⟩ := wfOps_append_iff.mp hwfl1'
  obtain ⟨hwfinner, hwfp2⟩ := wfOps_cons_iff.mp hwfrestp
  obtain ⟨w0, tw, hio0, htyw, himpw⟩ := wfOp_unary_inv (Or.inr hkind)
    (by show wfOp g.argTy ([] ++ p1) inner = true; exact hwfinner)
  have hw0 : w0 = w := by
    have h2 : [w0] = [w] := by rw [← hio0, hio]
    injection h2
  rw [hw0] at htyw
  have hcntinner : inner.retTy.count = tw.count := himpw.2 hkind
  have htyw' : tyOfValue g.argTy p1 w = some tw := htyw
  have htyl1 : tyOfValue g.argTy l1 w = some tw := by
    rw [hl1]
    exact tyOfValue_mono htyw'
  have hcnt : op.retTy.count = tw.count := by
    rw [hretcnt, htinner]
    exact hcntinner
  have hopid_l1 : op.id ∉ l1.map Op.id := nodup_middle_not_mem_left hnd
  have hopid_l2 : op.id ∉ l2.map Op.id := nodup_middle_not_mem_right hnd
  have hwid : ∀ j, w = Value.res j → j ∈ l1.map Op.id := by
    intro j hj
    subst hj
    have := tyOfValue_res_mem htyw'
    rw [hl1, List.map_append, List.mem_append]
    exact Or.inl this
  have hwne : w ≠ Value.res op.id := by
    intro he
    exact hopid_l1 (hwid op.id he)
  have hl1noref : ∀ o ∈ l1, Value.res op.id ∉ o.operands := by
    apply wfOps_no_ref hwfl1
    simpa using hopid_l1
  obtain ⟨nop, hnop⟩ : ∃ x : Op, x = ⟨g.freshId, OpKind.reshape, [w], op.retTy⟩ :=
    ⟨⟨g.freshId, OpKind.reshape, [w], op.retTy⟩, rfl⟩
  have hnid : nop.id = g.freshId := by rw [hnop]
  have hnk : nop.kind = OpKind.reshape := by rw [hnop]
  have hno : nop.operands = [w] := by rw [hnop]
  have hnr : nop.retTy = op.retTy := by rw [hnop]
  have hg2 : g' = Graph.replaceOpWith
      ⟨insertBefore op.id nop g.ops, g.argTy, g.outputs⟩ op.id (Value.res nop.id) := by
    rw [hnop]
    exact hg'
  have hmido : (⟨insertBefore op.id nop g.ops, g.argTy, g.outputs⟩ : Graph).ops
      = (l1 ++ [nop]) ++ op :: l2 := by
    show insertBefore op.id nop g.ops = _
    rw [hops, insertBefore_decomp (fun o ho he => hopid_l1 (he ▸ List.mem_map_of_mem _ ho))]
    rw [List.append_assoc]
    rfl
  have hndsub : ((l1.map Op.id) ++ l2.map Op.id).Nodup := by
    rw [List.map_append, List.map_cons] at hnd
    exact (List.nodup_cons.mp (List.nodup_middle.mp hnd)).2
  have hfreshsub : g.freshId ∉ l1.map Op.id ++ l2.map Op.id := by
    intro hmem2
    apply hfresh2
    rw [List.map_append, List.map_cons]
    rcases List.mem_append.mp hmem2 with h1 | h1
    · exact List.mem_append.mpr (Or.inl h1)
    · exact List.mem_append.mpr (Or.inr (List.mem_cons_of_mem _ h1))
  have hidmid : ((l1 ++ [nop]) ++ op :: l2).map Op.id
      = l1.map Op.id ++ nop.id :: (op :: l2).map Op.id := by
    rw [List.map_append, List.map_append, List.append_assoc]
    rfl
  have hnd2 : (((l1 ++ [nop]) ++ op :: l2).map Op.id).Nodup := by
    rw [hidmid, hnid]
    apply List.nodup_middle.mpr
    apply List.nodup_cons.mpr
    constructor
    · rw [← List.map_append]
      exact hfresh2
    · rw [← List.map_append]
      exact hnd
  have hl1ref2 : ∀ o ∈ l1 ++ [nop], Value.res op.id ∉ o.operands := by
    intro o ho
    rcases List.mem_append.mp ho with h1 | h1
    · exact hl1noref o h1
    · rw [List.mem_singleton] at h1
      subst h1
      rw [hno]
      intro hmem2
      rw [List.mem_singleton] at hmem2
      exact hwne hmem2.symm
  have hdecomp : g'.ops = (l1 ++ [nop])
      ++ l2.map (Op.subst (Value.res op.id) (Value.res nop.id)) := by
    rw [hg2]
    exact replaceOpWith_decomp hmido (by rw [hmido]; exact hnd2) hl1ref2
  have hargty : g'.argTy = g.argTy := by rw [hg2]; rfl
  have houts : g'.outputs = g.outputs.map (substV (Value.res op.id) (Value.res nop.id)) := by
    rw [hg2]
    rfl
  have hl2ne : ∀ o ∈ l2, o.id ≠ op.id := by
    intro o ho he
    exact hopid_l2 (he ▸ List.mem_map_of_mem _ ho)
  have hl2nid : ∀ o ∈ l2, o.id ≠ nop.id := by
    intro o ho he
    rw [hnid] at he
    apply hfreshsub
    rw [List.mem_append]
    exact Or.inr (he ▸ List.mem_map_of_mem _ ho)
  have hndsub2 : (((l1 ++ [nop]).map Op.id) ++ l2.map Op.id).Nodup := by
    have he2 : ((l1 ++ [nop]).map Op.id) ++ l2.map Op.id
        = l1.map Op.id ++ nop.id :: l2.map Op.id := by
      rw [List.map_append, List.append_assoc]
      rfl
    rw [he2, hnid]
    exact List.nodup_middle.mpr (List.nodup_cons.mpr ⟨hfreshsub, hndsub⟩)
  have htybase : ∀ v ty, tyOfValue g.argTy (l1 ++ [op]) v = some ty →
      tyOfValue g.argTy (l1 ++ [nop])
        (substV (Value.res op.id) (Value.res nop.id) v) = some ty := by
    intro v ty h
    cases v with
    | arg n =>
      rw [substV_of_ne (by simp)]
      exact h
    | res i =>
      rw [tyOfValue_res, List.find?_append] at h
      cases hf : l1.find? (fun o2 => o2.id == i) with
      | some o' =>
        rw [hf] at h
        have hine : i ≠ op.id := by
          intro he
          apply hopid_l1
          rw [← he]
          have hbeq := List.find?_some hf
          have hmem2 := List.mem_of_find?_eq_some hf
          have h5 : o'.id = i := by simpa using hbeq
          exact h5 ▸ List.mem_map_of_mem _ hmem2
        rw [substV_of_ne (by simp [hine])]
        rw [tyOfValue_res, List.find?_append, hf]
        simpa using h
      | none =>
        rw [hf] at h
        by_cases hoi : op.id = i
        · have hbeq : (op.id == i) = true := by simp [hoi]
          have hfind1 : ([op].find? (fun o2 => o2.id == i)) = some op := by
            simp [List.find?, hbeq]
          rw [hfind1] at h
          have htyval : ty = op.retTy := by
            have h2 : some op.retTy = some ty := by simpa using h
            injection h2 with h3
            exact h3.symm
          have hvi : Value.res i = Value.res op.id := by rw [hoi]
          rw [hvi, substV_old]
          rw [tyOfValue_res, List.find?_append]
          have hf2 : l1.find? (fun o2 => o2.id == nop.id) = none := by
            apply List.find?_eq_none.mpr
            intro o2 ho2 hbeq2
            apply hfreshsub
            have h5 : o2.id = nop.id := by simpa using hbeq2
            rw [List.mem_append]
            exact Or.inl (by rw [← hnid, ← h5]; exact List.mem_map_of_mem _ ho2)
          have hf3 : ([nop].find? (fun o2 => o2.id == nop.id)) = some nop := by
            simp [List.find?]
          rw [hf2, hf3]
          simp [hnr, htyval]
        · have hbeqf : (op.id == i) = false := by simpa using hoi
          have hfind1 : ([op].find? (fun o2 => o2.id == i)) = none := by
            simp [List.find?, hbeqf]
          rw [hfind1] at h
          simp at h
  obtain ⟨hwfsub, htyfin⟩ := wfOps_subst_pres op.id (Value.res nop.id) l2
    (l1 ++ [op]) (l1 ++ [nop]) hwfl2 hndsub2 hl2ne htybase
  refine ⟨?_, hargty, ?_⟩
  · apply wf_intro
    · rw [hdecomp, List.map_append, map_id_map_subst]
      exact hndsub2
    · rw [hdecomp, hargty]
      apply wfOps_append_iff.mpr
      constructor
      · apply wfOps_append_iff.mpr
        refine ⟨hwfl1, ?_⟩
        apply wfOps_cons_iff.mpr
        refine ⟨?_, rfl⟩
        exact wfOp_reshape_intro hnk hno
          (show tyOfValue g.argTy ([] ++ l1) w = some tw from htyl1)
          (by rw [hnr]; exact hcnt)
      · show wfOps g.argTy ([] ++ (l1 ++ [nop])) _ = true
        exact hwfsub
    · intro v hv
      rw [houts] at hv
      obtain ⟨u0, hu0, rfl⟩ := List.mem_map.mp hv
      obtain ⟨ty, hty⟩ := wf_outputs hwf u0 hu0
      have hty2 : tyOfValue g.argTy ((l1 ++ [op]) ++ l2) u0 = some ty := by
        have hre : (l1 ++ [op]) ++ l2 = l1 ++ op :: l2 := by
          rw [List.append_assoc]
          rfl
        rw [hre, ← hops]
        exact hty
      have h6 := htyfin u0 ty hty2
      rw [hdecomp, hargty]
      exact ⟨ty, h6⟩
  · intro α inst interp args hinterp hargs
    have hevalg : evalOps interp args g.ops (fun _ => none)
        = evalOps interp args l2
            (fun i => if i = op.id
              then evalOp interp args (evalOps interp args l1 (fun _ => none)) op
              else evalOps interp args l1 (fun _ => none) i) := by
      rw [hops, evalOps_append]
      rfl
    have hevalg' : evalOps interp args g'.ops (fun _ => none)
        = evalOps interp args (l2.map (Op.subst (Value.res op.id) (Value.res nop.id)))
            (fun i => if i = nop.id
              then evalOp interp args (evalOps interp args l1 (fun _ => none)) nop
              else evalOps interp args l1 (fun _ => none) i) := by
      rw [hdecomp, evalOps_append, evalOps_append]
      rfl
    have hnl1 : (l1.map Op.id).Nodup := by
      rw [List.map_append] at hnd
      exact hnd.of_append_left
    have hstab : evalValue args (evalOps interp args l1 (fun _ => none)) w
        = evalValue args (evalOps interp args p1 (fun _ => none)) w := by
      cases hwc : w with
      | arg n => rfl
      | res j =>
        show evalOps interp args l1 (fun _ => none) j
          = evalOps interp args p1 (fun _ => none) j
        rw [hl1, evalOps_append]
        apply evalOps_not_mem
        have hjmem : j ∈ p1.map Op.id := tyOfValue_res_mem (hwc ▸ htyw')
        intro hmem2
        have hnl1b : (p1.map Op.id ++ (inner :: p2).map Op.id).Nodup := by
          rw [← List.map_append, ← hl1]
          exact hnl1
        rw [List.map_cons] at hmem2 hnl1b
        exact (List.disjoint_of_nodup_append hnl1b) hjmem hmem2
    have hinner_eval : evalOps interp args l1 (fun _ => none) inner.id
        = (evalValue args (evalOps interp args p1 (fun _ => none)) w).map
            (reshapeT inner.retTy) := by
      rw [hl1]
      rw [evalOps_member (by rw [← hl1]; exact hnl1)]
      rw [evalOp_reshape_eq hkind hio]
    have hval : evalValue args
          (fun i => if i = nop.id
            then evalOp interp args (evalOps interp args l1 (fun _ => none)) nop
            else evalOps interp args l1 (fun _ => none) i) (Value.res nop.id)
        = evalValue args
            (fun i => if i = op.id
              then evalOp interp args (evalOps interp args l1 (fun _ => none)) op
              else evalOps interp args l1 (fun _ => none) i) (Value.res op.id) := by
      show (if nop.id = nop.id then _ else _) = _
      rw [if_pos rfl]
      show _ = (if op.id = op.id then _ else _)
      rw [if_pos rfl]
      rw [evalOp_reshape_eq hnk hno, evalOp_reshape_eq hkop hop]
      rw [hnr]
      show _ = (evalOps interp args l1 (fun _ => none) inner.id).map (reshapeT op.retTy)
      rw [hinner_eval, hstab]
      cases evalValue args (evalOps interp args p1 (fun _ => none)) w with
      | none => rfl
      | some u =>
        show some (reshapeT op.retTy u)
          = some (reshapeT op.retTy (reshapeT inner.retTy u))
        rw [reshapeT_reshapeT]
    have hoprefs : ∀ o ∈ l2, ∀ i, Value.res i ∈ o.operands → i ≠ op.id → i ≠ nop.id := by
      intro o ho i hi h1 he
      rw [hnid] at he
      apply hfresh2
      have h2 : i ∈ ((l1 ++ [op]) ++ l2).map Op.id := wfOps_operand_ids hwfl2 o ho i hi
      have hre : (l1 ++ [op]) ++ l2 = l1 ++ op :: l2 := by
        rw [List.append_assoc]
        rfl
      rw [hre] at h2
      rw [← he]
      exact h2
    have hnewne : ∀ o ∈ l2, Value.res nop.id ≠ Value.res o.id := by
      intro o ho he
      have h5 : nop.id = o.id := by injection he
      exact (hl2nid o ho) h5.symm
    have hsubstres := @evalOps_subst α _ interp args op.id nop.id (Value.res nop.id) l2
      (fun i => if i = op.id
        then evalOp interp args (evalOps interp args l1 (fun _ => none)) op
        else evalOps interp args l1 (fun _ => none) i)
      (fun i => if i = nop.id
        then evalOp interp args (evalOps interp args l1 (fun _ => none)) nop
        else evalOps interp args l1 (fun _ => none) i)
      hl2ne hl2nid hnewne hoprefs
      (by
        intro i h1 h2
        show (if i = nop.id
            then evalOp interp args (evalOps interp args l1 (fun _ => none)) nop
            else evalOps interp args l1 (fun _ => none) i)
          = (if i = op.id
            then evalOp interp args (evalOps interp args l1 (fun _ => none)) op
            else evalOps interp args l1 (fun _ => none) i)
        rw [if_neg h2, if_neg h1])
      hval
    obtain ⟨hagree, hvfin⟩ := hsubstres
    show g'.outputs.map (evalValue args (evalOps interp args g'.ops (fun _ => none)))
      = g.outputs.map (evalValue args (evalOps interp args g.ops (fun _ => none)))
    rw [houts, hevalg', hevalg, List.map_map]
    apply List.map_congr_left
    intro u0 hu0
    show evalValue args _ (substV (Value.res op.id) (Value.res nop.id) u0) = _
    by_cases hveq : u0 = Value.res op.id
    · subst hveq
      rw [substV_old]
      exact hvfin
    · rw [substV_of_ne hveq]
      cases u0 with
      | arg n => rfl
      | res j =>
        have hj1 : j ≠ op.id := by
          intro he
          exact hveq (by rw [he])
        have hj2 : j ≠ nop.id := by
          intro he
          rw [hnid] at he
          apply hfresh
          obtain ⟨ty, hty⟩ := wf_outputs hwf _ hu0
          have h7 := tyOfValue_res_mem hty
          rw [← he]
          exact h7
        exact hagree j hj1 hj2

/-- Cleanup keeps the argument types. -/
theorem dceIter_argTy : ∀ (n : Nat) (g : Graph), (dceIter n g).argTy = g.argTy := by
  intro n
  induction n with
  | zero => intro g; rfl
  | succ m ih =>
    intro g
    show (dceIter m (dceOnce g)).argTy = _
    rw [ih (dceOnce g)]
    rfl

/-- A successful driver scan comes from a successful pattern on some
operation of the list. -/
theorem stepAux_some {g h : Graph} :
    ∀ {l : List Op}, stepAux g l = some h → ∃ o ∈ l, tryPattern g o = some h := by
  intro l
  induction l with
  | nil => intro hs; cases hs
  | cons o rest ih =>
    intro hs
    unfold stepAux at hs
    cases ht : tryPattern g o with
    | some h2 =>
      rw [ht] at hs
      have h3 : h2 = h := by injection hs
      exact ⟨o, by simp, h3 ▸ ht⟩
    | none =>
      rw [ht] at hs
      obtain ⟨o2, ho2, ht2⟩ := ih hs
      exact ⟨o2, by simp [ho2], ht2⟩

/-- A successful pattern dispatch is one of the two rewrite patterns, on an
operation of the matching kind. -/
theorem tryPattern_some_inv {g : Graph} {o : Op} {h : Graph}
    (ht : tryPattern g o = some h) :
    (o.kind = OpKind.transpose ∧ simplifyRedundantTranspose g o = some h) ∨
    (o.kind = OpKind.reshape ∧ reshapeReshapeOpt g o = some h) := by
  unfold tryPattern at ht
  cases hk : o.kind with
  | transpose => rw [hk] at ht; exact Or.inl ⟨rfl, ht⟩
  | reshape => rw [hk] at ht; exact Or.inr ⟨rfl, ht⟩
  | other tag => rw [hk] at ht; cases ht

/-- One driver step (first matching pattern) preserves well-formedness, the
argument types and the evaluation of a well-formed graph. -/
theorem step_preserves {g g' : Graph} (hwf : g.wf = true) (hs : g.step = some g') :
    g'.wf = true ∧ g'.argTy = g.argTy ∧
    (∀ {α : Type} [Inhabited α]
      (interp : Nat → Ty → List (Tensor α) → Tensor α) (args : Nat → Tensor α),
      (∀ tag ty ts, (interp tag ty ts).rows = ty.rows ∧ (interp tag ty ts).cols = ty.cols ∧
        (interp tag ty ts).data.length = ty.count) →
      (∀ n, (args n).rows = (g.argTy n).rows ∧ (args n).cols = (g.argTy n).cols ∧
        (args n).data.length = (g.argTy n).count) →
      g'.eval interp args = g.eval interp args) := by
  obtain ⟨o, ho, ht⟩ := stepAux_some hs
  rcases tryPattern_some_inv ht with ⟨hk, happ⟩ | ⟨hk, happ⟩
  · exact transpose_step_preserves hwf ho hk happ
  · exact reshape_step_preserves hwf ho hk happ

/-- One full driver iteration (pattern application followed by dead-operation
cleanup) preserves well-formedness, the argument types and the evaluation. -/
theorem passStep_preserves {g g' : Graph} (hwf : g.wf = true)
    (hp : g.passStep = some g') :
    g'.wf = true ∧ g'.argTy = g.argTy ∧
    (∀ {α : Type} [Inhabited α]
      (interp : Nat → Ty → List (Tensor α) → Tensor α) (args : Nat → Tensor α),
      (∀ tag ty ts, (interp tag ty ts).rows = ty.rows ∧ (interp tag ty ts).cols = ty.cols ∧
        (interp tag ty ts).data.length = ty.count) →
      (∀ n, (args n).rows = (g.argTy n).rows ∧ (args n).cols = (g.argTy n).cols ∧
        (args n).data.length = (g.argTy n).count) →
      g'.eval interp args = g.eval interp args) := by
  unfold Graph.passStep at hp
  cases hs : g.step with
  | none => rw [hs] at hp; cases hp
  | some h0 =>
    rw [hs] at hp
    have hg' : g' = Graph.dce h0 := by
      have h2 : some (Graph.dce h0) = some g' := hp
      injection h2 with h3
      exact h3.symm
    obtain ⟨hwf0, hty0, heval0⟩ := step_preserves hwf hs
    subst hg'
    refine ⟨dce_wf _ h0 hwf0, ?_, ?_⟩
    · show (dceIter h0.ops.length h0).argTy = g.argTy
      rw [dceIter_argTy, hty0]
    · intro α inst interp args hinterp hargs
      show (dceIter h0.ops.length h0).eval interp args = _
      rw [dce_eval interp args h0.ops.length h0]
      exact heval0 interp args hinterp hargs

/-- The fueled driver loop preserves well-formedness, the argument types and
the evaluation, for any amount of fuel. -/
theorem runPass_preserves :
    ∀ (n : Nat) (g : Graph), g.wf = true →
    (runPass n g).wf = true ∧ (runPass n g).argTy = g.argTy ∧
    (∀ {α : Type} [Inhabited α]
      (interp : Nat → Ty → List (Tensor α) → Tensor α) (args : Nat → Tensor α),
      (∀ tag ty ts, (interp tag ty ts).rows = ty.rows ∧ (interp tag ty ts).cols = ty.cols ∧
        (interp tag ty ts).data.length = ty.count) →
      (∀ n2, (args n2).rows = (g.argTy n2).rows ∧ (args n2).cols = (g.argTy n2).cols ∧
        (args n2).data.length = (g.argTy n2).count) →
      (runPass n g).eval interp args = g.eval interp args) := by
  intro n
  induction n with
  | zero => intro g hwf; exact ⟨hwf, rfl, fun _ _ _ _ => rfl⟩
  | succ m ih =>
    intro g hwf
    cases hp : g.passStep with
    | none =>
      rw [runPass_of_fixpoint hp]
      exact ⟨hwf, rfl, fun _ _ _ _ => rfl⟩
    | some h0 =>
      have hre : runPass (m + 1) g = runPass m h0 := by
        show (match g.passStep with
          | none => g
          | some h2 => runPass m h2) = runPass m h0
        rw [hp]
      obtain ⟨hwf0, hty0, heval0⟩ := passStep_preserves hwf hp
      obtain ⟨hwfr, htyr, hevalr⟩ := ih h0 hwf0
      rw [hre]
      refine ⟨hwfr, by rw [htyr, hty0], ?_⟩
      intro α inst interp args hinterp hargs
      rw [hevalr interp args hinterp (by rw [hty0]; exact hargs)]
      exact heval0 interp args hinterp hargs

/-- A pattern matches exactly when the match conditions hold. -/
theorem tryPattern_isSome_eq (g : Graph) (o : Op) :
    (tryPattern g o).isSome = patternStatus g o := by
  unfold tryPattern patternStatus
  cases hk : o.kind with
  | transpose =>
    unfold simplifyRedundantTranspose
    cases hop : o.operands with
    | nil => rfl
    | cons v vs =>
      cases vs with
      | cons v2 vs2 => rfl
      | nil =>
        show (match g.definingOpOfKind v OpKind.transpose with
          | none => none
          | some transposeInputOp =>
            match transposeInputOp.operands with
            | [innerOperand] => some (g.replaceOpWith o.id innerOperand)
            | _ => none).isSome
          = (match g.definingOpOfKind v OpKind.transpose with
            | some d =>
              match d.operands with
              | [_] => true
              | _ => false
            | none => false)
        cases hd : g.definingOpOfKind v OpKind.transpose with
        | none => rfl
        | some d =>
          show (match d.operands with
            | [innerOperand] => some (g.replaceOpWith o.id innerOperand)
            | _ => none).isSome
            = (match d.operands with
              | [_] => true
              | _ => false)
          cases hdo : d.operands with
          | nil => rfl
          | cons w ws =>
            cases ws with
            | nil => rfl
            | cons w2 ws2 => rfl
  | reshape =>
    unfold reshapeReshapeOpt
    cases hop : o.operands with
    | nil => rfl
    | cons v vs =>
      cases vs with
      | cons v2 vs2 => rfl
      | nil =>
        show (match g.definingOpOfKind v OpKind.reshape with
          | none => none
          | some reshapeInputOp =>
            match reshapeInputOp.operands with
            | [innerOperand] =>
              some (Graph.replaceOpWith
                ⟨insertBefore o.id ⟨g.freshId, OpKind.reshape, [innerOperand], o.retTy⟩ g.ops,
                 g.argTy, g.outputs⟩ o.id (Value.res g.freshId))
            | _ => none).isSome
          = (match g.definingOpOfKind v OpKind.reshape with
            | some d =>
              match d.operands with
              | [_] => true
              | _ => false
            | none => false)
        cases hd : g.definingOpOfKind v OpKind.reshape with
        | none => rfl
        | some d =>
          show (match d.operands with
            | [innerOperand] =>
              some (Graph.replaceOpWith
                ⟨insertBefore o.id ⟨g.freshId, OpKind.reshape, [innerOperand], o.retTy⟩ g.ops,
                 g.argTy, g.outputs⟩ o.id (Value.res g.freshId))
            | _ => none).isSome
            = (match d.operands with
              | [_] => true
              | _ => false)
          cases hdo : d.operands with
          | nil => rfl
          | cons w ws =>
            cases ws with
            | nil => rfl
            | cons w2 ws2 => rfl
  | other tag => rfl

/-- Reduction of the match-condition predicate on a non-pattern kind. -/
theorem patternStatus_other {g : Graph} {o : Op} {tag : Nat}
    (hk : o.kind = OpKind.other tag) : patternStatus g o = false := by
  unfold patternStatus
  rw [hk]

/-- Reduction of the match-condition predicate when the operand list is not a
single operand. -/
theorem patternStatus_no_operand {g : Graph} {o : Op}
    (hop : o.operands = [] ∨ ∃ a b t2, o.operands = a :: b :: t2) :
    patternStatus g o = false := by
  unfold patternStatus
  cases hk : o.kind with
  | other tag => rfl
  | transpose => rcases hop with hop | ⟨a, b, t2, hop⟩ <;> rw [hop]
  | reshape => rcases hop with hop | ⟨a, b, t2, hop⟩ <;> rw [hop]

/-- Reduction of the match-condition predicate on a single operand. -/
theorem patternStatus_eq_inner {g : Graph} {o : Op} {v : Value} {k : OpKind}
    (hk : o.kind = k) (hkk : k = OpKind.transpose ∨ k = OpKind.reshape)
    (hop : o.operands = [v]) :
    patternStatus g o = innerStatus g v k := by
  unfold patternStatus
  rcases hkk with rfl | rfl <;> rw [hk, hop]

/-- The inner match condition only depends on the defining operation. -/
theorem innerStatus_eq_defOp {g1 g2 : Graph} {v1 v2 : Value} {k : OpKind}
    (h : g1.definingOp v1 = g2.definingOp v2) :
    innerStatus g1 v1 k = innerStatus g2 v2 k := by
  unfold innerStatus Graph.definingOpOfKind
  rw [h]

/-- The inner match condition only depends on the kind and operand count of
the defining operation. -/
theorem innerStatus_eq_of_some {g1 g2 : Graph} {v1 v2 : Value} {k : OpKind}
    {d1 d2 : Op} (h1 : g1.definingOp v1 = some d1) (h2 : g2.definingOp v2 = some d2)
    (hk : d1.kind = d2.kind)
    (hsing : (match d1.operands with | [_] => true | _ => false)
      = (match d2.operands with | [_] => true | _ => false)) :
    innerStatus g1 v1 k = innerStatus g2 v2 k := by
  unfold innerStatus Graph.definingOpOfKind
  rw [h1, h2]
  show (match (if d1.kind = k then some d1 else none) with
    | some d =>
      match d.operands with
      | [_] => true
      | _ => false
    | none => false)
    = (match (if d2.kind = k then some d2 else none) with
    | some d =>
      match d.operands with
      | [_] => true
      | _ => false
    | none => false)
  rw [hk]
  by_cases hdk : d2.kind = k
  · rw [if_pos hdk, if_pos hdk]
    exact hsing
  · rw [if_neg hdk, if_neg hdk]

/-- The inner match condition fails on a block argument. -/
theorem innerStatus_arg {g : Graph} {n : Nat} {k : OpKind} :
    innerStatus g (Value.arg n) k = false := rfl

/-- A find? through an append that hits in the first part. -/
theorem find?_append_some {α : Type} {p : α → Bool} {l1 l2 : List α} {x : α}
    (h : l1.find? p = some x) : (l1 ++ l2).find? p = some x := by
  rw [List.find?_append, h]
  rfl

/-- A find? through an append that misses the first part. -/
theorem find?_append_none {α : Type} {p : α → Bool} {l1 l2 : List α}
    (h : l1.find? p = none) : (l1 ++ l2).find? p = l2.find? p := by
  rw [List.find?_append, h]
  rfl

/-- Looking up a present id succeeds. -/
theorem find?_id_mem {l : List Op} {j : Nat} (h : j ∈ l.map Op.id) :
    ∃ d, l.find? (fun o => o.id == j) = some d := by
  cases hf : l.find? (fun o => o.id == j) with
  | some d => exact ⟨d, rfl⟩
  | none =>
    exfalso
    obtain ⟨o, ho, he⟩ := List.mem_map.mp h
    have h2 := List.find?_eq_none.mp hf o ho
    simp [he] at h2

/-- Looking up an absent id fails. -/
theorem find?_id_none {l : List Op} {j : Nat} (h : j ∉ l.map Op.id) :
    l.find? (fun o => o.id == j) = none := by
  apply List.find?_eq_none.mpr
  intro o ho hbeq
  apply h
  have h5 : o.id = j := by simpa using hbeq
  exact h5 ▸ List.mem_map_of_mem _ ho

/-- A filter by an everywhere-false predicate is empty. -/
theorem filter_eq_nil_of_false {α : Type} {p : α → Bool} :
    ∀ {l : List α}, (∀ a ∈ l, p a = false) → l.filter p = [] := by
  intro l
  induction l with
  | nil => intro _; rfl
  | cons a rest ih =>
    intro h
    rw [List.filter_cons_of_neg (by simp [h a (by simp)])]
    exact ih (fun a2 ha2 => h a2 (by simp [ha2]))

/-- First-match inversion of the driver scan: the list splits at the first
operation some pattern matches, and nothing before it matches. -/
theorem stepAux_first {g h : Graph} :
    ∀ {l : List Op}, stepAux g l = some h →
      ∃ l1 o l2, l = l1 ++ o :: l2 ∧ (∀ o2 ∈ l1, tryPattern g o2 = none) ∧
        tryPattern g o = some h := by
  intro l
  induction l with
  | nil => intro hs; cases hs
  | cons o rest ih =>
    intro hs
    unfold stepAux at hs
    cases ht : tryPattern g o with
    | some h2 =>
      rw [ht] at hs
      have h3 : h2 = h := by injection hs
      refine ⟨[], o, rest, rfl, ?_, h3 ▸ ht⟩
      intro o2 ho2
      cases ho2
    | none =>
      rw [ht] at hs
      obtain ⟨l1, o1, l2, he, hn, ht1⟩ := ih hs
      refine ⟨o :: l1, o1, l2, by rw [he]; rfl, ?_, ht1⟩
      intro o2 ho2
      rcases List.mem_cons.mp ho2 with rfl | h4
      · exact ht
      · exact hn o2 h4

/-- A filter that keeps the full length keeps the full list. -/
theorem filter_eq_self_of_length {α : Type} {p : α → Bool} :
    ∀ {l : List α}, (l.filter p).length = l.length → l.filter p = l := by
  intro l
  induction l with
  | nil => intro _; rfl
  | cons a rest ih =>
    intro h
    cases hp : p a with
    | true =>
      rw [List.filter_cons_of_pos hp] at h ⊢
      rw [List.length_cons, List.length_cons] at h
      rw [ih (Nat.succ_injective h)]
    | false =>
      rw [List.filter_cons_of_neg (by simp [hp])] at h
      exfalso
      have hle := List.length_filter_le p rest
      rw [List.length_cons] at h
      omega

theorem dceOnce_length_le (g : Graph) : (dceOnce g).ops.length ≤ g.ops.length :=
  List.length_filter_le _ _

theorem dceIter_length_le : ∀ (n : Nat) (g : Graph),
    (dceIter n g).ops.length ≤ g.ops.length := by
  intro n
  induction n with
  | zero => intro g; exact Nat.le_refl _
  | succ m ih =>
    intro g
    exact Nat.le_trans (ih (dceOnce g)) (dceOnce_length_le g)

/-- A cleanup sweep that removed nothing changed nothing. -/
theorem dceOnce_eq_of_length {g : Graph}
    (h : (dceOnce g).ops.length = g.ops.length) : dceOnce g = g := by
  have h2 : g.ops.filter (fun o => g.isLive o) = g.ops := filter_eq_self_of_length h
  unfold dceOnce
  rw [h2]

theorem dceIter_eq_of_length : ∀ (n : Nat) {g : Graph},
    (dceIter n g).ops.length = g.ops.length → dceIter n g = g := by
  intro n
  induction n with
  | zero => intro g _; rfl
  | succ m ih =>
    intro g h
    have h1 : (dceIter m (dceOnce g)).ops.length = g.ops.length := h
    have h2 : (dceOnce g).ops.length = g.ops.length := by
      have ha := dceIter_length_le m (dceOnce g)
      have hb := dceOnce_length_le g
      omega
    have h3 : dceOnce g = g := dceOnce_eq_of_length h2
    show dceIter m (dceOnce g) = g
    rw [h3]
    apply ih
    rw [h3] at h1
    exact h1

/-- The matcher count never exceeds the operation count. -/
theorem matcherCount_le (g : Graph) : matcherCount g ≤ g.ops.length :=
  List.length_filter_le _ _

/-- Structural shape of one reshape rewrite on a well-formed graph: the
rewritten operation list keeps the prefix, inserts the fresh reshape in the
matched operation's place and substitutes the suffix. -/
theorem reshape_step_shape {g h0 : Graph} {op : Op} {l1 l2 : List Op}
    (hwf : g.wf = true) (hops : g.ops = l1 ++ op :: l2)
    (happ : reshapeReshapeOpt g op = some h0) :
    ∃ inner w p1 p2,
      op.operands = [Value.res inner.id] ∧
      inner.kind = OpKind.reshape ∧ inner.operands = [w] ∧
      l1 = p1 ++ inner :: p2 ∧
      (∀ j, w = Value.res j → j ∈ p1.map Op.id) ∧
      h0.ops = l1 ++ (⟨g.freshId, OpKind.reshape, [w], op.retTy⟩ : Op)
        :: l2.map (Op.subst (Value.res op.id) (Value.res g.freshId)) ∧
      h0.argTy = g.argTy := by
  obtain ⟨inner, w, hop, hdef, hkind, hio, hg'⟩ := reshapeReshapeOpt_inv happ
  have hnd : ((l1 ++ op :: l2).map Op.id).Nodup := by
    rw [← hops]
    exact wf_nodup hwf
  have hfresh2 : g.freshId ∉ (l1 ++ op :: l2).map Op.id := by
    rw [← hops]
    exact freshId_not_mem_ids g
  have hwfall : wfOps g.argTy [] (l1 ++ op :: l2) = true := by
    rw [← hops]
    exact wf_wfOps hwf
  obtain ⟨hwfl1, hwfrest⟩ := wfOps_append_iff.mp hwfall
  obtain ⟨hwfop, hwfl2⟩ := wfOps_cons_iff.mp hwfrest
  have hopid_l1 : op.id ∉ l1.map Op.id := nodup_middle_not_mem_left hnd
  have hfl1 : l1.find? (fun o => o.id == inner.id) = some inner := by
    cases hf : l1.find? (fun o => o.id == inner.id) with
    | none =>
      exfalso
      have hfg : g.findOp inner.id = some inner := hdef
      unfold Graph.findOp at hfg
      rw [hops, List.find?_append, hf] at hfg
      have hfg2 : (op :: l2).find? (fun o => o.id == inner.id) = some inner := by
        simpa using hfg
      have hmem2 := List.mem_of_find?_eq_some hfg2
      have hbeq := List.find?_some hfg2
      have hid2 : inner.id ∈ (op :: l2).map Op.id := by
        have h5 : inner.id = inner.id := rfl
        exact List.mem_map_of_mem _ hmem2
      -- but op's operand refers to inner.id, which must be defined before op
      obtain ⟨t, hty0a⟩ := wfOp_operands_typed
        (show wfOp g.argTy ([] ++ l1) op = true from hwfop)
        (Value.res inner.id) (by rw [hop]; simp)
      have hty0b : tyOfValue g.argTy l1 (Value.res inner.id) = some t := hty0a
      rw [tyOfValue_res, hf] at hty0b
      cases hty0b
    | some o' =>
      have hfg : g.findOp inner.id = some o' := by
        unfold Graph.findOp
        rw [hops, List.find?_append, hf]
        rfl
      have h3 : some o' = some inner := by
        rw [← hfg]
        exact hdef
      injection h3 with h4
      rw [h4]
  have hinner_mem : inner ∈ l1 := List.mem_of_find?_eq_some hfl1
  obtain ⟨p1, p2, hl1⟩ := List.append_of_mem hinner_mem
  have hwfl1' : wfOps g.argTy [] (p1 ++ inner :: p2) = true := by
    rw [← hl1]
    exact hwfl1
  obtain ⟨hwfp1, hwfrestp⟩ := wfOps_append_iff.mp hwfl1'
  obtain ⟨hwfinner, hwfp2⟩ := wfOps_cons_iff.mp hwfrestp
  obtain ⟨w0, tw, hio0, htyw, himpw⟩ := wfOp_unary_inv (Or.inr hkind)
    (by show wfOp g.argTy ([] ++ p1) inner = true; exact hwfinner)
  have hw0 : w0 = w := by
    have h2 : [w0] = [w] := by rw [← hio0, hio]
    injection h2
  rw [hw0] at htyw
  have hwid : ∀ j, w = Value.res j → j ∈ p1.map Op.id := by
    intro j hj
    subst hj
    exact tyOfValue_res_mem htyw
  have hwne : w ≠ Value.res op.id := by
    intro he
    apply hopid_l1
    rw [hl1, List.map_append, List.mem_append]
    exact Or.inl (hwid op.id he)
  have hl1noref : ∀ o ∈ l1, Value.res op.id ∉ o.operands := by
    apply wfOps_no_ref hwfl1
    simpa using hopid_l1
  obtain ⟨nop, hnop⟩ : ∃ x : Op, x = ⟨g.freshId, OpKind.reshape, [w], op.retTy⟩ :=
    ⟨⟨g.freshId, OpKind.reshape, [w], op.retTy⟩, rfl⟩
  have hnid : nop.id = g.freshId := by rw [hnop]
  have hno : nop.operands = [w] := by rw [hnop]
  have hg2 : h0 = Graph.replaceOpWith
      ⟨insertBefore op.id nop g.ops, g.argTy, g.outputs⟩ op.id (Value.res nop.id) := by
    rw [hnop]
    exact hg'
  have hmido : (⟨insertBefore op.id nop g.ops, g.argTy, g.outputs⟩ : Graph).ops
      = (l1 ++ [nop]) ++ op :: l2 := by
    show insertBefore op.id nop g.ops = _
    rw [hops, insertBefore_decomp (fun o ho he => hopid_l1 (he ▸ List.mem_map_of_mem _ ho))]
    rw [List.append_assoc]
    rfl
  have hidmid : ((l1 ++ [nop]) ++ op :: l2).map Op.id
      = l1.map Op.id ++ nop.id :: (op :: l2).map Op.id := by
    rw [List.map_append, List.map_append, List.append_assoc]
    rfl
  have hnd2 : (((l1 ++ [nop]) ++ op :: l2).map Op.id).Nodup := by
    rw [hidmid, hnid]
    apply List.nodup_middle.mpr
    apply List.nodup_cons.mpr
    constructor
    · rw [← List.map_append]
      exact hfresh2
    · rw [← List.map_append]
      exact hnd
  have hl1ref2 : ∀ o ∈ l1 ++ [nop], Value.res op.id ∉ o.operands := by
    intro o ho
    rcases List.mem_append.mp ho with h1 | h1
    · exact hl1noref o h1
    · rw [List.mem_singleton] at h1
      subst h1
      rw [hno]
      intro hmem2
      rw [List.mem_singleton] at hmem2
      exact hwne hmem2.symm
  have hdecomp : h0.ops = (l1 ++ [nop])
      ++ l2.map (Op.subst (Value.res op.id) (Value.res nop.id)) := by
    rw [hg2]
    exact replaceOpWith_decomp hmido (by rw [hmido]; exact hnd2) hl1ref2
  refine ⟨inner, w, p1, p2, hop, hkind, hio, hl1, hwid, ?_, by rw [hg2]; rfl⟩
  rw [hdecomp, hnop]
  rw [List.append_assoc]
  rfl
/-- One first-match reshape rewrite on a well-formed graph keeps the operation
count, makes the freshly created reshape non-matching, and strictly decreases
the number of operations some pattern matches. -/
theorem reshape_step_matchers {g h0 : Graph} {op : Op} {l1 l2 : List Op}
    (hwf : g.wf = true) (hops : g.ops = l1 ++ op :: l2)
    (hnomatch : ∀ o2 ∈ l1, tryPattern g o2 = none)
    (hkop : op.kind = OpKind.reshape)
    (happ : reshapeReshapeOpt g op = some h0) :
    matcherCount g = matcherCount h0 + 1 ∧
    (∀ o2 ∈ h0.ops, o2.id = g.freshId → tryPattern h0 o2 = none) ∧
    h0.ops.length = g.ops.length := by
  obtain ⟨inner, w, p1, p2, hop, hkind, hio, hl1, hwid, hdecomp0, hargty⟩ :=
    reshape_step_shape hwf hops happ
  obtain ⟨nop, hnop⟩ : ∃ x : Op, x = ⟨g.freshId, OpKind.reshape, [w], op.retTy⟩ :=
    ⟨⟨g.freshId, OpKind.reshape, [w], op.retTy⟩, rfl⟩
  have hnid : nop.id = g.freshId := by rw [hnop]
  have hnk : nop.kind = OpKind.reshape := by rw [hnop]
  have hno : nop.operands = [w] := by rw [hnop]
  have hdecomp : h0.ops = l1 ++ nop
      :: l2.map (Op.subst (Value.res op.id) (Value.res g.freshId)) := by
    rw [hnop]
    exact hdecomp0
  have hnd : ((l1 ++ op :: l2).map Op.id).Nodup := by
    rw [← hops]
    exact wf_nodup hwf
  have hfresh2 : g.freshId ∉ (l1 ++ op :: l2).map Op.id := by
    rw [← hops]
    exact freshId_not_mem_ids g
  have hwfall : wfOps g.argTy [] (l1 ++ op :: l2) = true := by
    rw [← hops]
    exact wf_wfOps hwf
  obtain ⟨hwfl1, hwfrest⟩ := wfOps_append_iff.mp hwfall
  obtain ⟨hwfop, hwfl2⟩ := wfOps_cons_iff.mp hwfrest
  have hopid_l1 : op.id ∉ l1.map Op.id := nodup_middle_not_mem_left hnd
  have hopid_l2 : op.id ∉ l2.map Op.id := nodup_middle_not_mem_right hnd
  have hndsub : ((l1.map Op.id) ++ l2.map Op.id).Nodup := by
    rw [List.map_append, List.map_cons] at hnd
    exact (List.nodup_cons.mp (List.nodup_middle.mp hnd)).2
  have hfreshl1 : g.freshId ∉ l1.map Op.id := by
    intro hmem
    apply hfresh2
    rw [List.map_append]
    exact List.mem_append.mpr (Or.inl hmem)
  have hfreshl2 : g.freshId ∉ l2.map Op.id := by
    intro hmem
    apply hfresh2
    rw [List.map_append, List.map_cons]
    exact List.mem_append.mpr (Or.inr (List.mem_cons_of_mem _ hmem))
  have hfreshop : g.freshId ≠ op.id := by
    intro he
    apply hfresh2
    rw [List.map_append, List.map_cons]
    exact List.mem_append.mpr (Or.inr (he ▸ List.mem_cons_self _ _))
  have hl2nl1 : ∀ j, j ∈ l2.map Op.id → j ∉ l1.map Op.id := by
    intro j hj hmem
    exact (List.disjoint_of_nodup_append hndsub) hmem hj
  -- lookup stability
  have hfindl1 : ∀ j, j ∈ l1.map Op.id →
      ∃ d, g.definingOp (Value.res j) = some d ∧
        h0.definingOp (Value.res j) = some d := by
    intro j hj
    obtain ⟨d, hd⟩ := find?_id_mem hj
    refine ⟨d, ?_, ?_⟩
    · show g.findOp j = some d
      unfold Graph.findOp
      rw [hops]
      exact find?_append_some hd
    · show h0.findOp j = some d
      unfold Graph.findOp
      rw [hdecomp]
      exact find?_append_some hd
  have hfind_fresh : h0.definingOp (Value.res g.freshId) = some nop := by
    show h0.findOp g.freshId = some nop
    unfold Graph.findOp
    rw [hdecomp, find?_append_none (find?_id_none hfreshl1)]
    have hbeq : (nop.id == g.freshId) = true := by rw [hnid]; simp
    simp [List.find?, hbeq]
  have hfind_op : g.definingOp (Value.res op.id) = some op := by
    show g.findOp op.id = some op
    unfold Graph.findOp
    rw [hops, find?_append_none (find?_id_none hopid_l1)]
    simp [List.find?]
  have hfindl2 : ∀ j, j ∈ l2.map Op.id →
      ∃ d, g.definingOp (Value.res j) = some d ∧
        h0.definingOp (Value.res j)
          = some (Op.subst (Value.res op.id) (Value.res g.freshId) d) := by
    intro j hj
    have hjl1 : j ∉ l1.map Op.id := hl2nl1 j hj
    have hjop : op.id ≠ j := by
      intro he
      exact hopid_l2 (he ▸ hj)
    obtain ⟨d, hd⟩ := find?_id_mem hj
    refine ⟨d, ?_, ?_⟩
    · show g.findOp j = some d
      unfold Graph.findOp
      rw [hops, find?_append_none (find?_id_none hjl1)]
      have hbeqf : (op.id == j) = false := by simp [hjop]
      have h6 : (op :: l2).find? (fun o => o.id == j) = l2.find? (fun o => o.id == j) := by
        simp [List.find?, hbeqf]
      rw [h6, hd]
    · show h0.findOp j = some (Op.subst (Value.res op.id) (Value.res g.freshId) d)
      unfold Graph.findOp
      rw [hdecomp, find?_append_none (find?_id_none hjl1)]
      have hbeqf2 : (nop.id == j) = false := by
        rw [hnid]
        simp
        intro he
        exact absurd (he ▸ hj) hfreshl2
      have h6 : (nop :: l2.map (Op.subst (Value.res op.id) (Value.res g.freshId))).find?
            (fun o => o.id == j)
          = (l2.map (Op.subst (Value.res op.id) (Value.res g.freshId))).find?
            (fun o => o.id == j) := by
        simp [List.find?, hbeqf2]
      rw [h6, find?_map_subst, hd]
      rfl
  -- status stability on the untouched prefix
  have hS1 : ∀ o2 ∈ l1, patternStatus h0 o2 = patternStatus g o2 := by
    intro o2 ho2
    have hcase : ∀ (k : OpKind), k = OpKind.transpose ∨ k = OpKind.reshape →
        o2.kind = k → patternStatus h0 o2 = patternStatus g o2 := by
      intro k hkk hk2
      cases hops2 : o2.operands with
      | nil =>
        rw [patternStatus_no_operand (Or.inl hops2),
          patternStatus_no_operand (Or.inl hops2)]
      | cons v vs =>
        cases vs with
        | cons v2 vs2 =>
          rw [patternStatus_no_operand (Or.inr ⟨v, v2, vs2, hops2⟩),
            patternStatus_no_operand (Or.inr ⟨v, v2, vs2, hops2⟩)]
        | nil =>
          rw [patternStatus_eq_inner hk2 hkk hops2, patternStatus_eq_inner hk2 hkk hops2]
          cases v with
          | arg n => rfl
          | res j =>
            have hj : j ∈ l1.map Op.id := by
              have h2 := wfOps_operand_ids hwfl1 o2 ho2 j (by rw [hops2]; simp)
              simpa using h2
            obtain ⟨d, hg1, hh1⟩ := hfindl1 j hj
            exact innerStatus_eq_defOp (by rw [hg1, hh1])
    cases hk2 : o2.kind with
    | other tag => rw [patternStatus_other hk2, patternStatus_other hk2]
    | transpose => exact hcase _ (Or.inl rfl) hk2
    | reshape => exact hcase _ (Or.inr rfl) hk2
  -- the fresh reshape does not match
  have hS2 : patternStatus h0 nop = false := by
    have h1 : patternStatus h0 nop = innerStatus h0 w OpKind.reshape :=
      patternStatus_eq_inner hnk (Or.inr rfl) hno
    have h2 : innerStatus h0 w OpKind.reshape = innerStatus g w OpKind.reshape := by
      cases hwc : w with
      | arg n => rfl
      | res j =>
        have hj : j ∈ l1.map Op.id := by
          rw [hl1, List.map_append, List.mem_append]
          exact Or.inl (hwid j hwc)
        obtain ⟨d, hg1, hh1⟩ := hfindl1 j hj
        exact innerStatus_eq_defOp (by rw [hg1, hh1])
    have h3 : innerStatus g w OpKind.reshape = false := by
      have h5 := hnomatch inner (by
        rw [hl1]
        exact List.mem_append.mpr (Or.inr (List.mem_cons_self _ _)))
      have h4 : patternStatus g inner = false := by
        rw [← tryPattern_isSome_eq, h5]
        rfl
      rw [patternStatus_eq_inner hkind (Or.inr rfl) hio] at h4
      exact h4
    rw [h1, h2, h3]
  -- status stability on the substituted suffix
  have hS3 : ∀ o2 ∈ l2,
      patternStatus h0 (Op.subst (Value.res op.id) (Value.res g.freshId) o2)
        = patternStatus g o2 := by
    intro o2 ho2
    have hcase : ∀ (k : OpKind), k = OpKind.transpose ∨ k = OpKind.reshape →
        o2.kind = k →
        patternStatus h0 (Op.subst (Value.res op.id) (Value.res g.freshId) o2)
          = patternStatus g o2 := by
      intro k hkk hk2
      have hks : (Op.subst (Value.res op.id) (Value.res g.freshId) o2).kind = k := hk2
      cases hops2 : o2.operands with
      | nil =>
        have hops2s : (Op.subst (Value.res op.id) (Value.res g.freshId) o2).operands = [] := by
          show o2.operands.map _ = []
          rw [hops2]
          rfl
        rw [patternStatus_no_operand (Or.inl hops2s),
          patternStatus_no_operand (Or.inl hops2)]
      | cons v vs =>
        cases vs with
        | cons v2 vs2 =>
          have hops2s : (Op.subst (Value.res op.id) (Value.res g.freshId) o2).operands
              = substV (Value.res op.id) (Value.res g.freshId) v
                :: substV (Value.res op.id) (Value.res g.freshId) v2
                :: vs2.map (substV (Value.res op.id) (Value.res g.freshId)) := by
            show o2.operands.map _ = _
            rw [hops2]
            rfl
          rw [patternStatus_no_operand (Or.inr ⟨_, _, _, hops2s⟩),
            patternStatus_no_operand (Or.inr ⟨v, v2, vs2, hops2⟩)]
        | nil =>
          have hops2s : (Op.subst (Value.res op.id) (Value.res g.freshId) o2).operands
              = [substV (Value.res op.id) (Value.res g.freshId) v] := by
            show o2.operands.map _ = _
            rw [hops2]
            rfl
          rw [patternStatus_eq_inner hks hkk hops2s,
            patternStatus_eq_inner hk2 hkk hops2]
          cases v with
          | arg n =>
            rw [substV_of_ne (by simp)]
            rfl
          | res j =>
            by_cases hjop : j = op.id
            · subst hjop
              rw [substV_old]
              apply innerStatus_eq_of_some hfind_fresh hfind_op
              · rw [hnk, hkop]
              · rw [hno, hop]
            · rw [substV_of_ne (by simp [hjop])]
              have h2 : j ∈ ((l1 ++ [op]) ++ l2).map Op.id := by
                have h3 := wfOps_operand_ids hwfl2 o2 ho2 j (by rw [hops2]; simp)
                exact h3
              rw [List.map_append, List.mem_append] at h2
              rcases h2 with h2 | h2
              · rw [List.map_append, List.mem_append] at h2
                rcases h2 with h2 | h2
                · obtain ⟨d, hg1, hh1⟩ := hfindl1 j h2
                  exact innerStatus_eq_defOp (by rw [hg1, hh1])
                · exfalso
                  rw [List.map_cons, List.map_nil, List.mem_singleton] at h2
                  exact hjop h2
              · obtain ⟨d, hg1, hh1⟩ := hfindl2 j h2
                apply innerStatus_eq_of_some hh1 hg1
                · rfl
                · show (match d.operands.map (substV (Value.res op.id) (Value.res g.freshId))
                      with
                    | [_] => true
                    | _ => false) = _
                  cases d.operands with
                  | nil => rfl
                  | cons a t2 =>
                    cases t2 with
                    | nil => rfl
                    | cons b t3 => rfl
    cases hk2 : o2.kind with
    | other tag =>
      rw [patternStatus_other (show (Op.subst (Value.res op.id)
          (Value.res g.freshId) o2).kind = OpKind.other tag from hk2),
        patternStatus_other hk2]
    | transpose => exact hcase _ (Or.inl rfl) hk2
    | reshape => exact hcase _ (Or.inr rfl) hk2
  -- counting
  have hmcg : matcherCount g
      = (l2.filter (fun o => (tryPattern g o).isSome)).length + 1 := by
    unfold matcherCount
    rw [hops, List.filter_append]
    rw [filter_eq_nil_of_false (fun o2 ho2 => by rw [hnomatch o2 ho2]; rfl)]
    rw [List.filter_cons_of_pos (by
      show (tryPattern g op).isSome = true
      have h5 : tryPattern g op = some h0 := by
        unfold tryPattern
        rw [hkop]
        exact happ
      rw [h5]
      rfl)]
    simp [Nat.add_comm]
  have hmch0 : matcherCount h0
      = (l2.filter (fun o => (tryPattern g o).isSome)).length := by
    unfold matcherCount
    rw [hdecomp, List.filter_append]
    rw [filter_eq_nil_of_false (fun o2 ho2 => by
      rw [tryPattern_isSome_eq, hS1 o2 ho2, ← tryPattern_isSome_eq, hnomatch o2 ho2]
      rfl)]
    rw [List.filter_cons_of_neg (by
      rw [tryPattern_isSome_eq, hS2]
      simp)]
    rw [List.filter_map]
    have hfc : List.filter ((fun o => (tryPattern h0 o).isSome)
          ∘ (Op.subst (Value.res op.id) (Value.res g.freshId))) l2
        = List.filter (fun o => (tryPattern g o).isSome) l2 := by
      apply List.filter_congr
      intro o2 ho2
      show (tryPattern h0 (Op.subst (Value.res op.id) (Value.res g.freshId) o2)).isSome
        = (tryPattern g o2).isSome
      rw [tryPattern_isSome_eq, hS3 o2 ho2, ← tryPattern_isSome_eq]
    rw [List.nil_append, List.length_map, hfc]
  refine ⟨by rw [hmcg, hmch0], ?_, ?_⟩
  · intro o2 ho2 hid
    rw [hdecomp] at ho2
    rcases List.mem_append.mp ho2 with h2 | h2
    · exact absurd (hid ▸ List.mem_map_of_mem _ h2) hfreshl1
    · rcases List.mem_cons.mp h2 with rfl | h3
      · cases ht : tryPattern h0 o2 with
        | none => rfl
        | some x =>
          exfalso
          have h4 : (tryPattern h0 o2).isSome = true := by rw [ht]; rfl
          rw [tryPattern_isSome_eq, hS2] at h4
          cases h4
      · exfalso
        obtain ⟨d, hd2, he⟩ := List.mem_map.mp h3
        apply hfreshl2
        have h6 : d.id = g.freshId := by
          rw [← hid, ← he]
          rfl
        exact h6 ▸ List.mem_map_of_mem _ hd2
  · rw [hdecomp, hops]
    simp

/-- One transpose rewrite erases exactly one operation. -/
theorem transpose_step_length {g g' : Graph} {op : Op}
    (hnd : (g.ops.map Op.id).Nodup) (hmem : op ∈ g.ops)
    (happ : simplifyRedundantTranspose g op = some g') :
    g'.ops.length + 1 = g.ops.length := by
  obtain ⟨inner, w, hop, hdef, hkind, hio, hg'⟩ := simplifyRedundantTranspose_inv happ
  rw [hg', replaceOpWith_ops, List.length_map]
  exact filter_ne_id_length hnd hmem

/-- Arithmetic: the measure drops when the operation count shrinks. -/
theorem measure_lt_of_shrink {x K mc1 mc2 : Nat} (hx : x ≤ K) (hm : mc1 ≤ x) :
    x * (x + 1) + mc1 < (K + 1) * ((K + 1) + 1) + mc2 := by
  have hmul : x * (x + 1) ≤ K * (K + 1) := Nat.mul_le_mul hx (Nat.succ_le_succ hx)
  have h2 : (K + 1) * ((K + 1) + 1) = K * (K + 1) + (2 * K + 2) := by ring
  calc x * (x + 1) + mc1 ≤ K * (K + 1) + x := Nat.add_le_add hmul hm
    _ < K * (K + 1) + (2 * K + 2) := Nat.add_lt_add_left (by omega) _
    _ = (K + 1) * ((K + 1) + 1) := h2.symm
    _ ≤ (K + 1) * ((K + 1) + 1) + mc2 := Nat.le_add_right _ _

/-- Each successful driver iteration strictly decreases the termination
measure underlying the pass fuel. -/
theorem passStep_measure {g g' : Graph} (hwf : g.wf = true)
    (hp : g.passStep = some g') :
    g'.ops.length * (g'.ops.length + 1) + matcherCount g'
      < g.ops.length * (g.ops.length + 1) + matcherCount g := by
  unfold Graph.passStep at hp
  cases hs : g.step with
  | none => rw [hs] at hp; cases hp
  | some h0 =>
    rw [hs] at hp
    have hg' : g' = Graph.dce h0 := by
      have h2 : some (Graph.dce h0) = some g' := hp
      injection h2 with h3
      exact h3.symm
    obtain ⟨l1, o, l2, hsplit, hnone, ht⟩ := stepAux_first hs
    have hmemo : o ∈ g.ops := by
      rw [hsplit]
      exact List.mem_append.mpr (Or.inr (List.mem_cons_self _ _))
    rcases tryPattern_some_inv ht with ⟨hk, happ⟩ | ⟨hk, happ⟩
    · have hlen : h0.ops.length + 1 = g.ops.length :=
        transpose_step_length (wf_nodup hwf) hmemo happ
      have hle : g'.ops.length ≤ h0.ops.length := by
        rw [hg']
        exact dceIter_length_le _ _
      have hK : g.ops.length = h0.ops.length + 1 := hlen.symm
      rw [hK]
      exact measure_lt_of_shrink hle (matcherCount_le g')
    · obtain ⟨hmc, hfreshmatch, hlen⟩ := reshape_step_matchers hwf hsplit hnone hk happ
      by_cases hlen2 : g'.ops.length = h0.ops.length
      · have hdceid : Graph.dce h0 = h0 := by
          apply dceIter_eq_of_length
          show (Graph.dce h0).ops.length = h0.ops.length
          rw [← hg']
          exact hlen2
        have hg'h0 : g' = h0 := by rw [hg', hdceid]
        rw [hg'h0, hlen]
        exact Nat.add_lt_add_left (by omega) _
      · have hle : g'.ops.length ≤ h0.ops.length := by
          rw [hg']
          exact dceIter_length_le _ _
        have hlt : g'.ops.length < h0.ops.length := Nat.lt_of_le_of_ne hle hlen2
        obtain ⟨K, hKe⟩ : ∃ K, g.ops.length = K + 1 :=
          ⟨h0.ops.length - 1, by omega⟩
        have hx : g'.ops.length ≤ K := by omega
        rw [hKe]
        exact measure_lt_of_shrink hx (matcherCount_le g')

/-- With fuel at least the measure, the driver loop reaches a fixpoint. -/
theorem runPass_fix : ∀ (n : Nat) (g : Graph), g.wf = true →
    g.ops.length * (g.ops.length + 1) + matcherCount g ≤ n →
    (runPass n g).passStep = none := by
  intro n
  induction n with
  | zero =>
    intro g hwf hle
    have hmc : matcherCount g = 0 := by omega
    have hstep : g.step = none := by
      apply stepAux_eq_none
      intro o ho
      have hfil : g.ops.filter (fun o2 => (tryPattern g o2).isSome) = [] := by
        have h2 : (g.ops.filter (fun o2 => (tryPattern g o2).isSome)).length = 0 := hmc
        cases hf : g.ops.filter (fun o2 => (tryPattern g o2).isSome) with
        | nil => rfl
        | cons a t2 => rw [hf] at h2; cases h2
      cases hto : tryPattern g o with
      | none => rfl
      | some x =>
        exfalso
        have hmem2 : o ∈ g.ops.filter (fun o2 => (tryPattern g o2).isSome) := by
          rw [List.mem_filter]
          exact ⟨ho, by rw [hto]; rfl⟩
        rw [hfil] at hmem2
        cases hmem2
    show (g.passStep) = none
    unfold Graph.passStep
    rw [hstep]
    rfl
  | succ m ih =>
    intro g hwf hle
    cases hp : g.passStep with
    | none =>
      rw [runPass_of_fixpoint hp]
      exact hp
    | some h1 =>
      have hre : runPass (m + 1) g = runPass m h1 := by
        show (match g.passStep with
          | none => g
          | some h2 => runPass m h2) = runPass m h1
        rw [hp]
      rw [hre]
      have hwf1 : h1.wf = true := (passStep_preserves hwf hp).1
      have hlt := passStep_measure hwf hp
      exact ih h1 hwf1 (by omega)

/-- A failed driver scan means no operation of the list matches. -/
theorem stepAux_none_forall {g : Graph} :
    ∀ {l : List Op}, stepAux g l = none → ∀ o ∈ l, tryPattern g o = none := by
  intro l
  induction l with
  | nil => intro _ o ho; cases ho
  | cons o rest ih =>
    intro hs o2 ho2
    unfold stepAux at hs
    cases ht : tryPattern g o with
    | some h2 => rw [ht] at hs; cases hs
    | none =>
      rw [ht] at hs
      rcases List.mem_cons.mp ho2 with rfl | h3
      · exact ht
      · exact ih hs o2 h3

/-- C6: the canonicalization pass is idempotent on well-formed graphs —
running it a second time returns the very same graph, because after one run
to fixpoint neither pattern matches any operation of the result. -/
theorem canonicalize_idempotent {g : Graph} (hwf : g.wf = true) :
    Graph.canonicalize (Graph.canonicalize g) = Graph.canonicalize g ∧
    (∀ o ∈ (Graph.canonicalize g).ops, tryPattern (Graph.canonicalize g) o = none) := by
  have hfix : (Graph.canonicalize g).passStep = none :=
    runPass_fix (fuelOf g) g hwf (Nat.le_refl _)
  constructor
  · show runPass (fuelOf (Graph.canonicalize g)) (Graph.canonicalize g)
      = Graph.canonicalize g
    exact runPass_of_fixpoint hfix _
  · have hstep : (Graph.canonicalize g).step = none := by
      unfold Graph.passStep at hfix
      cases hs : (Graph.canonicalize g).step with
      | none => rfl
      | some h1 => rw [hs] at hfix; cases hfix
    exact stepAux_none_forall hstep

/-- Witness for C6: canonicalizing the double-transpose example twice gives
the graph of the first canonicalization, on which no pattern matches. -/
theorem canonicalize_idempotent_witness :
    Graph.canonicalize (Graph.canonicalize exTT) = Graph.canonicalize exTT ∧
    (∀ o ∈ (Graph.canonicalize exTT).ops, tryPattern (Graph.canonicalize exTT) o = none) :=
  canonicalize_idempotent (by decide)

/-- C8: repeated application of ReshapeReshapeOptPattern terminates — on a
well-formed graph, a first-match reshape rewrite creates the new reshape with
the inner reshape's operand (one hop shorter than the matched operand chain),
the created operation itself cannot be matched again, and the number of
operations any pattern matches strictly decreases while the operation count
stays the same, so the rewriting cannot loop. -/
theorem reshape_rewrite_terminates {g h0 : Graph} {op : Op} {l1 l2 : List Op}
    (hwf : g.wf = true) (hops : g.ops = l1 ++ op :: l2)
    (hfirst : ∀ o2 ∈ l1, tryPattern g o2 = none)
    (hkop : op.kind = OpKind.reshape)
    (happ : reshapeReshapeOpt g op = some h0) :
    (∃ (inner : Op) (w : Value), op.operands = [Value.res inner.id] ∧
      inner.kind = OpKind.reshape ∧ inner.operands = [w] ∧
      (⟨g.freshId, OpKind.reshape, [w], op.retTy⟩ : Op) ∈ h0.ops) ∧
    (∀ o2 ∈ h0.ops, o2.id = g.freshId → tryPattern h0 o2 = none) ∧
    matcherCount h0 < matcherCount g ∧
    h0.ops.length = g.ops.length := by
  obtain ⟨hmc, hfresh, hlen⟩ := reshape_step_matchers hwf hops hfirst hkop happ
  obtain ⟨inner, w, p1, p2, hop, hkind, hio, hl1, hwid, hdecomp, hargty⟩ :=
    reshape_step_shape hwf hops happ
  refine ⟨⟨inner, w, hop, hkind, hio, ?_⟩, hfresh, by omega, hlen⟩
  rw [hdecomp]
  exact List.mem_append.mpr (Or.inr (List.mem_cons_self _ _))

/-- Witness for C8: the two-reshape example, whose first match is the outer
reshape; the rewrite yields a non-matchable fresh reshape of the argument and
leaves no matching operation at all. -/
theorem reshape_rewrite_terminates_witness :
    (∃ (inner : Op) (w : Value), exRRouter.operands = [Value.res inner.id] ∧
      inner.kind = OpKind.reshape ∧ inner.operands = [w] ∧
      (⟨exRR.freshId, OpKind.reshape, [w], exRRouter.retTy⟩ : Op)
        ∈ (⟨[exRRinner, ⟨3, OpKind.reshape, [Value.arg 0], ⟨6, 1⟩⟩],
            exRR.argTy, [Value.res 3]⟩ : Graph).ops) ∧
    (∀ o2 ∈ (⟨[exRRinner, ⟨3, OpKind.reshape, [Value.arg 0], ⟨6, 1⟩⟩],
        exRR.argTy, [Value.res 3]⟩ : Graph).ops, o2.id = exRR.freshId →
      tryPattern (⟨[exRRinner, ⟨3, OpKind.reshape, [Value.arg 0], ⟨6, 1⟩⟩],
        exRR.argTy, [Value.res 3]⟩ : Graph) o2 = none) ∧
    matcherCount (⟨[exRRinner, ⟨3, OpKind.reshape, [Value.arg 0], ⟨6, 1⟩⟩],
      exRR.argTy, [Value.res 3]⟩ : Graph) < matcherCount exRR ∧
    (⟨[exRRinner, ⟨3, OpKind.reshape, [Value.arg 0], ⟨6, 1⟩⟩],
      exRR.argTy, [Value.res 3]⟩ : Graph).ops.length = exRR.ops.length :=
  @reshape_rewrite_terminates exRR
    ⟨[exRRinner, ⟨3, OpKind.reshape, [Value.arg 0], ⟨6, 1⟩⟩],
      exRR.argTy, [Value.res 3]⟩ exRRouter [exRRinner] []
    (by decide) rfl
    (by
      intro o2 ho2
      rw [List.mem_singleton] at ho2
      subst ho2
      rfl)
    rfl rfl

/-- Witness for C5: a three-transpose chain collapses to one transpose and a
three-reshape chain collapses to one reshape of the final shape. -/
theorem chain_collapse_witness :
    (((Graph.canonicalize (chainGraph OpKind.transpose [1, 2, 3] [ty32, ty23, ty32])).ops.length
        = [1, 2, 3].length % 2 ∧
      ∀ o ∈ (Graph.canonicalize (chainGraph OpKind.transpose [1, 2, 3] [ty32, ty23, ty32])).ops,
        o.kind = OpKind.transpose) ∧
     ([1, 2, 3] ≠ ([] : List Nat) → ∃ j t, [ty32, ty23, ty32].getLast? = some t ∧
       (Graph.canonicalize (chainGraph OpKind.reshape [1, 2, 3] [ty32, ty23, ty32])).ops
         = [⟨j, OpKind.reshape, [Value.arg 0], t⟩])) :=
  chain_collapse [1, 2, 3] [ty32, ty23, ty32] (by decide) rfl


/-- C1: running the canonicalization pass on a well-formed graph preserves the
evaluation — for every shape-respecting interpretation of the opaque
operations and every input valuation matching the argument types, the
canonicalized graph yields exactly the same outputs as the original graph;
and transpose is an involution on valid tensors, which is what makes the
transpose(transpose(x)) → x rewrite value-preserving. -/
theorem canonicalize_semantics {g : Graph} (hwf : g.wf = true)
    {α : Type} [Inhabited α]
    (interp : Nat → Ty → List (Tensor α) → Tensor α) (args : Nat → Tensor α)
    (hinterp : ∀ tag ty ts, (interp tag ty ts).rows = ty.rows ∧
      (interp tag ty ts).cols = ty.cols ∧ (interp tag ty ts).data.length = ty.count)
    (hargs : ∀ n, (args n).rows = (g.argTy n).rows ∧ (args n).cols = (g.argTy n).cols ∧
      (args n).data.length = (g.argTy n).count) :
    (Graph.canonicalize g).eval interp args = g.eval interp args ∧
    (∀ t : Tensor α, t.valid → transposeT (transposeT t) = t) := by
  refine ⟨?_, fun t hv => transposeT_involutive hv⟩
  exact (runPass_preserves (fuelOf g) g hwf).2.2 interp args hinterp hargs

/-- Witness for C1: the double-transpose example evaluates identically before
and after canonicalization, under the all-zeros interpretation of opaque
operations and a concrete 2 by 3 input tensor. -/
theorem canonicalize_semantics_witness :
    (Graph.canonicalize exTT).eval
        (fun _ ty _ => (⟨ty.rows, ty.cols, List.replicate ty.count 0⟩ : Tensor Int))
        (fun _ => (⟨2, 3, [0, 1, 2, 3, 4, 5]⟩ : Tensor Int))
      = exTT.eval
        (fun _ ty _ => (⟨ty.rows, ty.cols, List.replicate ty.count 0⟩ : Tensor Int))
        (fun _ => (⟨2, 3, [0, 1, 2, 3, 4, 5]⟩ : Tensor Int)) ∧
    (∀ t : Tensor Int, t.valid → transposeT (transposeT t) = t) :=
  @canonicalize_semantics exTT (by decide) Int _
    (fun _ ty _ => (⟨ty.rows, ty.cols, List.replicate ty.count 0⟩ : Tensor Int))
    (fun _ => (⟨2, 3, [0, 1, 2, 3, 4, 5]⟩ : Tensor Int))
    (by intro tag ty ts; exact ⟨rfl, rfl, by simp⟩)
    (by intro n; exact ⟨rfl, rfl, rfl⟩)

end Toy
